import Mathlib

/-!
# Directed weighted graph: model of `edge.cpp`, `vertex.cpp`, `graph.cpp`

The C++ classes `Edge`, `Vertex` and `Graph` are embedded as Lean structures and
their member functions as functions that pass the object state explicitly.

Conventions of the embedding.

* `std::string` is `String`; `int` is `Int` (no wrap-around is modelled: the
  counters and path costs of the runs considered stay far from `2^31`).
* `std::map<std::string, T>` is a list of `(key, value)` pairs kept in
  ascending key order with no key twice (`mapInsert`, `mapAssign`, `mapErase`,
  `mapFind`, `mapCount`); `find(k) == end()` is `mapFind m k = none`.
* A map iterator is the position of its entry in that list; `end()` is the
  length of the list.
* A `Vertex *` that points at the vertex owned by the entry of
  `Graph::vertices` under some key is that key (`some key`); `nullptr` is
  `none`.  Reading or writing through the pointer is `Graph.deref` /
  `Graph.update`.
* The callback `visit` is modelled by the list of labels it has been called
  with, in call order.
* Undefined behaviour of the C++ (dereferencing `nullptr` or `end()`,
  `std::map::at` on a missing key) is an explicit `Fault`.
-/

namespace DirectedGraph

/-- Ways in which a run of the C++ leaves defined behaviour, plus the bookkeeping
value `outOfFuel` of the bounded loops of the model. -/
inductive Fault where
  | nullDeref
  | endDeref
  | outOfRange
  | outOfFuel
  deriving DecidableEq, Repr

/-- Result of a run: either a value or the fault that stopped it. -/
inductive Run (α : Type) where
  | ok (a : α)
  | fail (f : Fault)
  deriving DecidableEq, Repr

/-- Sequencing of runs: a fault stops the run. -/
def Run.bind {α β : Type} (r : Run α) (k : α → Run β) : Run β :=
  match r with
  | .ok a => k a
  | .fail f => .fail f

instance : Monad Run where
  pure := Run.ok
  bind := Run.bind

/-- A `for (int i = 0; i < n; i++) body` loop whose bound `n` is not changed by
the body: run `body` exactly `n` times, stopping at the first fault. -/
def forLoop {σ : Type} (body : σ → Run σ) : Nat → σ → Run σ
  | 0, s => .ok s
  | n + 1, s => (body s).bind (forLoop body n)

/-! ## `std::string` ordering and `std::map` -/

/-- `operator<` of `std::string`: lexicographic comparison of the characters. -/
def strLt (a b : String) : Bool := decide (a.toList < b.toList)

/-- `std::map::count`. -/
def mapCount {α : Type} : List (String × α) → String → Nat
  | [], _ => 0
  | (k, _) :: m, key => if key = k then 1 else mapCount m key

/-- `std::map::find`; `none` stands for `end()`. -/
def mapFind {α : Type} : List (String × α) → String → Option α
  | [], _ => none
  | (k, v) :: m, key => if key = k then some v else mapFind m key

/-- `std::map::insert`: a key that is present keeps its old value, a new key
is put at its place in ascending order. -/
def mapInsert {α : Type} : List (String × α) → String → α → List (String × α)
  | [], key, val => [(key, val)]
  | (k, v) :: m, key, val =>
    if key = k then (k, v) :: m
    else if strLt key k then (key, val) :: (k, v) :: m
    else (k, v) :: mapInsert m key val

/-- `m[key] = val`: insert or overwrite. -/
def mapAssign {α : Type} : List (String × α) → String → α → List (String × α)
  | [], key, val => [(key, val)]
  | (k, v) :: m, key, val =>
    if key = k then (k, val) :: m
    else if strLt key k then (key, val) :: (k, v) :: m
    else (k, v) :: mapAssign m key val

/-- `std::map::erase(key)`. -/
def mapErase {α : Type} : List (String × α) → String → List (String × α)
  | [], _ => []
  | (k, v) :: m, key => if key = k then m else (k, v) :: mapErase m key

/-- `m.erase(m.begin(), m.end())`. -/
def mapClear {α : Type} (_m : List (String × α)) : List (String × α) := []

/-- The keys of a map in iteration order. -/
def mapKeys {α : Type} (m : List (String × α)) : List String := m.map Prod.fst

/-! ## Edge -/

/-- Modelled from the spec: the member declarations of `class Edge` (the header
`edge.h` is not among the sources).  An edge is an end label and an integer
weight, the two members that the constructor in `edge.cpp` initialises. -/
structure Edge where
  endVertex : String
  edgeWeight : Int
  deriving DecidableEq, Repr

/-- `Edge::getWeight`. -/
def Edge.getWeight (e : Edge) : Int := e.edgeWeight

/-! ## Vertex -/

/-- Modelled from the spec: the member declarations of `class Vertex` (the header
`vertex.h` is not among the sources).  A vertex is its label, the ordered
mapping from neighbour label to edge, the visited flag and the neighbour
cursor; the member names are the ones `vertex.cpp` uses, and `currentNeighbor`
is the iterator into `adjacencyList`. -/
structure Vertex where
  vertexLabel : String
  adjacencyList : List (String × Edge)
  visited : Bool
  currentNeighbor : Nat
  deriving DecidableEq, Repr

namespace Vertex

/-- `Vertex::Vertex(label)`: an unvisited vertex with an empty adjacency list.
The iterator is not initialised by the constructor; it is not read before
`connect` has reset it, because `getNextNeighbor` tests the size first. -/
def new (label : String) : Vertex := ⟨label, [], false, 0⟩

/-- `Vertex::getLabel`. -/
def getLabel (v : Vertex) : String := v.vertexLabel

/-- `Vertex::visit`. -/
def visit (v : Vertex) : Vertex := { v with visited := true }

/-- `Vertex::unvisit`. -/
def unvisit (v : Vertex) : Vertex := { v with visited := false }

/-- `Vertex::isVisited`. -/
def isVisited (v : Vertex) : Bool := v.visited

/-- `Vertex::resetNeighbor`: `currentNeighbor = adjacencyList.begin()`. -/
def resetNeighbor (v : Vertex) : Vertex := { v with currentNeighbor := 0 }

/-- `Vertex::connect`: returns the new vertex state and the `bool` result. -/
def connect (v : Vertex) (endVertex : String) (edgeWeight : Int) : Vertex × Bool :=
  if mapCount v.adjacencyList endVertex ≠ 0 then (v, false)
  else
    (resetNeighbor
      { v with adjacencyList := mapInsert v.adjacencyList endVertex ⟨endVertex, edgeWeight⟩ },
     true)

/-- `Vertex::getEdgeWeight`: dereferences `adjacencyList.find(endVertex)` without
a check, which is a fault when the edge does not exist. -/
def getEdgeWeight (v : Vertex) (endVertex : String) : Run Int :=
  match mapFind v.adjacencyList endVertex with
  | some e => .ok e.getWeight
  | none => .fail .endDeref

/-- `Vertex::getNumberOfNeighbors`. -/
def getNumberOfNeighbors (v : Vertex) : Nat := v.adjacencyList.length

/-- `Vertex::getNextNeighbor`: the key under the iterator, advancing it, or `""`
when there is no neighbour or the iterator is at `end()`. -/
def getNextNeighbor (v : Vertex) : String × Vertex :=
  if 0 < v.getNumberOfNeighbors ∧ v.currentNeighbor ≠ v.adjacencyList.length then
    match v.adjacencyList.get? v.currentNeighbor with
    | some e => (e.1, { v with currentNeighbor := v.currentNeighbor + 1 })
    | none => ("", v)
  else ("", v)

end Vertex

/-! ## Graph -/

/-- Modelled from the spec: the member declarations of `class Graph` (the header
`graph.h` is not among the sources).  A graph is the mapping from label to
vertex and the two counters; the member names are the ones `graph.cpp` uses.
`vertices` is the `std::map<std::string, Vertex *>`, each pointer stored
together with the vertex it owns. -/
structure Graph where
  vertices : List (String × Vertex)
  numberOfVertices : Int
  numberOfEdges : Int
  deriving DecidableEq, Repr

namespace Graph

/-- `Graph::Graph()`. -/
def empty : Graph := ⟨[], 0, 0⟩

/-- `Graph::getNumVertices`. -/
def getNumVertices (g : Graph) : Int := g.numberOfVertices

/-- `Graph::getNumEdges`. -/
def getNumEdges (g : Graph) : Int := g.numberOfEdges

/-- Read through a `Vertex *` that points into the map. -/
def deref (g : Graph) (p : String) : Run Vertex :=
  match mapFind g.vertices p with
  | some v => .ok v
  | none => .fail .nullDeref

/-- Apply `f` to the vertex that the map stores under key `p`. -/
def updateEntries (f : Vertex → Vertex) (p : String) :
    List (String × Vertex) → List (String × Vertex)
  | [] => []
  | (k, v) :: m => if p = k then (k, f v) :: m else (k, v) :: updateEntries f p m

/-- Write through a `Vertex *` that points into the map. -/
def update (g : Graph) (p : String) (f : Vertex → Vertex) : Graph :=
  { g with vertices := updateEntries f p g.vertices }

/-- `Graph::findVertex`: linear scan of the map for the label; `nullptr` for
the empty label and for a label that is not a key. -/
def findVertex (g : Graph) (vertexLabel : String) : Option String :=
  if vertexLabel ≠ "" then
    (g.vertices.find? (fun vertex => vertexLabel = vertex.1)).map Prod.fst
  else none

/-- Result of `findOrCreateVertex`: the pointer is either to a vertex owned by
the map (`owned key`) or to a freshly allocated vertex whose `insert` was
rejected because the key was already there (`stray v`). -/
inductive VertexRef where
  | owned (key : String)
  | stray (v : Vertex)
  deriving DecidableEq, Repr

/-- `Graph::findOrCreateVertex`. -/
def findOrCreateVertex (g : Graph) (vertexLabel : String) : Graph × VertexRef :=
  match g.findVertex vertexLabel with
  | some p => (g, .owned p)
  | none =>
    let retVal := Vertex.new vertexLabel
    let inserted := mapCount g.vertices vertexLabel = 0
    ({ g with vertices := mapInsert g.vertices vertexLabel retVal,
              numberOfVertices := g.numberOfVertices + 1 },
     if inserted then .owned vertexLabel else .stray retVal)

/-- `Graph::add`; the `vStart == nullptr` branch cannot be taken because
`findOrCreateVertex` never returns `nullptr`. -/
def add (g : Graph) (start endLabel : String) (edgeWeight : Int) : Graph × Bool :=
  let r1 := g.findOrCreateVertex start
  let vStart := r1.2
  let r2 := r1.1.findOrCreateVertex endLabel
  let g3 :=
    match vStart with
    | .owned p => r2.1.update p (fun v => (v.connect endLabel edgeWeight).1)
    | .stray _ => r2.1
  ({ g3 with numberOfEdges := g3.numberOfEdges + 1 }, true)

/-- `Graph::unvisitAllVertices`. -/
def unvisitAllVertices (g : Graph) : Graph :=
  { g with vertices := g.vertices.map (fun e => (e.1, e.2.unvisit.resetNeighbor)) }

/-- `p->visit()`. -/
def visitAt (g : Graph) (p : String) : Graph := g.update p Vertex.visit

/-- `p->getNextNeighbor()`: the label handed back and the graph with the
advanced iterator. -/
def getNextNeighborAt (g : Graph) (p : String) : Run (String × Graph) :=
  (g.deref p).bind fun v =>
    .ok ((v.getNextNeighbor).1, g.update p (fun w => (w.getNextNeighbor).2))

/-- State threaded through a traversal: the graph and the calls of `visit` so far. -/
abbrev Trav := Graph × List String

/-- Body of the `for` loop of `depthFirstTraversalHelper`, with the recursive
call passed in as `recurse`. -/
def dfsBody (recurse : Graph → List String → Option String → Run Trav) (p : String)
    (s : Trav) : Run Trav :=
  (s.1.getNextNeighborAt p).bind fun r =>
    let nextNeighbor := r.1
    let g := r.2
    match g.findVertex nextNeighbor with
    | none => .fail .nullDeref
    | some q =>
      (g.deref q).bind fun nextVertex =>
        if !nextVertex.isVisited then recurse g s.2 (some q) else .ok (g, s.2)

/-- `Graph::depthFirstTraversalHelper`.  The first argument bounds the depth of
the recursion. -/
def depthFirstTraversalHelper : Nat → Graph → List String → Option String → Run Trav
  | _, g, out, none => .ok (g, out)
  | 0, _, _, some _ => .fail .outOfFuel
  | fuel + 1, g, out, some p =>
    (g.deref p).bind fun startVertex =>
      let g1 := g.visitAt p
      let out1 := out ++ [startVertex.getLabel]
      forLoop (dfsBody (depthFirstTraversalHelper fuel) p) startVertex.getNumberOfNeighbors
        (g1, out1)

/-- `Graph::depthFirstTraversal`: the recursion depth is bounded by the number
of vertices, since every call marks a vertex that was unvisited. -/
def depthFirstTraversal (g : Graph) (startLabel : String) : Run Trav :=
  let g0 := g.unvisitAllVertices
  depthFirstTraversalHelper (g0.vertices.length + 1) g0 [] (g0.findVertex startLabel)

/-- State threaded through `breadthFirstTraversal`: graph, calls of `visit` so
far, and the `std::queue<Vertex *>` (front first). -/
structure BfsState where
  graph : Graph
  out : List String
  queue : List String
  deriving DecidableEq, Repr

/-- Body of the `for` loop of `breadthFirstTraversal` for the dequeued vertex
`currentV`. -/
def bfsBody (currentV : String) (s : BfsState) : Run BfsState :=
  (s.graph.getNextNeighborAt currentV).bind fun r =>
    let currentNeighborStr := r.1
    let g := r.2
    match g.findVertex currentNeighborStr with
    | none => .fail .nullDeref
    | some q =>
      (g.deref q).bind fun currentNeighborV =>
        if !currentNeighborV.isVisited then
          .ok ⟨g.visitAt q, s.out ++ [currentNeighborV.getLabel], s.queue ++ [q]⟩
        else .ok ⟨g, s.out, s.queue⟩

/-- The `while (!queue.empty())` loop of `breadthFirstTraversal`.  The first
argument bounds the number of iterations. -/
def bfsLoop : Nat → BfsState → Run BfsState
  | _, ⟨g, out, []⟩ => .ok ⟨g, out, []⟩
  | 0, ⟨_, _, _ :: _⟩ => .fail .outOfFuel
  | fuel + 1, ⟨g, out, currentV :: rest⟩ =>
    (g.deref currentV).bind fun cv =>
      (forLoop (bfsBody currentV) cv.getNumberOfNeighbors ⟨g, out, rest⟩).bind (bfsLoop fuel)

/-- `Graph::breadthFirstTraversal`: every vertex is enqueued at most once, so
the loop runs at most once per vertex. -/
def breadthFirstTraversal (g : Graph) (startLabel : String) : Run Trav :=
  let g0 := g.unvisitAllVertices
  match g0.findVertex startLabel with
  | none => .ok (g0, [])
  | some p =>
    (g0.deref p).bind fun startVertex =>
      (bfsLoop (g0.vertices.length + 1)
        ⟨g0.visitAt p, [startVertex.getLabel], [p]⟩).bind fun s => .ok (s.graph, s.out)

/-! ### Dijkstra -/

/-- The `PAIR` typedef: label and accumulated cost. -/
abbrev PAIR := String × Int

/-- Position of the entry that `std::priority_queue<PAIR, vector<PAIR>,
CompareBySecond>::top()` hands back: an entry of least `second`.  The queue is
kept in insertion order and, among entries of equal cost, the one pushed first
is taken.  The C++ leaves that choice to the heap of the library, which may
take another entry of the same cost; the runs evaluated with this definition
have no two entries of equal cost in the queue at any pop, and C18 and C21,
which speak of all runs, are stated with `dijkstraCostToAllVerticesOn`, for
every queue. -/
def pqTopIndex : List PAIR → Option Nat
  | [] => none
  | x :: rest =>
    match pqTopIndex rest with
    | none => some 0
    | some i =>
      match rest.get? i with
      | some y => if y.2 < x.2 then some (i + 1) else some 0
      | none => some 0

/-- `pq.top()`. -/
def pqTop (pq : List PAIR) : Option PAIR :=
  (pqTopIndex pq).bind fun i => pq.get? i

/-- `pq.pop()`. -/
def pqPop (pq : List PAIR) : List PAIR :=
  match pqTopIndex pq with
  | some i => pq.eraseIdx i
  | none => pq

/-- `pq.push(x)`. -/
def pqPush (pq : List PAIR) (x : PAIR) : List PAIR := pq ++ [x]

/-- `m[key]` used as a value: a missing key is first inserted with `0`. -/
def mapIndex (m : List (String × Int)) (key : String) : List (String × Int) × Int :=
  match mapFind m key with
  | some v => (m, v)
  | none => (mapInsert m key 0, 0)

/-- `m.at(key)`: throws `std::out_of_range` for a missing key. -/
def mapAt (m : List (String × Int)) (key : String) : Run Int :=
  match mapFind m key with
  | some v => .ok v
  | none => .fail .outOfRange

/-- Local state of `dijkstraCostToAllVertices`. -/
structure DijkstraState where
  graph : Graph
  weight : List (String × Int)
  previous : List (String × String)
  pq : List PAIR
  vertexSet : List (String × String)
  deriving DecidableEq, Repr

/-- Body of the first `for` loop of `dijkstraCostToAllVertices` (the neighbours
of the start vertex). -/
def dijkstraInitBody (startLabel startVertex : String) (s : DijkstraState) :
    Run DijkstraState :=
  (s.graph.getNextNeighborAt startVertex).bind fun r =>
    let u := r.1
    let g := r.2
    (g.deref startVertex).bind fun sv =>
      (sv.getEdgeWeight u).bind fun w =>
        let weight := mapAssign s.weight u w
        let previous := mapAssign s.previous u startLabel
        let wu := mapIndex weight u
        .ok { s with graph := g, weight := wu.1, previous := previous,
                     pq := pqPush s.pq (u, wu.2) }

/-- `weight[u] = weight[v] + v2uCost; previous[u] = v; pq.push(make_pair(u, weight[u]))`.
The sum is the mathematical one, which is the `int` sum as long as it stays in
the range of `int`; `dijkstraRelaxOn` has the addition as a parameter. -/
def dijkstraRelax (s : DijkstraState) (u v : String) (v2uCost : Int) : DijkstraState :=
  let wv := mapIndex s.weight v
  let weight := mapAssign wv.1 u (wv.2 + v2uCost)
  let previous := mapAssign s.previous u v
  let wu := mapIndex weight u
  { s with weight := wu.1, previous := previous, pq := pqPush s.pq (u, wu.2) }

/-- Body of the inner `for` loop of `dijkstraCostToAllVertices` for the popped
label `v` with vertex `pVertex`. -/
def dijkstraBody (v pVertex : String) (s : DijkstraState) : Run DijkstraState :=
  (s.graph.getNextNeighborAt pVertex).bind fun r =>
    let u := r.1
    let g := r.2
    (g.deref pVertex).bind fun pv =>
      (pv.getEdgeWeight u).bind fun v2uCost =>
        let s1 := { s with graph := g }
        if mapCount s1.weight u = 0 then .ok (dijkstraRelax s1 u v v2uCost)
        else
          (mapAt s1.weight u).bind fun wu =>
            (mapAt s1.weight v).bind fun wv =>
              if wu > wv + v2uCost then .ok (dijkstraRelax s1 u v v2uCost) else .ok s1

/-- The `while (!pq.empty())` loop of `dijkstraCostToAllVertices`.  The first
argument bounds the number of iterations. -/
def dijkstraLoop : Nat → DijkstraState → Run DijkstraState
  | fuel, s =>
    match pqTop s.pq with
    | none => .ok s
    | some top =>
      match fuel with
      | 0 => .fail .outOfFuel
      | fuel + 1 =>
        let v := top.1
        let s1 := { s with pq := pqPop s.pq }
        let pVertex := s1.graph.findVertex v
        if mapCount s1.vertexSet v = 0 then
          match pVertex with
          | none => .fail .nullDeref
          | some p =>
            (s1.graph.deref p).bind fun pv =>
              (forLoop (dijkstraBody v p) pv.getNumberOfNeighbors s1).bind (dijkstraLoop fuel)
        else dijkstraLoop fuel s1

/-- `Graph::dijkstraCostToAllVertices`.  The incoming contents of the two output
maps are arguments because the function erases them itself. -/
def dijkstraCostToAllVertices (fuel : Nat) (g : Graph) (startLabel : String)
    (weight : List (String × Int)) (previous : List (String × String)) :
    Run (Graph × List (String × Int) × List (String × String)) :=
  let g0 := g.unvisitAllVertices
  let weight0 := mapClear weight
  let previous0 := mapClear previous
  match g0.findVertex startLabel with
  | none => .fail .nullDeref
  | some sp =>
    (g0.deref sp).bind fun sv =>
      (forLoop (dijkstraInitBody startLabel sp) sv.getNumberOfNeighbors
          ⟨g0, weight0, previous0, [], []⟩).bind fun s =>
        let s1 := { s with vertexSet := mapAssign s.vertexSet startLabel sp }
        (dijkstraLoop fuel s1).bind fun s2 =>
          .ok (s2.graph, mapErase s2.weight startLabel, mapErase s2.previous startLabel)

/-- The graph after a sequence of `add(start, end, weight)` calls on a new graph. -/
def build (calls : List (String × String × Int)) : Graph :=
  calls.foldl (fun g c => (g.add c.1 c.2.1 c.2.2).1) Graph.empty

/-! ## Well-formed graphs, edges and reachability -/

/-- The labels of the vertices of the graph, in map order. -/
def labels (g : Graph) : List String := mapKeys g.vertices

/-- The out-neighbours of the vertex stored under `p`, in the order of its
adjacency list; empty when `p` is not a vertex. -/
def neighbours (g : Graph) (p : String) : List String :=
  match mapFind g.vertices p with
  | some v => mapKeys v.adjacencyList
  | none => []

/-- There is an edge from `a` to `b` in the graph. -/
def HasEdge (g : Graph) (a b : String) : Prop := b ∈ g.neighbours a

/-- Vertex `v` is reachable from `s` along edges of the graph (in zero or more
steps). -/
def Reachable (g : Graph) (s v : String) : Prop := Relation.ReflTransGen g.HasEdge s v

/-- The representation invariant of a graph whose vertices all have non-empty
labels: both levels of maps are in strictly ascending key order, every vertex
is stored under its own label, and every edge ends in a vertex of the graph. -/
structure WF (g : Graph) : Prop where
  keys_sorted : (mapKeys g.vertices).Pairwise (· < ·)
  label_eq : ∀ e ∈ g.vertices, e.2.vertexLabel = e.1
  key_ne : ∀ e ∈ g.vertices, e.1 ≠ ""
  adj_sorted : ∀ e ∈ g.vertices, (mapKeys e.2.adjacencyList).Pairwise (· < ·)
  adj_mem : ∀ e ∈ g.vertices, ∀ t ∈ mapKeys e.2.adjacencyList, t ∈ mapKeys g.vertices

/-- Every label used in the calls is a non-empty string. -/
def NonEmptyLabels (calls : List (String × String × Int)) : Prop :=
  ∀ c ∈ calls, c.1 ≠ "" ∧ c.2.1 ≠ ""

instance (calls : List (String × String × Int)) : Decidable (NonEmptyLabels calls) := by
  unfold NonEmptyLabels
  infer_instance

/-! ## Reference traversals, after the words of the specification -/

/-- For each label `u` of `us` in order: run `dfs` on `u` unless `u` has been
emitted already.  The list of emitted labels is threaded through. -/
def refVisitAll (dfs : List String → String → List String) (us : List String)
    (emitted : List String) : List String :=
  us.foldl (fun em u => if u ∈ em then em else dfs em u) emitted

/-- The recursive pre-order reference: `dfs(v)` emits `v`, then for each
out-neighbour `u` of `v` in the order of `nbrs v` runs `dfs(u)` if `u` has not
been emitted yet.  The result is the list of all labels emitted so far; the
first argument bounds the recursion depth. -/
def refDfs (nbrs : String → List String) : Nat → List String → String → List String
  | 0, emitted, _ => emitted
  | fuel + 1, emitted, v => refVisitAll (refDfs nbrs fuel) (nbrs v) (emitted ++ [v])

/-! ## Bookkeeping used to describe the graph state after a traversal -/

/-- Apply a key-indexed change to every vertex of the map. -/
def mapVals (F : String → Vertex → Vertex) (m : List (String × Vertex)) :
    List (String × Vertex) :=
  m.map (fun e => (e.1, F e.1 e.2))

/-- A vertex after a traversal that emitted the labels `R`: if it was unvisited
and its label is in `R`, it is now visited with its iterator at `end()`. -/
def settleV (R : List String) (k : String) (v : Vertex) : Vertex :=
  if v.visited = false ∧ k ∈ R then
    { v with visited := true, currentNeighbor := v.adjacencyList.length }
  else v

/-- The graph after a traversal that emitted the labels `R`. -/
def settle (R : List String) (g : Graph) : Graph :=
  { g with vertices := mapVals (settleV R) g.vertices }

/-- Number of vertices whose visited flag is not set. -/
def unvisited (g : Graph) : Nat := g.vertices.countP (fun e => !e.2.visited)

/-- A write through pointer `p` seen as a key-indexed change. -/
def upd (p : String) (f : Vertex → Vertex) (k : String) (v : Vertex) : Vertex :=
  if p = k then f v else v

/-- The iterator of the vertex under `p` moved to `end()`. -/
def finishV (p : String) (k : String) (v : Vertex) : Vertex :=
  if p = k then { v with currentNeighbor := v.adjacencyList.length } else v

/-- A change of vertices that touches neither labels nor adjacency lists. -/
def Keeps (F : String → Vertex → Vertex) : Prop :=
  ∀ k v, (F k v).vertexLabel = v.vertexLabel ∧ (F k v).adjacencyList = v.adjacencyList

/-- State of a traversal in progress: the graph is well formed, the visited
vertices are exactly the labels emitted so far, and the iterator of every
unvisited vertex is still at `begin()`. -/
structure TravInv (g : Graph) (out : List String) : Prop where
  wf : g.WF
  vis_iff : ∀ e ∈ g.vertices, (e.2.visited = true ↔ e.1 ∈ out)
  cur_zero : ∀ e ∈ g.vertices, e.2.visited = false → e.2.currentNeighbor = 0

/-- The reference treatment of one neighbour `u` in the breadth-first
traversal: if `u` has not been emitted, emit it and put it at the back of the
queue.  The state is the pair (emitted labels, queue). -/
def refBfsStep (oq : List String × List String) (u : String) : List String × List String :=
  if u ∈ oq.1 then oq else (oq.1 ++ [u], oq.2 ++ [u])

/-- The reference treatment of all neighbours `us` of a dequeued vertex, in order. -/
def refBfsScan (us : List String) (oq : List String × List String) :
    List String × List String :=
  us.foldl refBfsStep oq

/-- The FIFO-queue reference: repeatedly dequeue a vertex and treat its
neighbours in the order of `nbrs`; the result is the list of emitted labels.
The first argument bounds the number of dequeue steps. -/
def refBfs (nbrs : String → List String) : Nat → List String → List String → List String
  | _, out, [] => out
  | 0, out, _ :: _ => out
  | fuel + 1, out, c :: rest =>
    refBfs nbrs fuel (refBfsScan (nbrs c) (out, rest)).1 (refBfsScan (nbrs c) (out, rest)).2

/-- The end points of the walks with exactly `k` edges that start in `s`. -/
def walkEnds (nbrs : String → List String) (s : String) : Nat → List String
  | 0 => [s]
  | k + 1 => (walkEnds nbrs s k).flatMap nbrs

/-- Vertex `v` is at hop distance `k` from `s`: some walk of `k` edges leads from
`s` to `v` and no shorter one does. -/
def HopDist (g : Graph) (s v : String) (k : Nat) : Prop :=
  v ∈ walkEnds g.neighbours s k ∧ ∀ j, j < k → v ∉ walkEnds g.neighbours s j

/-- Label `a` occurs in the list `l` at an earlier position than label `b`. -/
def Before (l : List String) (a b : String) : Prop :=
  ∃ l1 l2 l3, l = l1 ++ a :: l2 ++ b :: l3

/-- Two graph states that differ at most in visited flags and iterators. -/
def SameShape (g g' : Graph) : Prop :=
  g'.numberOfVertices = g.numberOfVertices ∧ g'.numberOfEdges = g.numberOfEdges ∧
    ∃ F, Keeps F ∧ g'.vertices = mapVals F g.vertices

/-- State of the breadth-first traversal between two dequeue steps: the
traversal invariant, and the queued labels are distinct visited vertices whose
iterators are still at `begin()`. -/
structure BfsInv (N : String → List String) (s : BfsState) : Prop where
  inv : TravInv s.graph s.out
  nbrs : s.graph.neighbours = N
  q_out : ∀ k ∈ s.queue, k ∈ s.out
  q_keys : ∀ k ∈ s.queue, k ∈ mapKeys s.graph.vertices
  q_nodup : s.queue.Nodup
  q_cur : ∀ e ∈ s.graph.vertices, e.1 ∈ s.queue → e.2.currentNeighbor = 0

/-- State of the breadth-first traversal inside the `for` loop over the
neighbours of the dequeued vertex `c`, of which `us` are still to come. -/
structure BfsMid (N : String → List String) (c : String) (us : List String) (s : BfsState) :
    Prop where
  base : BfsInv N s
  cur : ∃ vc, (c, vc) ∈ s.graph.vertices ∧ vc.visited = true ∧
    (mapKeys vc.adjacencyList).drop vc.currentNeighbor = us
  q_ne : c ∉ s.queue

/-- `d` measures hop distance from `s` on the vertices reachable from `s`: the
start is at 0, an edge raises it by at most one, and every other reachable
vertex has a reachable predecessor one step closer. -/
structure DistFn (N : String → List String) (s : String) (d : String → Nat) : Prop where
  start : d s = 0
  edge : ∀ x y, Relation.ReflTransGen (fun a b => b ∈ N a) s x → y ∈ N x → d y ≤ d x + 1
  pred : ∀ y, Relation.ReflTransGen (fun a b => b ∈ N a) s y → y ≠ s →
    ∃ x, Relation.ReflTransGen (fun a b => b ∈ N a) s x ∧ y ∈ N x ∧ d y = d x + 1

/-- State of the FIFO reference while the neighbours of the dequeued label `c`
are treated; `P` are the labels dequeued before `c`. -/
structure ScanInv (N : String → List String) (K : List String) (d : String → Nat) (s : String)
    (P : List String) (c : String) (out q : List String) : Prop where
  split : out = P ++ c :: q
  closedP : ∀ x ∈ P, ∀ y ∈ N x, y ∈ out
  sorted : out.Pairwise (fun a b => d a ≤ d b)
  bound : ∀ x ∈ out, d x ≤ d c + 1
  start_mem : s ∈ out
  reach : ∀ x ∈ out, Relation.ReflTransGen (fun a b => b ∈ N a) s x
  nodup : out.Nodup
  inK : ∀ x ∈ out, x ∈ K

/-- State of the FIFO reference between two dequeue steps. -/
structure BfsOrd (N : String → List String) (K : List String) (d : String → Nat) (s : String)
    (out q : List String) : Prop where
  split : ∃ P, out = P ++ q ∧ ∀ x ∈ P, ∀ y ∈ N x, y ∈ out
  sorted : out.Pairwise (fun a b => d a ≤ d b)
  bound : ∀ c, q.head? = some c → ∀ x ∈ out, d x ≤ d c + 1
  start_mem : s ∈ out
  reach : ∀ x ∈ out, Relation.ReflTransGen (fun a b => b ∈ N a) s x
  nodup : out.Nodup
  inK : ∀ x ∈ out, x ∈ K

end Graph

/-! ## Vertices built by `connect`, repeated iteration, call labels -/

namespace Vertex

/-- The vertex obtained from `Vertex(label)` by the calls `connect(t, w)` for the
pairs `(t, w)` of `cs`, in order. -/
def built (label : String) (cs : List (String × Int)) : Vertex :=
  cs.foldl (fun v c => (v.connect c.1 c.2).1) (Vertex.new label)

/-- The labels returned by `n` successive calls of `getNextNeighbor`, in call
order, and the vertex state after them. -/
def nextN : Nat → Vertex → List String × Vertex
  | 0, v => ([], v)
  | n + 1, v => ((v.getNextNeighbor).1 :: (nextN n (v.getNextNeighbor).2).1,
      (nextN n (v.getNextNeighbor).2).2)

end Vertex

namespace Graph

/-- All labels passed to the `add` calls, sources and targets, in call order. -/
def callLabels (calls : List (String × String × Int)) : List String :=
  calls.flatMap (fun c => [c.1, c.2.1])

/-! ### The shortest-path run over any priority queue and any `int` addition

The sources fix neither which of several queue entries of equal cost
`std::priority_queue::top()` hands back, nor the value of `weight[v] + v2uCost`
outside the range of `int`.  The definitions below are those of
`dijkstraCostToAllVertices` again, with the queue operations and the addition
taken from a parameter, so that statements about every run can be made for
every such choice. -/

/-- What a run of `dijkstraCostToAllVertices` takes from the library and the
compiler: `pq.push(x)`, `pq.top()` (`none` for `pq.empty()`), `pq.pop()` on the
stored entries, and `+` on `int`. -/
structure Impl where
  push : List PAIR → PAIR → List PAIR
  top : List PAIR → Option PAIR
  pop : List PAIR → List PAIR
  plus : Int → Int → Int

/-- The choice made by `pqPush`, `pqTop`, `pqPop` and by `+` without overflow. -/
def firstPushed : Impl := ⟨pqPush, pqTop, pqPop, fun a b => a + b⟩

/-- A 32-bit `int` result: the value modulo `2^32` in the range
`-2^31 .. 2^31 - 1`. -/
def wrapInt (x : Int) : Int := (x + 2147483648) % 4294967296 - 2147483648

/-- The upward pass of a binary heap stored in a vector, for
`CompareBySecond`: the value moves from `hole` towards the root while its
parent has a greater cost. -/
def siftUp : Nat → List PAIR → Nat → PAIR → List PAIR
  | 0, v, hole, value => v.set hole value
  | fuel + 1, v, hole, value =>
    if hole = 0 then v.set hole value
    else
      match v.get? ((hole - 1) / 2) with
      | some pv =>
        if pv.2 > value.2 then siftUp fuel (v.set hole pv) ((hole - 1) / 2) value
        else v.set hole value
      | none => v.set hole value

/-- The downward pass of a binary heap over the first `len` entries: the hole
moves from `hole` down to a vertex with fewer than two children, each time to
the right child unless its cost is greater than the left one's.  The result
is the vector and the final hole. -/
def siftDown : Nat → List PAIR → Nat → Nat → List PAIR × Nat
  | 0, v, _, hole => (v, hole)
  | fuel + 1, v, len, hole =>
    if hole < (len - 1) / 2 then
      match v.get? (2 * (hole + 1)), v.get? (2 * (hole + 1) - 1) with
      | some a, some b =>
        if a.2 > b.2 then siftDown fuel (v.set hole b) len (2 * (hole + 1) - 1)
        else siftDown fuel (v.set hole a) len (2 * (hole + 1))
      | _, _ => (v, hole)
    else (v, hole)

/-- The heap order restored after the last entry of the vector was appended
(what `std::push_heap` does in the GNU library). -/
def pushHeap (v : List PAIR) : List PAIR :=
  match v.getLast? with
  | none => v
  | some value => siftUp v.length v (v.length - 1) value

/-- The first entry moved to the end of the vector and the heap order restored
on the entries before it (what `std::pop_heap` does in the GNU library). -/
def popHeap (v : List PAIR) : List PAIR :=
  match v.head?, v.getLast? with
  | some first, some value =>
    if v.length ≤ 1 then v
    else
      let len := v.length - 1
      let r := siftDown len (v.set len first) len 0
      if len % 2 = 0 ∧ r.2 = (len - 2) / 2 then
        match r.1.get? (2 * (r.2 + 1) - 1) with
        | some c => siftUp len (r.1.set r.2 c) (2 * (r.2 + 1) - 1) value
        | none => siftUp len r.1 r.2 value
      else siftUp len r.1 r.2 value
  | _, _ => v

/-- The priority queue as a binary heap in a vector (`push` is `push_back` and
`push_heap`, `top` is `front`, `pop` is `pop_heap` and `pop_back`), with `int`
addition wrapping modulo `2^32`. -/
def binaryHeap : Impl :=
  ⟨fun q x => pushHeap (q ++ [x]), fun q => q.head?, fun q => (popHeap q).dropLast,
    fun a b => wrapInt (a + b)⟩

/-- Body of the first `for` loop of `dijkstraCostToAllVertices`. -/
def dijkstraInitBodyOn (I : Impl) (startLabel startVertex : String) (s : DijkstraState) :
    Run DijkstraState :=
  (s.graph.getNextNeighborAt startVertex).bind fun r =>
    let u := r.1
    let g := r.2
    (g.deref startVertex).bind fun sv =>
      (sv.getEdgeWeight u).bind fun w =>
        let weight := mapAssign s.weight u w
        let previous := mapAssign s.previous u startLabel
        let wu := mapIndex weight u
        .ok { s with graph := g, weight := wu.1, previous := previous,
                     pq := I.push s.pq (u, wu.2) }

/-- `weight[u] = weight[v] + v2uCost; previous[u] = v; pq.push(make_pair(u, weight[u]))`. -/
def dijkstraRelaxOn (I : Impl) (s : DijkstraState) (u v : String) (v2uCost : Int) :
    DijkstraState :=
  let wv := mapIndex s.weight v
  let weight := mapAssign wv.1 u (I.plus wv.2 v2uCost)
  let previous := mapAssign s.previous u v
  let wu := mapIndex weight u
  { s with weight := wu.1, previous := previous, pq := I.push s.pq (u, wu.2) }

/-- Body of the inner `for` loop of `dijkstraCostToAllVertices` for the popped
label `v` with vertex `pVertex`. -/
def dijkstraBodyOn (I : Impl) (v pVertex : String) (s : DijkstraState) : Run DijkstraState :=
  (s.graph.getNextNeighborAt pVertex).bind fun r =>
    let u := r.1
    let g := r.2
    (g.deref pVertex).bind fun pv =>
      (pv.getEdgeWeight u).bind fun v2uCost =>
        let s1 := { s with graph := g }
        if mapCount s1.weight u = 0 then .ok (dijkstraRelaxOn I s1 u v v2uCost)
        else
          (mapAt s1.weight u).bind fun wu =>
            (mapAt s1.weight v).bind fun wv =>
              if wu > I.plus wv v2uCost then .ok (dijkstraRelaxOn I s1 u v v2uCost)
              else .ok s1

/-- One iteration of the `while (!pq.empty())` loop: pop the top entry and,
unless its label is in `vertexSet`, run the inner `for` loop.  On an empty
queue nothing happens. -/
def dijkstraStepOn (I : Impl) (s : DijkstraState) : Run DijkstraState :=
  match I.top s.pq with
  | none => .ok s
  | some top =>
    let v := top.1
    let s1 := { s with pq := I.pop s.pq }
    if mapCount s1.vertexSet v = 0 then
      match s1.graph.findVertex v with
      | none => .fail .nullDeref
      | some p =>
        (s1.graph.deref p).bind fun pv =>
          forLoop (dijkstraBodyOn I v p) pv.getNumberOfNeighbors s1
    else .ok s1

/-- The first `n` iterations of the `while` loop. -/
def dijkstraStepsOn (I : Impl) : Nat → DijkstraState → Run DijkstraState
  | 0, s => .ok s
  | n + 1, s => (dijkstraStepOn I s).bind (dijkstraStepsOn I n)

/-- The `while (!pq.empty())` loop of `dijkstraCostToAllVertices`.  The first
argument bounds the number of iterations. -/
def dijkstraLoopOn (I : Impl) : Nat → DijkstraState → Run DijkstraState
  | fuel, s =>
    match I.top s.pq with
    | none => .ok s
    | some top =>
      match fuel with
      | 0 => .fail .outOfFuel
      | fuel + 1 =>
        let v := top.1
        let s1 := { s with pq := I.pop s.pq }
        let pVertex := s1.graph.findVertex v
        if mapCount s1.vertexSet v = 0 then
          match pVertex with
          | none => .fail .nullDeref
          | some p =>
            (s1.graph.deref p).bind fun pv =>
              (forLoop (dijkstraBodyOn I v p) pv.getNumberOfNeighbors s1).bind
                (dijkstraLoopOn I fuel)
        else dijkstraLoopOn I fuel s1

/-- The part of `dijkstraCostToAllVertices` before the `while` loop: the state
with which the loop is entered. -/
def dijkstraStartOn (I : Impl) (g : Graph) (startLabel : String)
    (weight : List (String × Int)) (previous : List (String × String)) : Run DijkstraState :=
  let g0 := g.unvisitAllVertices
  match g0.findVertex startLabel with
  | none => .fail .nullDeref
  | some sp =>
    (g0.deref sp).bind fun sv =>
      (forLoop (dijkstraInitBodyOn I startLabel sp) sv.getNumberOfNeighbors
          ⟨g0, mapClear weight, mapClear previous, [], []⟩).bind fun s =>
        .ok { s with vertexSet := mapAssign s.vertexSet startLabel sp }

/-- `Graph::dijkstraCostToAllVertices` over the queue and the addition of `I`.
The incoming contents of the two output maps are arguments because the
function erases them itself. -/
def dijkstraCostToAllVerticesOn (I : Impl) (fuel : Nat) (g : Graph) (startLabel : String)
    (weight : List (String × Int)) (previous : List (String × String)) :
    Run (Graph × List (String × Int) × List (String × String)) :=
  let g0 := g.unvisitAllVertices
  let weight0 := mapClear weight
  let previous0 := mapClear previous
  match g0.findVertex startLabel with
  | none => .fail .nullDeref
  | some sp =>
    (g0.deref sp).bind fun sv =>
      (forLoop (dijkstraInitBodyOn I startLabel sp) sv.getNumberOfNeighbors
          ⟨g0, weight0, previous0, [], []⟩).bind fun s =>
        let s1 := { s with vertexSet := mapAssign s.vertexSet startLabel sp }
        (dijkstraLoopOn I fuel s1).bind fun s2 =>
          .ok (s2.graph, mapErase s2.weight startLabel, mapErase s2.previous startLabel)

/-- The states a graph can be left in by earlier runs: `g` itself, and the
graph handed back by any run of `depthFirstTraversal`, `breadthFirstTraversal`
or `dijkstraCostToAllVertices` that returned, started on such a state with any
start label (and, for the last, any priority queue and `int` addition `I` and
any contents of the output maps). -/
inductive After (g : Graph) : Graph → Prop where
  | same : After g g
  | dfs {g1 g2 : Graph} {s : String} {out : List String} :
      After g g1 → g1.depthFirstTraversal s = Run.ok (g2, out) → After g g2
  | bfs {g1 g2 : Graph} {s : String} {out : List String} :
      After g g1 → g1.breadthFirstTraversal s = Run.ok (g2, out) → After g g2
  | dijkstra {I : Impl} {g1 g2 : Graph} {n : Nat} {s : String} {w w' : List (String × Int)}
      {p p' : List (String × String)} :
      After g g1 → dijkstraCostToAllVerticesOn I n g1 s w p = Run.ok (g2, w', p') →
      After g g2

/-- The part of `dijkstraCostToAllVertices` before the `while` loop: the state
with which the loop is entered. -/
def dijkstraStart (g : Graph) (startLabel : String) (weight : List (String × Int))
    (previous : List (String × String)) : Run DijkstraState :=
  let g0 := g.unvisitAllVertices
  match g0.findVertex startLabel with
  | none => .fail .nullDeref
  | some sp =>
    (g0.deref sp).bind fun sv =>
      (forLoop (dijkstraInitBody startLabel sp) sv.getNumberOfNeighbors
          ⟨g0, mapClear weight, mapClear previous, [], []⟩).bind fun s =>
        .ok { s with vertexSet := mapAssign s.vertexSet startLabel sp }

/-- One iteration of the `while` loop of `dijkstraCostToAllVertices`: pop the
top entry and, unless its label is in `vertexSet`, run the inner `for` loop.
On an empty queue nothing happens. -/
def dijkstraStep (s : DijkstraState) : Run DijkstraState :=
  match pqTop s.pq with
  | none => .ok s
  | some top =>
    let v := top.1
    let s1 := { s with pq := pqPop s.pq }
    if mapCount s1.vertexSet v = 0 then
      match s1.graph.findVertex v with
      | none => .fail .nullDeref
      | some p =>
        (s1.graph.deref p).bind fun pv =>
          forLoop (dijkstraBody v p) pv.getNumberOfNeighbors s1
    else .ok s1

/-- The first `n` iterations of the `while` loop. -/
def dijkstraSteps : Nat → DijkstraState → Run DijkstraState
  | 0, s => .ok s
  | n + 1, s => (dijkstraStep s).bind (dijkstraSteps n)

/-- The end of `dijkstraCostToAllVertices`: the start label is erased from both
output maps. -/
def dijkstraFinish (startLabel : String) (s : DijkstraState) :
    Run (Graph × List (String × Int) × List (String × String)) :=
  .ok (s.graph, mapErase s.weight startLabel, mapErase s.previous startLabel)

/-! ### Quantities that shrink along the shortest-path loop -/

/-- All target labels of all adjacency lists of the graph. -/
def targets (g : Graph) : List String :=
  g.vertices.flatMap (fun e => mapKeys e.2.adjacencyList)

/-- No edge of the graph has a negative weight. -/
def EdgesNonneg (g : Graph) : Prop :=
  ∀ e ∈ g.vertices, ∀ a ∈ e.2.adjacencyList, 0 ≤ a.2.edgeWeight

/-- The sum of the costs recorded in the map `weight`. -/
def wsum (m : List (String × Int)) : Nat := (m.map (fun e => e.2.toNat)).sum

/-- The number of target labels that have no cost recorded yet. -/
def missing (T : List String) (m : List (String × Int)) : Nat :=
  T.dedup.countP (fun k => decide (k ∉ mapKeys m))

/-- What holds of the loop state throughout a run on a graph without negative
weights: the target labels are `T`, no recorded cost is negative, and the cost
map is in ascending key order. -/
structure DInv (T : List String) (s : DijkstraState) : Prop where
  edges : EdgesNonneg s.graph
  tgts : targets s.graph = T
  nonneg : ∀ e ∈ s.weight, 0 ≤ e.2
  sorted : (mapKeys s.weight).Pairwise (· < ·)

/-- From `s` to `s'` either a label got its first cost, or no label did and the
sum of the recorded costs went down, or the cost map measures the same and the
queue is untouched. -/
def Progress (T : List String) (s s' : DijkstraState) : Prop :=
  missing T s'.weight < missing T s.weight ∨
    (missing T s'.weight = missing T s.weight ∧ wsum s'.weight < wsum s.weight) ∨
    (missing T s'.weight = missing T s.weight ∧ wsum s'.weight = wsum s.weight ∧
      s'.pq = s.pq)

end Graph
/-! ### What a traversal is to leave as it was -/

namespace Graph

/-- Everything a graph holds apart from the visited flags and the iterator
positions: the entries of the vertex map in key order, each with the label and
the adjacency list (targets and weights) of its vertex, and the two counters. -/
def skeleton (g : Graph) : List (String × String × List (String × Edge)) × Int × Int :=
  (g.vertices.map (fun e => (e.1, e.2.vertexLabel, e.2.adjacencyList)),
    g.numberOfVertices, g.numberOfEdges)

end Graph

/-! ## Facts about the map model -/

@[simp] theorem Run.ok_bind {α β : Type} (a : α) (k : α → Run β) :
    (Run.ok a).bind k = k a := rfl

@[simp] theorem Run.fail_bind {α β : Type} (f : Fault) (k : α → Run β) :
    (Run.fail f : Run α).bind k = Run.fail f := rfl

theorem strLt_iff (a b : String) : strLt a b = true ↔ a < b := by
  unfold strLt
  rw [decide_eq_true_iff]
  exact String.lt_iff_toList_lt.symm

theorem mapFind_eq_none_iff {α : Type} (m : List (String × α)) (key : String) :
    mapFind m key = none ↔ key ∉ mapKeys m := by
  induction m with
  | nil => simp [mapFind, mapKeys]
  | cons e m ih =>
    obtain ⟨k, v⟩ := e
    by_cases h : key = k
    · simp [mapFind, mapKeys, h]
    · simp only [mapFind, h, if_false, ih]
      simp [mapKeys, h]

theorem mapFind_some_mem {α : Type} {m : List (String × α)} {key : String} {v : α}
    (h : mapFind m key = some v) : (key, v) ∈ m := by
  induction m with
  | nil => simp [mapFind] at h
  | cons e m ih =>
    obtain ⟨k, w⟩ := e
    by_cases hk : key = k
    · simp [mapFind, hk] at h
      simp [hk, h]
    · simp only [mapFind, hk, if_false] at h
      exact List.mem_cons_of_mem _ (ih h)

theorem mapFind_of_mem {α : Type} {m : List (String × α)} {key : String} {v : α}
    (hnd : (mapKeys m).Nodup) (h : (key, v) ∈ m) : mapFind m key = some v := by
  induction m with
  | nil => simp at h
  | cons e m ih =>
    obtain ⟨k, w⟩ := e
    simp only [mapKeys, List.map_cons, List.nodup_cons] at hnd
    rcases List.mem_cons.1 h with h1 | h1
    · cases h1
      simp [mapFind]
    · have hne : key ≠ k := by
        rintro rfl
        exact hnd.1 (List.mem_map_of_mem Prod.fst h1)
      simp only [mapFind, hne, if_false]
      exact ih hnd.2 h1

theorem mapFind_isSome_iff {α : Type} (m : List (String × α)) (key : String) :
    (∃ v, mapFind m key = some v) ↔ key ∈ mapKeys m := by
  have h := mapFind_eq_none_iff m key
  cases hf : mapFind m key with
  | none => simp [hf] at h; simp [h]
  | some v => simp [hf] at h; simp [h]

theorem mapCount_eq_zero_iff {α : Type} (m : List (String × α)) (key : String) :
    mapCount m key = 0 ↔ key ∉ mapKeys m := by
  induction m with
  | nil => simp [mapCount, mapKeys]
  | cons e m ih =>
    obtain ⟨k, v⟩ := e
    by_cases h : key = k
    · simp [mapCount, mapKeys, h]
    · simp only [mapCount, h, if_false, ih]
      simp [mapKeys, h]

theorem mem_mapInsert {α : Type} {m : List (String × α)} {key : String} {val : α}
    {e : String × α} (h : e ∈ mapInsert m key val) : e = (key, val) ∨ e ∈ m := by
  induction m with
  | nil => simpa [mapInsert] using h
  | cons x m ih =>
    obtain ⟨k, v⟩ := x
    unfold mapInsert at h
    split_ifs at h with h1 h2
    · exact Or.inr h
    · rcases List.mem_cons.1 h with h3 | h3
      · exact Or.inl h3
      · exact Or.inr h3
    · rcases List.mem_cons.1 h with h3 | h3
      · exact Or.inr (h3 ▸ List.mem_cons_self _ _)
      · rcases ih h3 with h4 | h4
        · exact Or.inl h4
        · exact Or.inr (List.mem_cons_of_mem _ h4)

theorem mem_mapInsert_of_mem {α : Type} {m : List (String × α)} {key : String} {val : α}
    {e : String × α} (h : e ∈ m) : e ∈ mapInsert m key val := by
  induction m with
  | nil => simp at h
  | cons x m ih =>
    obtain ⟨k, v⟩ := x
    unfold mapInsert
    split_ifs with h1 h2
    · exact h
    · exact List.mem_cons_of_mem _ h
    · rcases List.mem_cons.1 h with h3 | h3
      · exact h3 ▸ List.mem_cons_self _ _
      · exact List.mem_cons_of_mem _ (ih h3)

theorem mem_mapKeys_mapInsert {α : Type} (m : List (String × α)) (key : String) (val : α)
    (x : String) : x ∈ mapKeys (mapInsert m key val) ↔ x = key ∨ x ∈ mapKeys m := by
  induction m with
  | nil => simp [mapInsert, mapKeys]
  | cons e m ih =>
    obtain ⟨k, v⟩ := e
    unfold mapInsert
    split_ifs with h1 h2
    · subst h1
      simp only [mapKeys, List.map_cons, List.mem_cons]
      tauto
    · simp [mapKeys]
    · simp only [mapKeys, List.map_cons, List.mem_cons] at ih ⊢
      rw [ih]
      tauto

theorem mapInsert_of_not_mem {α : Type} {m : List (String × α)} {key : String} {val : α}
    (h : key ∉ mapKeys m) : (key, val) ∈ mapInsert m key val := by
  induction m with
  | nil => simp [mapInsert]
  | cons x m ih =>
    obtain ⟨k, v⟩ := x
    simp only [mapKeys, List.map_cons, List.mem_cons, not_or] at h
    unfold mapInsert
    split_ifs with h1 h2
    · exact absurd h1 h.1
    · exact List.mem_cons_self _ _
    · exact List.mem_cons_of_mem _ (ih h.2)

theorem sorted_mapInsert {α : Type} {m : List (String × α)} (key : String) (val : α)
    (hs : (mapKeys m).Pairwise (· < ·)) : (mapKeys (mapInsert m key val)).Pairwise (· < ·) := by
  induction m with
  | nil => simp [mapInsert, mapKeys]
  | cons e m ih =>
    obtain ⟨k, v⟩ := e
    have hs' := hs
    simp only [mapKeys, List.map_cons, List.pairwise_cons] at hs'
    unfold mapInsert
    split_ifs with h1 h2
    · exact hs
    · rw [strLt_iff] at h2
      simp only [mapKeys, List.map_cons, List.pairwise_cons]
      refine ⟨?_, hs'⟩
      intro x hx
      rcases List.mem_cons.1 hx with rfl | hx
      · exact h2
      · exact lt_trans h2 (hs'.1 x hx)
    · have hlt : k < key := by
        rw [strLt_iff] at h2
        exact lt_of_le_of_ne (not_lt.1 h2) (Ne.symm h1)
      simp only [mapKeys, List.map_cons, List.pairwise_cons]
      refine ⟨?_, ih hs'.2⟩
      intro x hx
      have := (mem_mapKeys_mapInsert m key val x).1 hx
      rcases this with rfl | hx
      · exact hlt
      · exact hs'.1 x hx

theorem nodup_of_sorted {l : List String} (h : l.Pairwise (· < ·)) : l.Nodup :=
  h.imp (fun hab => ne_of_lt hab)

/-! ## Facts about `findVertex`, pointer writes and `add` -/

namespace Graph

theorem findVertex_eq_some_iff (g : Graph) (l p : String) :
    g.findVertex l = some p ↔ l ≠ "" ∧ l ∈ mapKeys g.vertices ∧ p = l := by
  unfold findVertex
  by_cases hl : l = ""
  · simp [hl]
  · simp only [ne_eq, hl, not_false_eq_true, if_true, true_and]
    generalize g.vertices = m
    induction m with
    | nil => simp [mapKeys]
    | cons e m ih =>
      obtain ⟨k, v⟩ := e
      by_cases hk : l = k
      · subst hk
        simp [List.find?, mapKeys, eq_comm]
      · have : (decide (l = k)) = false := by simp [hk]
        simp only [List.find?, this, mapKeys, List.map_cons, List.mem_cons, hk, false_or]
        exact ih

theorem findVertex_of_mem {g : Graph} {l : String} (hne : l ≠ "")
    (h : l ∈ mapKeys g.vertices) : g.findVertex l = some l :=
  (findVertex_eq_some_iff g l l).2 ⟨hne, h, rfl⟩

theorem findVertex_eq_none_iff (g : Graph) (l : String) :
    g.findVertex l = none ↔ l = "" ∨ l ∉ mapKeys g.vertices := by
  constructor
  · intro h
    by_contra hc
    push_neg at hc
    rw [findVertex_of_mem hc.1 hc.2] at h
    cases h
  · intro h
    cases hf : g.findVertex l with
    | none => rfl
    | some p =>
      have := (findVertex_eq_some_iff g l p).1 hf
      rcases h with h | h
      · exact absurd h this.1
      · exact absurd this.2.1 h

theorem mapKeys_updateEntries (f : Vertex → Vertex) (p : String) (m : List (String × Vertex)) :
    mapKeys (updateEntries f p m) = mapKeys m := by
  induction m with
  | nil => rfl
  | cons e m ih =>
    obtain ⟨k, v⟩ := e
    unfold updateEntries
    split_ifs with h
    · simp [mapKeys]
    · simp only [mapKeys, List.map_cons] at ih ⊢
      rw [ih]

/-- On a map without repeated keys a write through the pointer `p` is the
entry-wise map that changes the entry with key `p`. -/
theorem updateEntries_eq_map (f : Vertex → Vertex) (p : String) (m : List (String × Vertex))
    (hnd : (mapKeys m).Nodup) :
    updateEntries f p m = m.map (fun e => if p = e.1 then (e.1, f e.2) else e) := by
  induction m with
  | nil => rfl
  | cons e m ih =>
    obtain ⟨k, v⟩ := e
    simp only [mapKeys, List.map_cons, List.nodup_cons] at hnd
    unfold updateEntries
    split_ifs with h
    · subst h
      simp only [List.map_cons, if_true, List.cons.injEq, true_and]
      symm
      calc m.map (fun e => if p = e.1 then (e.1, f e.2) else e)
          = m.map id := by
            apply List.map_congr_left
            intro e he
            have : p ≠ e.1 := by
              intro hp
              exact hnd.1 (hp ▸ List.mem_map_of_mem Prod.fst he)
            simp [this]
        _ = m := List.map_id m
    · simp only [List.map_cons, h, if_false, List.cons.injEq, true_and]
      exact ih hnd.2

theorem mem_updateEntries {f : Vertex → Vertex} {p : String} {m : List (String × Vertex)}
    {e : String × Vertex} (h : e ∈ updateEntries f p m) :
    e ∈ m ∨ ∃ v, (p, v) ∈ m ∧ e = (p, f v) := by
  induction m with
  | nil => simp [updateEntries] at h
  | cons x m ih =>
    obtain ⟨k, v⟩ := x
    unfold updateEntries at h
    split_ifs at h with hk
    · rcases List.mem_cons.1 h with h1 | h1
      · subst hk
        exact Or.inr ⟨v, List.mem_cons_self _ _, h1⟩
      · exact Or.inl (List.mem_cons_of_mem _ h1)
    · rcases List.mem_cons.1 h with h1 | h1
      · exact Or.inl (h1 ▸ List.mem_cons_self _ _)
      · rcases ih h1 with h2 | ⟨w, hw, he⟩
        · exact Or.inl (List.mem_cons_of_mem _ h2)
        · exact Or.inr ⟨w, List.mem_cons_of_mem _ hw, he⟩

theorem WF.nodup {g : Graph} (h : g.WF) : (mapKeys g.vertices).Nodup :=
  nodup_of_sorted h.keys_sorted

theorem wf_empty : Graph.empty.WF :=
  ⟨by simp [Graph.empty, mapKeys], by simp [Graph.empty], by simp [Graph.empty],
   by simp [Graph.empty], by simp [Graph.empty]⟩

/-- Adding a fresh vertex with an empty adjacency list keeps the invariant. -/
theorem wf_insert_new {g : Graph} (h : g.WF) {l : String} (hl : l ≠ "") (n : Int) :
    WF { g with vertices := mapInsert g.vertices l (Vertex.new l), numberOfVertices := n } := by
  refine ⟨sorted_mapInsert _ _ h.keys_sorted, ?_, ?_, ?_, ?_⟩
  · intro e he
    rcases mem_mapInsert he with rfl | he
    · rfl
    · exact h.label_eq e he
  · intro e he
    rcases mem_mapInsert he with rfl | he
    · exact hl
    · exact h.key_ne e he
  · intro e he
    rcases mem_mapInsert he with rfl | he
    · simp [Vertex.new, mapKeys]
    · exact h.adj_sorted e he
  · intro e he t ht
    rcases mem_mapInsert he with rfl | he
    · simp [Vertex.new, mapKeys] at ht
    · exact (mem_mapKeys_mapInsert _ _ _ _).2 (Or.inr (h.adj_mem e he t ht))

theorem findOrCreateVertex_spec {g : Graph} (h : g.WF) {l : String} (hl : l ≠ "") :
    (g.findOrCreateVertex l).1.WF ∧ (g.findOrCreateVertex l).2 = .owned l ∧
      l ∈ mapKeys (g.findOrCreateVertex l).1.vertices ∧
      (∀ x, x ∈ mapKeys g.vertices → x ∈ mapKeys (g.findOrCreateVertex l).1.vertices) ∧
      (g.findOrCreateVertex l).1.numberOfEdges = g.numberOfEdges := by
  unfold findOrCreateVertex
  cases hf : g.findVertex l with
  | some p =>
    have := (findVertex_eq_some_iff g l p).1 hf
    obtain ⟨_, hmem, rfl⟩ := this
    exact ⟨h, rfl, hmem, fun x hx => hx, rfl⟩
  | none =>
    have hnot : l ∉ mapKeys g.vertices := by
      rcases (findVertex_eq_none_iff g l).1 hf with h1 | h1
      · exact absurd h1 hl
      · exact h1
    have hc : mapCount g.vertices l = 0 := (mapCount_eq_zero_iff _ _).2 hnot
    refine ⟨wf_insert_new h hl _, ?_, ?_, ?_, rfl⟩
    · simp [hc]
    · exact (mem_mapKeys_mapInsert _ _ _ _).2 (Or.inl rfl)
    · intro x hx
      exact (mem_mapKeys_mapInsert _ _ _ _).2 (Or.inr hx)

/-- `connect` through a pointer keeps the invariant when the target is a vertex. -/
theorem wf_update_connect {g : Graph} (h : g.WF) {p t : String} (w : Int)
    (ht : t ∈ mapKeys g.vertices) :
    (g.update p (fun v => (v.connect t w).1)).WF := by
  have hkeys : mapKeys (g.update p (fun v => (v.connect t w).1)).vertices = mapKeys g.vertices :=
    mapKeys_updateEntries _ _ _
  have hconn : ∀ v : Vertex, (v.connect t w).1.vertexLabel = v.vertexLabel ∧
      (mapKeys (v.connect t w).1.adjacencyList).Pairwise (· < ·) =
        (mapKeys (mapInsert v.adjacencyList t ⟨t, w⟩)).Pairwise (· < ·) ∨
      (v.connect t w).1 = v := by
    intro v
    unfold Vertex.connect
    split_ifs with hc
    · exact Or.inr rfl
    · exact Or.inl ⟨rfl, rfl⟩
  refine ⟨hkeys ▸ h.keys_sorted, ?_, ?_, ?_, ?_⟩
  · intro e he
    rcases mem_updateEntries he with he | ⟨v, hv, rfl⟩
    · exact h.label_eq e he
    · have := h.label_eq _ hv
      simp only at this ⊢
      unfold Vertex.connect
      split_ifs <;> simpa [Vertex.resetNeighbor] using this
  · intro e he
    rcases mem_updateEntries he with he | ⟨v, hv, rfl⟩
    · exact h.key_ne e he
    · exact h.key_ne (p, v) hv
  · intro e he
    rcases mem_updateEntries he with he | ⟨v, hv, rfl⟩
    · exact h.adj_sorted e he
    · have := h.adj_sorted _ hv
      simp only at this ⊢
      unfold Vertex.connect
      split_ifs
      · exact this
      · simpa [Vertex.resetNeighbor] using sorted_mapInsert t _ this
  · intro e he x hx
    rw [hkeys]
    rcases mem_updateEntries he with he | ⟨v, hv, rfl⟩
    · exact h.adj_mem e he x hx
    · have := h.adj_mem _ hv
      simp only at this hx
      unfold Vertex.connect at hx
      split_ifs at hx
      · exact this x hx
      · simp only [Vertex.resetNeighbor] at hx
        rcases (mem_mapKeys_mapInsert _ _ _ _).1 hx with rfl | hx
        · exact ht
        · exact this x hx

theorem wf_add {g : Graph} (h : g.WF) {s t : String} (hs : s ≠ "") (ht : t ≠ "") (w : Int) :
    (g.add s t w).1.WF := by
  obtain ⟨h1, hr1, hm1, hsub1, _⟩ := findOrCreateVertex_spec h hs
  obtain ⟨h2, hr2, hm2, hsub2, _⟩ := findOrCreateVertex_spec h1 (l := t) ht
  have := wf_update_connect h2 (p := s) w hm2
  simp only [add, hr1]
  exact ⟨this.keys_sorted, this.label_eq, this.key_ne, this.adj_sorted, this.adj_mem⟩

theorem wf_build (calls : List (String × String × Int)) (h : NonEmptyLabels calls) :
    (build calls).WF := by
  unfold build
  suffices H : ∀ (g : Graph), g.WF →
      (calls.foldl (fun g c => (g.add c.1 c.2.1 c.2.2).1) g).WF from H _ wf_empty
  induction calls with
  | nil => intro g hg; exact hg
  | cons c cs ih =>
    intro g hg
    simp only [List.foldl_cons]
    apply ih
    · intro c' hc'
      exact h c' (List.mem_cons_of_mem _ hc')
    · exact wf_add hg (h c (List.mem_cons_self _ _)).1 (h c (List.mem_cons_self _ _)).2 _

end Graph

/-! ## Entry-wise changes of the vertex map -/

namespace Graph

theorem mapKeys_mapVals (F : String → Vertex → Vertex) (m : List (String × Vertex)) :
    mapKeys (mapVals F m) = mapKeys m := by
  simp [mapKeys, mapVals, Function.comp_def]

theorem mapFind_mapVals (F : String → Vertex → Vertex) (m : List (String × Vertex))
    (k : String) : mapFind (mapVals F m) k = (mapFind m k).map (F k) := by
  induction m with
  | nil => rfl
  | cons e m ih =>
    obtain ⟨k', v⟩ := e
    by_cases h : k = k'
    · subst h
      simp [mapVals, mapFind]
    · simp only [mapVals, List.map_cons, mapFind, h, if_false]
      exact ih

theorem mapVals_mapVals (F G : String → Vertex → Vertex) (m : List (String × Vertex)) :
    mapVals F (mapVals G m) = mapVals (fun k v => F k (G k v)) m := by
  simp [mapVals, Function.comp_def]

theorem mapVals_congr {F G : String → Vertex → Vertex} {m : List (String × Vertex)}
    (h : ∀ e ∈ m, F e.1 e.2 = G e.1 e.2) : mapVals F m = mapVals G m := by
  unfold mapVals
  apply List.map_congr_left
  intro e he
  rw [h e he]

theorem mapVals_self {F : String → Vertex → Vertex} {m : List (String × Vertex)}
    (h : ∀ e ∈ m, F e.1 e.2 = e.2) : mapVals F m = m := by
  unfold mapVals
  calc m.map (fun e => (e.1, F e.1 e.2)) = m.map id := by
        apply List.map_congr_left
        intro e he
        rw [h e he]
        rfl
    _ = m := List.map_id m

theorem mem_mapVals {F : String → Vertex → Vertex} {m : List (String × Vertex)}
    {e : String × Vertex} : e ∈ mapVals F m ↔ ∃ e0 ∈ m, e = (e0.1, F e0.1 e0.2) := by
  unfold mapVals
  rw [List.mem_map]
  constructor
  · rintro ⟨e0, h0, rfl⟩
    exact ⟨e0, h0, rfl⟩
  · rintro ⟨e0, h0, rfl⟩
    exact ⟨e0, h0, rfl⟩

theorem updateEntries_eq_mapVals (f : Vertex → Vertex) (p : String)
    (m : List (String × Vertex)) (hnd : (mapKeys m).Nodup) :
    updateEntries f p m = mapVals (upd p f) m := by
  rw [updateEntries_eq_map f p m hnd]
  unfold mapVals upd
  apply List.map_congr_left
  intro e _
  split_ifs <;> rfl

theorem update_eq {g : Graph} (h : g.WF) (p : String) (f : Vertex → Vertex) :
    g.update p f = { g with vertices := mapVals (upd p f) g.vertices } := by
  unfold update
  rw [updateEntries_eq_mapVals f p g.vertices h.nodup]

theorem wf_mapVals {g : Graph} (h : g.WF) {F : String → Vertex → Vertex} (hF : Keeps F) :
    WF { g with vertices := mapVals F g.vertices } := by
  refine ⟨?_, ?_, ?_, ?_, ?_⟩
  · simpa [mapKeys_mapVals] using h.keys_sorted
  · intro e he
    obtain ⟨e0, h0, rfl⟩ := mem_mapVals.1 he
    simpa [(hF e0.1 e0.2).1] using h.label_eq e0 h0
  · intro e he
    obtain ⟨e0, h0, rfl⟩ := mem_mapVals.1 he
    exact h.key_ne e0 h0
  · intro e he
    obtain ⟨e0, h0, rfl⟩ := mem_mapVals.1 he
    simpa [(hF e0.1 e0.2).2] using h.adj_sorted e0 h0
  · intro e he t ht
    obtain ⟨e0, h0, rfl⟩ := mem_mapVals.1 he
    simp only [(hF e0.1 e0.2).2] at ht
    simpa [mapKeys_mapVals] using h.adj_mem e0 h0 t ht

theorem neighbours_mapVals (g : Graph) {F : String → Vertex → Vertex} (hF : Keeps F) :
    neighbours { g with vertices := mapVals F g.vertices } = neighbours g := by
  funext p
  unfold neighbours
  simp only [mapFind_mapVals]
  cases mapFind g.vertices p with
  | none => rfl
  | some v => simp [(hF p v).2]

theorem keeps_upd_visit (p : String) : Keeps (upd p Vertex.visit) := by
  intro k v
  unfold upd Vertex.visit
  split_ifs <;> exact ⟨rfl, rfl⟩

theorem getNextNeighbor_snd (v : Vertex) :
    ∃ c, (v.getNextNeighbor).2 = { v with currentNeighbor := c } := by
  unfold Vertex.getNextNeighbor
  split_ifs
  · cases v.adjacencyList.get? v.currentNeighbor with
    | none => exact ⟨v.currentNeighbor, rfl⟩
    | some e => exact ⟨v.currentNeighbor + 1, rfl⟩
  · exact ⟨v.currentNeighbor, rfl⟩

theorem keeps_upd_next (p : String) : Keeps (upd p (fun w => (w.getNextNeighbor).2)) := by
  intro k v
  unfold upd
  split_ifs
  · obtain ⟨c, hc⟩ := getNextNeighbor_snd v
    show (v.getNextNeighbor).2.vertexLabel = _ ∧ (v.getNextNeighbor).2.adjacencyList = _
    rw [hc]
    exact ⟨rfl, rfl⟩
  · exact ⟨rfl, rfl⟩

theorem keeps_settleV (R : List String) : Keeps (settleV R) := by
  intro k v
  unfold settleV
  split_ifs <;> exact ⟨rfl, rfl⟩

theorem keeps_finishV (p : String) : Keeps (finishV p) := by
  intro k v
  unfold finishV
  split_ifs <;> exact ⟨rfl, rfl⟩

theorem keeps_comp {F G : String → Vertex → Vertex} (hF : Keeps F) (hG : Keeps G) :
    Keeps (fun k v => F k (G k v)) := by
  intro k v
  exact ⟨(hF k (G k v)).1.trans (hG k v).1, (hF k (G k v)).2.trans (hG k v).2⟩

theorem countP_map_le {α : Type} {F : α → α} {P : α → Bool} {m : List α}
    (h : ∀ e ∈ m, P (F e) = true → P e = true) : (m.map F).countP P ≤ m.countP P := by
  rw [List.countP_map]
  exact List.countP_mono_left h

theorem countP_map_lt {α : Type} {F : α → α} {P : α → Bool} {m : List α}
    (h : ∀ e ∈ m, P (F e) = true → P e = true) {a : α} (h0 : a ∈ m) (h1 : P a = true)
    (h2 : P (F a) = false) : (m.map F).countP P < m.countP P := by
  induction m with
  | nil => simp at h0
  | cons x m ih =>
    have hle : (m.map F).countP P ≤ m.countP P :=
      countP_map_le (fun e he => h e (List.mem_cons_of_mem _ he))
    rw [List.map_cons, List.countP_cons, List.countP_cons]
    rcases List.mem_cons.1 h0 with rfl | h0'
    · rw [if_pos h1, if_neg (by simp [h2])]
      omega
    · have hlt := ih (fun e he => h e (List.mem_cons_of_mem _ he)) h0'
      have hx := h x (List.mem_cons_self _ _)
      by_cases hpx : P (F x) = true
      · rw [if_pos hpx, if_pos (hx hpx)]
        omega
      · rw [if_neg hpx]
        split_ifs <;> omega

end Graph

/-! ## One step of the neighbour iterator -/

namespace Graph

theorem getNextNeighbor_of_drop {v : Vertex} {u : String} {us : List String}
    (hd : (mapKeys v.adjacencyList).drop v.currentNeighbor = u :: us) :
    v.getNextNeighbor = (u, { v with currentNeighbor := v.currentNeighbor + 1 }) ∧
      (mapKeys v.adjacencyList).drop (v.currentNeighbor + 1) = us ∧
      v.currentNeighbor < v.adjacencyList.length ∧ u ∈ mapKeys v.adjacencyList := by
  have hlt : v.currentNeighbor < (mapKeys v.adjacencyList).length := by
    by_contra hc
    rw [List.drop_eq_nil_of_le (not_lt.1 hc)] at hd
    cases hd
  have hlen : (mapKeys v.adjacencyList).length = v.adjacencyList.length := by
    simp [mapKeys]
  rw [List.drop_eq_getElem_cons hlt] at hd
  injection hd with hu hus
  have hlt' : v.currentNeighbor < v.adjacencyList.length := hlen ▸ hlt
  have hget : v.adjacencyList.get? v.currentNeighbor = some v.adjacencyList[v.currentNeighbor] := by
    rw [List.get?_eq_getElem?, List.getElem?_eq_getElem hlt']
  have hfst : (v.adjacencyList[v.currentNeighbor]).1 = u := by
    rw [← hu]
    simp [mapKeys]
  refine ⟨?_, hus, hlt', ?_⟩
  · unfold Vertex.getNextNeighbor Vertex.getNumberOfNeighbors
    have hc : 0 < v.adjacencyList.length ∧ v.currentNeighbor ≠ v.adjacencyList.length :=
      ⟨by omega, by omega⟩
    rw [if_pos hc, hget]
    simp only [hfst]
  · rw [← hu]
    exact List.getElem_mem _

theorem mem_vertices_of_find {g : Graph} {p : String} {v : Vertex}
    (h : mapFind g.vertices p = some v) : (p, v) ∈ g.vertices := mapFind_some_mem h

theorem deref_of_mem {g : Graph} (h : g.WF) {p : String} {v : Vertex}
    (hp : (p, v) ∈ g.vertices) : g.deref p = .ok v := by
  unfold deref
  rw [mapFind_of_mem h.nodup hp]

theorem entry_unique {g : Graph} (h : g.WF) {p : String} {v w : Vertex}
    (hv : (p, v) ∈ g.vertices) (hw : (p, w) ∈ g.vertices) : v = w := by
  have h1 := mapFind_of_mem h.nodup hv
  have h2 := mapFind_of_mem h.nodup hw
  rw [h1] at h2
  exact Option.some.inj h2

theorem exists_entry_of_mem {g : Graph} {p : String} (h : p ∈ mapKeys g.vertices) :
    ∃ v, (p, v) ∈ g.vertices := by
  unfold mapKeys at h
  obtain ⟨e, he, rfl⟩ := List.mem_map.1 h
  exact ⟨e.2, he⟩

theorem neighbours_of_mem {g : Graph} (h : g.WF) {p : String} {v : Vertex}
    (hp : (p, v) ∈ g.vertices) : g.neighbours p = mapKeys v.adjacencyList := by
  unfold neighbours
  rw [mapFind_of_mem h.nodup hp]

theorem getNextNeighborAt_spec {g : Graph} (h : g.WF) {p : String} {vp : Vertex} {u : String}
    {us : List String} (hp : (p, vp) ∈ g.vertices)
    (hd : (mapKeys vp.adjacencyList).drop vp.currentNeighbor = u :: us) :
    g.getNextNeighborAt p =
      .ok (u, { g with vertices := mapVals (upd p (fun w => (w.getNextNeighbor).2)) g.vertices }) := by
  unfold getNextNeighborAt
  rw [deref_of_mem h hp, update_eq h]
  simp only [Run.ok_bind, (getNextNeighbor_of_drop hd).1]

/-! ## Preservation of the traversal invariant -/

theorem travInv_mapVals {g : Graph} {out : List String} (h : TravInv g out)
    {F : String → Vertex → Vertex} (hF : Keeps F)
    (hvis : ∀ e ∈ g.vertices, (F e.1 e.2).visited = e.2.visited)
    (hcur : ∀ e ∈ g.vertices, e.2.visited = false →
      (F e.1 e.2).currentNeighbor = e.2.currentNeighbor) :
    TravInv { g with vertices := mapVals F g.vertices } out := by
  refine ⟨wf_mapVals h.wf hF, ?_, ?_⟩
  · intro e he
    obtain ⟨e0, h0, rfl⟩ := mem_mapVals.1 he
    simp only [hvis e0 h0]
    exact h.vis_iff e0 h0
  · intro e he hv
    obtain ⟨e0, h0, rfl⟩ := mem_mapVals.1 he
    simp only [hvis e0 h0] at hv
    simp only [hcur e0 h0 hv]
    exact h.cur_zero e0 h0 hv

theorem travInv_next {g : Graph} {out : List String} (h : TravInv g out) {p : String}
    {vp : Vertex} (hp : (p, vp) ∈ g.vertices) (hv : vp.visited = true) :
    TravInv { g with vertices := mapVals (upd p (fun w => (w.getNextNeighbor).2)) g.vertices }
      out := by
  apply travInv_mapVals h (keeps_upd_next p)
  · intro e _
    unfold upd
    split_ifs
    · obtain ⟨c, hc⟩ := getNextNeighbor_snd e.2
      show (e.2.getNextNeighbor).2.visited = _
      rw [hc]
    · rfl
  · intro e he hvis
    unfold upd
    split_ifs with hpe
    · exfalso
      have : e.2 = vp := entry_unique h.wf (by rw [hpe]; exact he) hp
      rw [this, hv] at hvis
      cases hvis
    · rfl

theorem travInv_settle {g : Graph} {out R : List String} (h : TravInv g out)
    (hsub : out ⊆ R) : TravInv (settle R g) R := by
  refine ⟨wf_mapVals h.wf (keeps_settleV R), ?_, ?_⟩
  · intro e he
    obtain ⟨e0, h0, rfl⟩ := mem_mapVals.1 he
    unfold settleV
    split_ifs with hc
    · simp [hc.2]
    · simp only
      constructor
      · intro hv
        exact hsub ((h.vis_iff e0 h0).1 hv)
      · intro hr
        by_contra hv
        exact hc ⟨by simpa using hv, hr⟩
  · intro e he hv
    obtain ⟨e0, h0, rfl⟩ := mem_mapVals.1 he
    unfold settleV at hv ⊢
    split_ifs at hv ⊢ with hc
    exact h.cur_zero e0 h0 hv

theorem travInv_visit {g : Graph} {out : List String} (h : TravInv g out) (p : String) :
    TravInv { g with vertices := mapVals (upd p Vertex.visit) g.vertices } (out ++ [p]) := by
  refine ⟨wf_mapVals h.wf (keeps_upd_visit p), ?_, ?_⟩
  · intro e he
    obtain ⟨e0, h0, rfl⟩ := mem_mapVals.1 he
    unfold upd
    split_ifs with hpe
    · simp [Vertex.visit, hpe]
    · simp only [List.mem_append, List.mem_singleton]
      rw [h.vis_iff e0 h0]
      constructor
      · exact Or.inl
      · rintro (h1 | h1)
        · exact h1
        · exact absurd h1.symm hpe
  · intro e he hv
    obtain ⟨e0, h0, rfl⟩ := mem_mapVals.1 he
    unfold upd at hv ⊢
    split_ifs at hv ⊢ with hpe
    · simp [Vertex.visit] at hv
    · exact h.cur_zero e0 h0 hv

theorem mem_mapVals_of_mem {F : String → Vertex → Vertex} {m : List (String × Vertex)}
    {p : String} {v : Vertex} (h : (p, v) ∈ m) : (p, F p v) ∈ mapVals F m :=
  mem_mapVals.2 ⟨(p, v), h, rfl⟩

theorem unvisited_mapVals_le (g : Graph) {F : String → Vertex → Vertex}
    (hF : ∀ e ∈ g.vertices, (F e.1 e.2).visited = false → e.2.visited = false) :
    unvisited { g with vertices := mapVals F g.vertices } ≤ unvisited g := by
  unfold unvisited mapVals
  apply countP_map_le
  intro e he
  simpa using hF e he

theorem unvisited_visit_lt {g : Graph} {p : String} {vp : Vertex} (hp : (p, vp) ∈ g.vertices)
    (hv : vp.visited = false) :
    unvisited { g with vertices := mapVals (upd p Vertex.visit) g.vertices } < unvisited g := by
  unfold unvisited mapVals
  apply countP_map_lt (a := (p, vp)) _ hp
  · simp [hv]
  · simp [upd, Vertex.visit]
  · intro e _
    unfold upd
    split_ifs <;> simp [Vertex.visit]

/-! ## The reference traversal only ever adds labels -/

theorem refVisitAll_nil (dfs : List String → String → List String) (em : List String) :
    refVisitAll dfs [] em = em := rfl

theorem refVisitAll_cons (dfs : List String → String → List String) (u : String)
    (us em : List String) :
    refVisitAll dfs (u :: us) em = refVisitAll dfs us (if u ∈ em then em else dfs em u) := rfl

theorem refVisitAll_subset {dfs : List String → String → List String}
    (hdfs : ∀ em q, em ⊆ dfs em q) (us em : List String) : em ⊆ refVisitAll dfs us em := by
  induction us generalizing em with
  | nil => exact fun x hx => hx
  | cons u us ih =>
    rw [refVisitAll_cons]
    refine List.Subset.trans ?_ (ih _)
    split_ifs
    · exact fun x hx => hx
    · exact hdfs em u

theorem refDfs_subset (N : String → List String) (f : Nat) (em : List String) (q : String) :
    em ⊆ refDfs N f em q := by
  induction f generalizing em q with
  | zero => exact fun x hx => hx
  | succ f ih =>
    show em ⊆ refVisitAll (refDfs N f) (N q) (em ++ [q])
    exact List.Subset.trans (List.subset_append_left em [q]) (refVisitAll_subset ih _ _)

theorem mem_refDfs_self (N : String → List String) (f : Nat) (em : List String) (q : String) :
    q ∈ refDfs N (f + 1) em q := by
  show q ∈ refVisitAll (refDfs N f) (N q) (em ++ [q])
  exact refVisitAll_subset (refDfs_subset N f) _ _ (by simp)

theorem settleV_of_visited (R : List String) (k : String) {v : Vertex}
    (h : v.visited = true) : settleV R k v = v := by
  unfold settleV
  rw [if_neg]
  simp [h]

theorem settleV_settleV {R1 R : List String} (hsub : R1 ⊆ R) (k : String) (v : Vertex) :
    settleV R k (settleV R1 k v) = settleV R k v := by
  by_cases hc : v.visited = false ∧ k ∈ R1
  · have h1 : settleV R1 k v =
        { v with visited := true, currentNeighbor := v.adjacencyList.length } := by
      unfold settleV
      rw [if_pos hc]
    have h2 : settleV R k v =
        { v with visited := true, currentNeighbor := v.adjacencyList.length } := by
      unfold settleV
      rw [if_pos ⟨hc.1, hsub hc.2⟩]
    rw [h1, h2]
    exact settleV_of_visited R k rfl
  · have h1 : settleV R1 k v = v := by
      unfold settleV
      rw [if_neg hc]
    rw [h1]

/-! ## The depth-first traversal follows the reference -/

/-- The loop of `depthFirstTraversalHelper` over the neighbours `us` that the
iterator of `p` has not handed out yet, given that the recursive calls follow
the reference. -/
theorem dfs_loop_sim (N : String → List String) (f1 f2 : Nat)
    (recurse : Graph → List String → Option String → Run Trav)
    (hrec : ∀ g out q, TravInv g out → g.neighbours = N → q ∈ mapKeys g.vertices → q ∉ out →
        unvisited g ≤ f1 → unvisited g ≤ f2 →
        recurse g out (some q) = .ok (settle (refDfs N f2 out q) g, refDfs N f2 out q))
    (p : String) :
    ∀ (us : List String) (g : Graph) (out : List String) (vp : Vertex),
      TravInv g out → g.neighbours = N → (p, vp) ∈ g.vertices → vp.visited = true →
      (mapKeys vp.adjacencyList).drop vp.currentNeighbor = us →
      vp.currentNeighbor ≤ vp.adjacencyList.length →
      unvisited g ≤ f1 → unvisited g ≤ f2 →
      forLoop (dfsBody recurse p) us.length (g, out) =
        .ok ({ g with vertices :=
                (mapVals (fun k v => settleV (refVisitAll (refDfs N f2) us out) k (finishV p k v))
                  g.vertices) },
             refVisitAll (refDfs N f2) us out) := by
  intro us
  induction us with
  | nil =>
    intro g out vp hinv _ hp hv hd hle _ _
    have hcur : vp.currentNeighbor = vp.adjacencyList.length := by
      have := List.drop_eq_nil_iff.1 hd
      simp only [mapKeys, List.length_map] at this
      omega
    have hself : mapVals (fun k v => settleV out k (finishV p k v)) g.vertices = g.vertices := by
      apply mapVals_self
      intro e he
      have hfin : finishV p e.1 e.2 = e.2 := by
        unfold finishV
        split_ifs with hpe
        · have : e.2 = vp := entry_unique hinv.wf (by rw [hpe]; exact he) hp
          rw [this, ← hcur]
        · rfl
      rw [hfin]
      unfold settleV
      rw [if_neg]
      rintro ⟨h1, h2⟩
      rw [(hinv.vis_iff e he).2 h2] at h1
      cases h1
    simp only [List.length_nil, forLoop, refVisitAll_nil, hself]
  | cons u us ih =>
    intro g out vp hinv hN hp hv hd hle hf1 hf2
    obtain ⟨hnext, hd', hlt, humem⟩ := getNextNeighbor_of_drop hd
    have hstep := getNextNeighborAt_spec hinv.wf hp hd
    set g1 : Graph :=
      { g with vertices := mapVals (upd p (fun w => (w.getNextNeighbor).2)) g.vertices }
      with hg1
    have hinv1 : TravInv g1 out := travInv_next hinv hp hv
    have hN1 : g1.neighbours = N := by
      rw [← hN]
      exact neighbours_mapVals g (keeps_upd_next p)
    have hp1 : (p, { vp with currentNeighbor := vp.currentNeighbor + 1 }) ∈ g1.vertices := by
      have := mem_mapVals_of_mem (F := upd p (fun w => (w.getNextNeighbor).2)) hp
      simp only [upd, if_true, hnext] at this
      exact this
    have hu_keys : u ∈ mapKeys g.vertices := hinv.wf.adj_mem _ hp u humem
    have hu_keys1 : u ∈ mapKeys g1.vertices := by
      simpa [hg1, mapKeys_mapVals] using hu_keys
    have hu_ne : u ≠ "" := by
      obtain ⟨vu, hvu⟩ := exists_entry_of_mem hu_keys
      exact hinv.wf.key_ne _ hvu
    obtain ⟨vu, hvu⟩ := exists_entry_of_mem hu_keys1
    have hun1 : unvisited g1 ≤ unvisited g := by
      apply unvisited_mapVals_le
      intro e _
      unfold upd
      split_ifs
      · obtain ⟨c, hc⟩ := getNextNeighbor_snd e.2
        show (e.2.getNextNeighbor).2.visited = false → _
        rw [hc]
        exact id
      · exact id
    have hbody : dfsBody recurse p (g, out) =
        if !vu.isVisited then recurse g1 out (some u) else .ok (g1, out) := by
      unfold dfsBody
      simp only [hstep, Run.ok_bind, findVertex_of_mem hu_ne hu_keys1, deref_of_mem hinv1.wf hvu]
    show (dfsBody recurse p (g, out)).bind (forLoop (dfsBody recurse p) us.length) = _
    rw [hbody, refVisitAll_cons]
    by_cases hvis : vu.visited = true
    · have hu_out : u ∈ out := (hinv1.vis_iff _ hvu).1 hvis
      simp only [Vertex.isVisited, hvis, Bool.not_true, Bool.false_eq_true, if_false,
        if_pos hu_out, Run.ok_bind]
      rw [ih g1 out _ hinv1 hN1 hp1 hv hd' (by simpa using hlt) (le_trans hun1 hf1)
        (le_trans hun1 hf2)]
      congr 2
      rw [hg1]
      simp only [mapVals_mapVals]
      congr 1
      apply mapVals_congr
      intro e _
      have : finishV p e.1 (upd p (fun w => (w.getNextNeighbor).2) e.1 e.2) =
          finishV p e.1 e.2 := by
        unfold finishV upd
        split_ifs
        · obtain ⟨c, hc⟩ := getNextNeighbor_snd e.2
          show ({ (e.2.getNextNeighbor).2 with
            currentNeighbor := (e.2.getNextNeighbor).2.adjacencyList.length } : Vertex) = _
          rw [hc]
        · rfl
      rw [this]
    · have hvis' : vu.visited = false := by simpa using hvis
      have hu_out : u ∉ out := fun hc => hvis ((hinv1.vis_iff _ hvu).2 hc)
      simp only [Vertex.isVisited, hvis', Bool.not_false, if_true, if_neg hu_out]
      rw [hrec g1 out u hinv1 hN1 hu_keys1 hu_out (le_trans hun1 hf1) (le_trans hun1 hf2)]
      set R1 := refDfs N f2 out u with hR1
      have hsub1 : out ⊆ R1 := refDfs_subset N f2 out u
      have hinv2 : TravInv (settle R1 g1) R1 := travInv_settle hinv1 hsub1
      have hN2 : (settle R1 g1).neighbours = N := by
        rw [← hN1]
        exact neighbours_mapVals g1 (keeps_settleV R1)
      have hp2 : (p, { vp with currentNeighbor := vp.currentNeighbor + 1 }) ∈
          (settle R1 g1).vertices := by
        have := mem_mapVals_of_mem (F := settleV R1) hp1
        rw [settleV_of_visited R1 p (by exact hv)] at this
        exact this
      have hun2 : unvisited (settle R1 g1) ≤ unvisited g1 := by
        apply unvisited_mapVals_le
        intro e _
        unfold settleV
        split_ifs
        · intro hc
          cases hc
        · exact id
      rw [Run.ok_bind]
      rw [ih (settle R1 g1) R1 _ hinv2 hN2 hp2 hv hd' (by simpa using hlt)
        (le_trans hun2 (le_trans hun1 hf1)) (le_trans hun2 (le_trans hun1 hf2))]
      congr 2
      have hsubR : R1 ⊆ refVisitAll (refDfs N f2) us R1 :=
        refVisitAll_subset (refDfs_subset N f2) us R1
      simp only [settle, hg1, mapVals_mapVals]
      congr 1
      apply mapVals_congr
      intro e he
      by_cases hpe : p = e.1
      · have hev : e.2 = vp := entry_unique hinv.wf (by rw [hpe]; exact he) hp
        have h1 : upd p (fun w => (w.getNextNeighbor).2) e.1 e.2 =
            { vp with currentNeighbor := vp.currentNeighbor + 1 } := by
          unfold upd
          rw [if_pos hpe]
          show (e.2.getNextNeighbor).2 = _
          rw [hev, hnext]
        rw [h1, settleV_of_visited R1 e.1 (by exact hv)]
        unfold finishV
        rw [if_pos hpe, if_pos hpe, hev]
      · have h1 : upd p (fun w => (w.getNextNeighbor).2) e.1 e.2 = e.2 := by
          unfold upd
          rw [if_neg hpe]
        have h2 : ∀ w, finishV p e.1 w = w := by
          intro w
          unfold finishV
          rw [if_neg hpe]
        rw [h1, h2, h2, settleV_settleV hsubR]

theorem unvisited_pos {g : Graph} {q : String} {vq : Vertex} (hq : (q, vq) ∈ g.vertices)
    (hv : vq.visited = false) : 0 < unvisited g := by
  unfold unvisited
  rw [List.countP_pos_iff]
  exact ⟨(q, vq), hq, by simp [hv]⟩

/-- A call of `depthFirstTraversalHelper` on an unvisited vertex, with enough
depth allowance on both sides, returns what the reference returns and leaves
the graph settled on the emitted labels. -/
theorem dfs_helper_sim (N : String → List String) :
    ∀ (f1 f2 : Nat) (g : Graph) (out : List String) (q : String),
      TravInv g out → g.neighbours = N → q ∈ mapKeys g.vertices → q ∉ out →
      unvisited g ≤ f1 → unvisited g ≤ f2 →
      depthFirstTraversalHelper f1 g out (some q) =
        .ok (settle (refDfs N f2 out q) g, refDfs N f2 out q) := by
  intro f1
  induction f1 with
  | zero =>
    intro f2 g out q hinv _ hq hout hf1 _
    obtain ⟨vq, hvq⟩ := exists_entry_of_mem hq
    have hv : vq.visited = false := by
      by_contra hc
      exact hout ((hinv.vis_iff _ hvq).1 (by simpa using hc))
    have := unvisited_pos hvq hv
    omega
  | succ f1 ih =>
    intro f2 g out q hinv hN hq hout hf1 hf2
    obtain ⟨vq, hvq⟩ := exists_entry_of_mem hq
    have hv : vq.visited = false := by
      by_contra hc
      exact hout ((hinv.vis_iff _ hvq).1 (by simpa using hc))
    have hpos := unvisited_pos hvq hv
    cases f2 with
    | zero => omega
    | succ f2 =>
      have hlabel : vq.getLabel = q := hinv.wf.label_eq _ hvq
      have hcur : vq.currentNeighbor = 0 := hinv.cur_zero _ hvq hv
      have hNq : N q = mapKeys vq.adjacencyList := by
        rw [← hN]
        exact neighbours_of_mem hinv.wf hvq
      have hlen : vq.getNumberOfNeighbors = (N q).length := by
        rw [hNq]
        simp [Vertex.getNumberOfNeighbors, mapKeys]
      set g1 : Graph := { g with vertices := mapVals (upd q Vertex.visit) g.vertices } with hg1
      have hinv1 : TravInv g1 (out ++ [q]) := travInv_visit hinv q
      have hN1 : g1.neighbours = N := by
        rw [← hN]
        exact neighbours_mapVals g (keeps_upd_visit q)
      have hq1 : (q, vq.visit) ∈ g1.vertices := by
        have := mem_mapVals_of_mem (F := upd q Vertex.visit) hvq
        simpa [upd] using this
      have hun1 : unvisited g1 < unvisited g := unvisited_visit_lt hvq hv
      have hloop := dfs_loop_sim N f1 f2 (depthFirstTraversalHelper f1) (ih f2) q (N q) g1
        (out ++ [q]) vq.visit hinv1 hN1 hq1 rfl
        (by simp [Vertex.visit, hcur, hNq]) (by simp [Vertex.visit, hcur]) (by omega) (by omega)
      show (g.deref q).bind _ = _
      rw [deref_of_mem hinv.wf hvq, Run.ok_bind]
      simp only [visitAt, update_eq hinv.wf, hlabel, hlen]
      rw [hloop]
      have hR : refVisitAll (refDfs N f2) (N q) (out ++ [q]) = refDfs N (f2 + 1) out q := rfl
      rw [hR]
      congr 2
      simp only [settle, hg1, mapVals_mapVals]
      congr 1
      apply mapVals_congr
      intro e he
      by_cases hqe : q = e.1
      · have hev : e.2 = vq := entry_unique hinv.wf (by rw [hqe]; exact he) hvq
        have h1 : upd q Vertex.visit e.1 e.2 = vq.visit := by
          unfold upd
          rw [if_pos hqe, hev]
        have hmem : e.1 ∈ refDfs N (f2 + 1) out q := hqe ▸ mem_refDfs_self N f2 out q
        rw [h1]
        unfold finishV
        rw [if_pos hqe, settleV_of_visited _ _ (by rfl)]
        unfold settleV
        rw [if_pos ⟨by rw [hev]; exact hv, hmem⟩, hev]
        rfl
      · have h1 : upd q Vertex.visit e.1 e.2 = e.2 := by
          unfold upd
          rw [if_neg hqe]
        rw [h1]
        unfold finishV
        rw [if_neg hqe]

theorem unvisitAll_eq (g : Graph) :
    g.unvisitAllVertices =
      { g with vertices := mapVals (fun _ v => v.unvisit.resetNeighbor) g.vertices } := rfl

theorem keeps_unvisit : Keeps (fun _ v => v.unvisit.resetNeighbor) :=
  fun _ _ => ⟨rfl, rfl⟩

theorem travInv_unvisitAll {g : Graph} (h : g.WF) : TravInv g.unvisitAllVertices [] := by
  rw [unvisitAll_eq]
  refine ⟨wf_mapVals h keeps_unvisit, ?_, ?_⟩
  · intro e he
    obtain ⟨e0, _, rfl⟩ := (mem_mapVals (F := fun _ v => v.unvisit.resetNeighbor)).1 he
    simp [Vertex.unvisit, Vertex.resetNeighbor]
  · intro e he _
    obtain ⟨e0, _, rfl⟩ := (mem_mapVals (F := fun _ v => v.unvisit.resetNeighbor)).1 he
    rfl

theorem neighbours_unvisitAll (g : Graph) : g.unvisitAllVertices.neighbours = g.neighbours :=
  neighbours_mapVals g keeps_unvisit

theorem mapKeys_unvisitAll (g : Graph) :
    mapKeys g.unvisitAllVertices.vertices = mapKeys g.vertices :=
  mapKeys_mapVals (fun _ v => v.unvisit.resetNeighbor) g.vertices

theorem length_unvisitAll (g : Graph) :
    g.unvisitAllVertices.vertices.length = g.vertices.length := by
  simp [unvisitAllVertices]

theorem unvisited_le_length (g : Graph) : unvisited g ≤ g.vertices.length :=
  List.countP_le_length _

/-- On a well-formed graph and an existing start label, `depthFirstTraversal`
returns the labels the reference emits, for every depth allowance of the
reference that is at least the number of vertices. -/
theorem dfs_run {g : Graph} (h : g.WF) {start : String} (hs : start ∈ mapKeys g.vertices)
    (f2 : Nat) (hf2 : g.vertices.length ≤ f2) :
    depthFirstTraversal g start =
      .ok (settle (refDfs g.neighbours f2 [] start) g.unvisitAllVertices,
           refDfs g.neighbours f2 [] start) := by
  have hinv := travInv_unvisitAll h
  have hs0 : start ∈ mapKeys g.unvisitAllVertices.vertices := by
    rw [mapKeys_unvisitAll]
    exact hs
  have hne : start ≠ "" := by
    obtain ⟨v, hv⟩ := exists_entry_of_mem hs
    exact h.key_ne _ hv
  have hun := unvisited_le_length g.unvisitAllVertices
  have hlen := length_unvisitAll g
  unfold depthFirstTraversal
  simp only [findVertex_of_mem hne hs0]
  exact dfs_helper_sim g.neighbours _ f2 _ [] start hinv (neighbours_unvisitAll g) hs0
    (by simp) (by omega) (by omega)

theorem neighbours_mem_labels {g : Graph} (h : g.WF) (k y : String) (hy : y ∈ g.neighbours k) :
    y ∈ mapKeys g.vertices := by
  unfold neighbours at hy
  cases hf : mapFind g.vertices k with
  | none => simp [hf] at hy
  | some v =>
    rw [hf] at hy
    exact h.adj_mem _ (mapFind_some_mem hf) y hy

theorem neighbours_sorted {g : Graph} (h : g.WF) (k : String) :
    (g.neighbours k).Pairwise (· < ·) := by
  unfold neighbours
  cases hf : mapFind g.vertices k with
  | none => exact List.Pairwise.nil
  | some v => exact h.adj_sorted _ (mapFind_some_mem hf)

end Graph

/-! ## What the reference depth-first traversal emits -/

namespace Graph

theorem refVisitAll_nodup {dfs : List String → String → List String}
    (hdfs : ∀ em q, em.Nodup → q ∉ em → (dfs em q).Nodup) (us em : List String)
    (h : em.Nodup) : (refVisitAll dfs us em).Nodup := by
  induction us generalizing em with
  | nil => exact h
  | cons u us ih =>
    rw [refVisitAll_cons]
    apply ih
    split_ifs with hu
    · exact h
    · exact hdfs em u h hu

theorem refDfs_nodup (N : String → List String) (f : Nat) (em : List String) (q : String)
    (h : em.Nodup) (hq : q ∉ em) : (refDfs N f em q).Nodup := by
  induction f generalizing em q with
  | zero => exact h
  | succ f ih =>
    show (refVisitAll (refDfs N f) (N q) (em ++ [q])).Nodup
    apply refVisitAll_nodup ih
    rw [List.nodup_append]
    refine ⟨h, List.nodup_singleton q, ?_⟩
    intro x hx hx'
    rw [List.mem_singleton] at hx'
    exact hq (hx' ▸ hx)

/-- Every label the reference adds is reachable from the vertex it was started on. -/
theorem refDfs_sound (N : String → List String) (f : Nat) :
    ∀ (em : List String) (q x : String), x ∈ refDfs N f em q → x ∈ em ∨
      Relation.ReflTransGen (fun a b => b ∈ N a) q x := by
  induction f with
  | zero => intro em q x hx; exact Or.inl hx
  | succ f ih =>
    intro em q x hx
    have hloop : ∀ (us : List String) (em' : List String), (∀ u ∈ us, u ∈ N q) →
        x ∈ refVisitAll (refDfs N f) us em' → x ∈ em' ∨
          Relation.ReflTransGen (fun a b => b ∈ N a) q x := by
      intro us
      induction us with
      | nil => intro em' _ h; exact Or.inl h
      | cons u us ihus =>
        intro em' hus h
        rw [refVisitAll_cons] at h
        have hrest := ihus _ (fun w hw => hus w (List.mem_cons_of_mem _ hw)) h
        rcases hrest with h1 | h1
        · split_ifs at h1 with hu
          · exact Or.inl h1
          · rcases ih em' u x h1 with h2 | h2
            · exact Or.inl h2
            · exact Or.inr (Relation.ReflTransGen.head (hus u (List.mem_cons_self _ _)) h2)
        · exact Or.inr h1
    rcases hloop (N q) (em ++ [q]) (fun u hu => hu) hx with h1 | h1
    · rcases List.mem_append.1 h1 with h2 | h2
      · exact Or.inl h2
      · rw [List.mem_singleton] at h2
        exact Or.inr (h2 ▸ Relation.ReflTransGen.refl)
    · exact Or.inr h1

/-- A predicate that holds less often, and fails at one element where the other
holds, counts strictly fewer elements. -/
theorem countP_lt_of_imp {α : Type} {P Q : α → Bool} {l : List α}
    (h : ∀ x ∈ l, P x = true → Q x = true) {a : α} (ha : a ∈ l) (hQ : Q a = true)
    (hP : P a = false) : l.countP P < l.countP Q := by
  induction l with
  | nil => simp at ha
  | cons x l ih =>
    have hle : l.countP P ≤ l.countP Q :=
      List.countP_mono_left (fun y hy => h y (List.mem_cons_of_mem _ hy))
    rw [List.countP_cons, List.countP_cons]
    rcases List.mem_cons.1 ha with rfl | ha'
    · rw [if_pos hQ, if_neg (by simp [hP])]
      omega
    · have hlt := ih (fun y hy => h y (List.mem_cons_of_mem _ hy)) ha'
      have hx := h x (List.mem_cons_self _ _)
      by_cases hpx : P x = true
      · rw [if_pos hpx, if_pos (hx hpx)]
        omega
      · rw [if_neg hpx]
        split_ifs <;> omega

theorem rem_mono (K : List String) {em em' : List String} (h : em ⊆ em') :
    K.countP (fun k => decide (k ∉ em')) ≤ K.countP (fun k => decide (k ∉ em)) := by
  apply List.countP_mono_left
  intro x _ hx
  simp only [decide_eq_true_eq] at hx ⊢
  exact fun hc => hx (h hc)

theorem rem_lt (K : List String) {em : List String} {q : String} (hq : q ∈ K) (hqe : q ∉ em) :
    K.countP (fun k => decide (k ∉ em ++ [q])) < K.countP (fun k => decide (k ∉ em)) := by
  apply countP_lt_of_imp (a := q) _ hq
  · simpa using hqe
  · simp
  · intro x _ hx
    simp only [decide_eq_true_eq, List.mem_append, not_or] at hx ⊢
    exact hx.1

/-- With a depth allowance of at least the number of labels not yet emitted, the
reference emits its start label and every neighbour of every label it adds. -/
theorem refDfs_closed (N : String → List String) (K : List String)
    (hN : ∀ k, ∀ y ∈ N k, y ∈ K) (f : Nat) :
    ∀ (em : List String) (q : String), q ∈ K → q ∉ em →
      K.countP (fun k => decide (k ∉ em)) ≤ f →
      q ∈ refDfs N f em q ∧
        ∀ x ∈ refDfs N f em q, x ∉ em → ∀ y ∈ N x, y ∈ refDfs N f em q := by
  induction f with
  | zero =>
    intro em q hq hqe hf
    exfalso
    have : 0 < K.countP (fun k => decide (k ∉ em)) := by
      rw [List.countP_pos_iff]
      exact ⟨q, hq, by simpa using hqe⟩
    omega
  | succ f ih =>
    intro em q hq hqe hf
    have hloop : ∀ (us : List String) (em' : List String), (∀ u ∈ us, u ∈ K) →
        K.countP (fun k => decide (k ∉ em')) ≤ f →
        (∀ u ∈ us, u ∈ refVisitAll (refDfs N f) us em') ∧
          ∀ x ∈ refVisitAll (refDfs N f) us em', x ∉ em' →
            ∀ y ∈ N x, y ∈ refVisitAll (refDfs N f) us em' := by
      intro us
      induction us with
      | nil =>
        intro em' _ _
        exact ⟨fun u hu => by simp at hu, fun x hx hx' => absurd hx hx'⟩
      | cons u us ihus =>
        intro em' hus hf'
        rw [refVisitAll_cons]
        have husK : ∀ w ∈ us, w ∈ K := fun w hw => hus w (List.mem_cons_of_mem _ hw)
        by_cases hu : u ∈ em'
        · rw [if_pos hu]
          obtain ⟨h1, h2⟩ := ihus em' husK hf'
          refine ⟨?_, h2⟩
          intro w hw
          rcases List.mem_cons.1 hw with rfl | hw
          · exact refVisitAll_subset (refDfs_subset N f) us em' hu
          · exact h1 w hw
        · rw [if_neg hu]
          obtain ⟨hself, hcl⟩ := ih em' u (hus u (List.mem_cons_self _ _)) hu hf'
          have hsub : em' ⊆ refDfs N f em' u := refDfs_subset N f em' u
          obtain ⟨h1, h2⟩ := ihus (refDfs N f em' u) husK (le_trans (rem_mono K hsub) hf')
          have hsub2 := refVisitAll_subset (refDfs_subset N f) us (refDfs N f em' u)
          refine ⟨?_, ?_⟩
          · intro w hw
            rcases List.mem_cons.1 hw with rfl | hw
            · exact hsub2 hself
            · exact h1 w hw
          · intro x hx hxe y hy
            by_cases hx1 : x ∈ refDfs N f em' u
            · exact hsub2 (hcl x hx1 hxe y hy)
            · exact h2 x hx hx1 y hy
    have hrem : K.countP (fun k => decide (k ∉ em ++ [q])) ≤ f := by
      have := rem_lt K hq hqe
      omega
    obtain ⟨h1, h2⟩ := hloop (N q) (em ++ [q]) (hN q) hrem
    refine ⟨mem_refDfs_self N f em q, ?_⟩
    intro x hx hxe y hy
    show y ∈ refVisitAll (refDfs N f) (N q) (em ++ [q])
    by_cases hxq : x = q
    · subst hxq
      exact h1 y hy
    · apply h2 x hx _ y hy
      simp only [List.mem_append, List.mem_singleton, not_or]
      exact ⟨hxe, hxq⟩

/-- Started with nothing emitted and a depth allowance of at least the number
of labels, the reference emits exactly the labels reachable from the start,
each once. -/
theorem refDfs_reach (N : String → List String) (K : List String)
    (hN : ∀ k, ∀ y ∈ N k, y ∈ K) (f : Nat) (hf : K.length ≤ f) (s : String) (hs : s ∈ K) :
    (refDfs N f [] s).Nodup ∧
      ∀ x, x ∈ refDfs N f [] s ↔ Relation.ReflTransGen (fun a b => b ∈ N a) s x := by
  refine ⟨refDfs_nodup N f [] s List.nodup_nil (by simp), ?_⟩
  have hcount : K.countP (fun k => decide (k ∉ ([] : List String))) ≤ f :=
    le_trans (List.countP_le_length _) hf
  obtain ⟨hself, hcl⟩ := refDfs_closed N K hN f [] s hs (by simp) hcount
  intro x
  constructor
  · intro hx
    rcases refDfs_sound N f [] s x hx with h | h
    · simp at h
    · exact h
  · intro hx
    induction hx with
    | refl => exact hself
    | tail _ hbc ih => exact hcl _ ih (by simp) _ hbc

end Graph

/-! ## The breadth-first traversal follows the FIFO reference -/

namespace Graph

theorem sameShape_refl (g : Graph) : SameShape g g :=
  ⟨rfl, rfl, fun _ v => v, fun _ _ => ⟨rfl, rfl⟩, (mapVals_self (fun _ _ => rfl)).symm⟩

theorem sameShape_trans {g1 g2 g3 : Graph} (h12 : SameShape g1 g2) (h23 : SameShape g2 g3) :
    SameShape g1 g3 := by
  obtain ⟨a1, b1, F, hF, e1⟩ := h12
  obtain ⟨a2, b2, G, hG, e2⟩ := h23
  refine ⟨a2.trans a1, b2.trans b1, fun k v => G k (F k v), keeps_comp hG hF, ?_⟩
  rw [e2, e1, mapVals_mapVals]

theorem sameShape_mapVals (g : Graph) {F : String → Vertex → Vertex} (hF : Keeps F) :
    SameShape g { g with vertices := mapVals F g.vertices } :=
  ⟨rfl, rfl, F, hF, rfl⟩

theorem refBfsScan_nil (oq : List String × List String) : refBfsScan [] oq = oq := rfl

theorem refBfsScan_cons (u : String) (us : List String) (oq : List String × List String) :
    refBfsScan (u :: us) oq = refBfsScan us (refBfsStep oq u) := rfl

/-- One pass through the body of the `for` loop of `breadthFirstTraversal`. -/
theorem bfs_step {N : String → List String} {c u : String} {us : List String} {s : BfsState}
    (h : BfsMid N c (u :: us) s) :
    ∃ s', bfsBody c s = .ok s' ∧ BfsMid N c us s' ∧
      (s'.out, s'.queue) = refBfsStep (s.out, s.queue) u ∧
      unvisited s'.graph + s'.queue.length ≤ unvisited s.graph + s.queue.length ∧
      SameShape s.graph s'.graph := by
  obtain ⟨g, out, queue⟩ := s
  obtain ⟨⟨hinv, hN, hqo, hqk, hqn, hqc⟩, ⟨vc, hc, hcv, hd⟩, hne⟩ := h
  simp only at hinv hN hqo hqk hqn hqc hc hd hne
  obtain ⟨hnext, hd', hlt, humem⟩ := getNextNeighbor_of_drop hd
  have hstep := getNextNeighborAt_spec hinv.wf hc hd
  set g1 : Graph :=
    { g with vertices := mapVals (upd c (fun w => (w.getNextNeighbor).2)) g.vertices } with hg1
  have hinv1 : TravInv g1 out := travInv_next hinv hc hcv
  have hN1 : g1.neighbours = N := by
    rw [← hN]
    exact neighbours_mapVals g (keeps_upd_next c)
  have hc1 : (c, { vc with currentNeighbor := vc.currentNeighbor + 1 }) ∈ g1.vertices := by
    have := mem_mapVals_of_mem (F := upd c (fun w => (w.getNextNeighbor).2)) hc
    simp only [upd, if_true, hnext] at this
    exact this
  have hkeys1 : mapKeys g1.vertices = mapKeys g.vertices := mapKeys_mapVals _ _
  have hu_keys : u ∈ mapKeys g.vertices := hinv.wf.adj_mem _ hc u humem
  have hu_keys1 : u ∈ mapKeys g1.vertices := hkeys1 ▸ hu_keys
  have hu_ne : u ≠ "" := by
    obtain ⟨vu, hvu⟩ := exists_entry_of_mem hu_keys
    exact hinv.wf.key_ne _ hvu
  obtain ⟨vu, hvu⟩ := exists_entry_of_mem hu_keys1
  have hun1 : unvisited g1 ≤ unvisited g := by
    apply unvisited_mapVals_le
    intro e _
    unfold upd
    split_ifs
    · obtain ⟨k, hk⟩ := getNextNeighbor_snd e.2
      show (e.2.getNextNeighbor).2.visited = false → _
      rw [hk]
      exact id
    · exact id
  have hqc1 : ∀ e ∈ g1.vertices, e.1 ∈ queue → e.2.currentNeighbor = 0 := by
    intro e he heq
    obtain ⟨e0, h0, rfl⟩ := mem_mapVals.1 he
    have hce : c ≠ e0.1 := fun hce => hne (hce ▸ heq)
    simp only [upd, if_neg hce]
    exact hqc e0 h0 heq
  have hbody : bfsBody c ⟨g, out, queue⟩ =
      if !vu.isVisited then .ok ⟨g1.visitAt u, out ++ [vu.getLabel], queue ++ [u]⟩
      else .ok ⟨g1, out, queue⟩ := by
    unfold bfsBody
    simp only [hstep, Run.ok_bind, findVertex_of_mem hu_ne hu_keys1, deref_of_mem hinv1.wf hvu]
  rw [hbody]
  by_cases hvis : vu.visited = true
  · have hu_out : u ∈ out := (hinv1.vis_iff _ hvu).1 hvis
    refine ⟨⟨g1, out, queue⟩, ?_, ?_, ?_, ?_, ?_⟩
    · simp [Vertex.isVisited, hvis]
    · exact ⟨⟨hinv1, hN1, hqo, fun k hk => hkeys1 ▸ hqk k hk, hqn, hqc1⟩,
        ⟨_, hc1, hcv, hd'⟩, hne⟩
    · simp [refBfsStep, hu_out]
    · simp only
      omega
    · exact sameShape_mapVals g (keeps_upd_next c)
  · have hvis' : vu.visited = false := by simpa using hvis
    have hu_out : u ∉ out := fun hc' => hvis ((hinv1.vis_iff _ hvu).2 hc')
    have hlabel : vu.getLabel = u := hinv1.wf.label_eq _ hvu
    have huc : u ≠ c := by
      rintro rfl
      have := entry_unique hinv1.wf hvu hc1
      rw [this] at hvis
      exact hvis hcv
    set g2 : Graph := { g1 with vertices := mapVals (upd u Vertex.visit) g1.vertices } with hg2
    have hvisit : g1.visitAt u = g2 := by
      simp only [visitAt, update_eq hinv1.wf, hg2]
    have hinv2 : TravInv g2 (out ++ [u]) := travInv_visit hinv1 u
    have hN2 : g2.neighbours = N := by
      rw [← hN1]
      exact neighbours_mapVals g1 (keeps_upd_visit u)
    have hkeys2 : mapKeys g2.vertices = mapKeys g.vertices := by
      rw [← hkeys1]
      exact mapKeys_mapVals _ _
    have hc2 : (c, { vc with currentNeighbor := vc.currentNeighbor + 1 }) ∈ g2.vertices := by
      have := mem_mapVals_of_mem (F := upd u Vertex.visit) hc1
      simp only [upd, if_neg huc] at this
      exact this
    have hun2 : unvisited g2 < unvisited g1 := unvisited_visit_lt hvu hvis'
    refine ⟨⟨g2, out ++ [u], queue ++ [u]⟩, ?_, ?_, ?_, ?_, ?_⟩
    · simp [Vertex.isVisited, hvis', hvisit, hlabel]
    · refine ⟨⟨hinv2, hN2, ?_, ?_, ?_, ?_⟩, ⟨_, hc2, hcv, hd'⟩, ?_⟩
      · intro k hk
        rcases List.mem_append.1 hk with hk | hk
        · exact List.mem_append_left _ (hqo k hk)
        · exact List.mem_append_right _ hk
      · intro k hk
        show k ∈ mapKeys g2.vertices
        rw [hkeys2]
        rcases List.mem_append.1 hk with hk | hk
        · exact hqk k hk
        · rw [List.mem_singleton] at hk
          exact hk ▸ hu_keys
      · show (queue ++ [u]).Nodup
        rw [List.nodup_append]
        refine ⟨hqn, List.nodup_singleton u, ?_⟩
        intro x hx hx'
        rw [List.mem_singleton] at hx'
        exact hu_out (hx' ▸ hqo x hx)
      · intro e he heq
        obtain ⟨e0, h0, rfl⟩ := mem_mapVals.1 he
        by_cases hue : u = e0.1
        · have : e0.2 = vu := entry_unique hinv1.wf (by rw [hue]; exact h0) hvu
          simp only [upd, if_pos hue, Vertex.visit, this]
          exact hinv1.cur_zero _ hvu hvis'
        · simp only [upd, if_neg hue]
          apply hqc1 e0 h0
          rcases List.mem_append.1 heq with hq | hq
          · exact hq
          · rw [List.mem_singleton] at hq
            exact absurd hq.symm hue
      · show c ∉ queue ++ [u]
        intro hcq
        rcases List.mem_append.1 hcq with hq | hq
        · exact hne hq
        · rw [List.mem_singleton] at hq
          exact huc hq.symm
    · simp [refBfsStep, hu_out]
    · simp only [List.length_append, List.length_singleton]
      omega
    · exact sameShape_trans (sameShape_mapVals g (keeps_upd_next c))
        (sameShape_mapVals g1 (keeps_upd_visit u))

/-- The whole `for` loop of `breadthFirstTraversal` for the dequeued vertex `c`. -/
theorem bfs_scan {N : String → List String} {c : String} :
    ∀ (us : List String) (s : BfsState), BfsMid N c us s →
      ∃ s', forLoop (bfsBody c) us.length s = .ok s' ∧ BfsMid N c [] s' ∧
        (s'.out, s'.queue) = refBfsScan us (s.out, s.queue) ∧
        unvisited s'.graph + s'.queue.length ≤ unvisited s.graph + s.queue.length ∧
        SameShape s.graph s'.graph := by
  intro us
  induction us with
  | nil =>
    intro s h
    exact ⟨s, rfl, h, rfl, le_refl _, sameShape_refl _⟩
  | cons u us ih =>
    intro s h
    obtain ⟨s1, hb, hmid, hoq, hm, hsh⟩ := bfs_step h
    obtain ⟨s2, hl, hmid2, hoq2, hm2, hsh2⟩ := ih s1 hmid
    refine ⟨s2, ?_, hmid2, ?_, le_trans hm2 hm, sameShape_trans hsh hsh2⟩
    · show (bfsBody c s).bind (forLoop (bfsBody c) us.length) = _
      rw [hb, Run.ok_bind, hl]
    · rw [refBfsScan_cons, ← hoq, hoq2]

/-- The `while` loop of `breadthFirstTraversal`, with enough iterations allowed
on both sides, ends with the labels the reference emits. -/
theorem bfs_loop_sim (N : String → List String) :
    ∀ (f1 f2 : Nat) (s : BfsState), BfsInv N s →
      unvisited s.graph + s.queue.length ≤ f1 → unvisited s.graph + s.queue.length ≤ f2 →
      ∃ g', bfsLoop f1 s = .ok ⟨g', refBfs N f2 s.out s.queue, []⟩ ∧ SameShape s.graph g' := by
  intro f1
  induction f1 with
  | zero =>
    intro f2 s h hf1 _
    obtain ⟨g, out, queue⟩ := s
    cases queue with
    | nil => exact ⟨g, by cases f2 <;> rfl, sameShape_refl g⟩
    | cons c rest => simp at hf1
  | succ f1 ih =>
    intro f2 s h hf1 hf2
    obtain ⟨g, out, queue⟩ := s
    cases queue with
    | nil => exact ⟨g, by cases f2 <;> rfl, sameShape_refl g⟩
    | cons c rest =>
      cases f2 with
      | zero => simp at hf2
      | succ f2 =>
        obtain ⟨hinv, hN, hqo, hqk, hqn, hqc⟩ := h
        simp only at hinv hN hqo hqk hqn hqc hf1 hf2
        obtain ⟨vc, hvc⟩ := exists_entry_of_mem (hqk c (List.mem_cons_self _ _))
        have hcv : vc.visited = true := (hinv.vis_iff _ hvc).2 (hqo c (List.mem_cons_self _ _))
        have hcur : vc.currentNeighbor = 0 := hqc _ hvc (List.mem_cons_self _ _)
        have hNc : N c = mapKeys vc.adjacencyList := by
          rw [← hN]
          exact neighbours_of_mem hinv.wf hvc
        have hlen : vc.getNumberOfNeighbors = (N c).length := by
          rw [hNc]
          simp [Vertex.getNumberOfNeighbors, mapKeys]
        have hnd := List.nodup_cons.1 hqn
        have hmid : BfsMid N c (N c) ⟨g, out, rest⟩ := by
          refine ⟨⟨hinv, hN, ?_, ?_, hnd.2, ?_⟩, ⟨vc, hvc, hcv, ?_⟩, hnd.1⟩
          · exact fun k hk => hqo k (List.mem_cons_of_mem _ hk)
          · exact fun k hk => hqk k (List.mem_cons_of_mem _ hk)
          · exact fun e he hk => hqc e he (List.mem_cons_of_mem _ hk)
          · rw [hcur, hNc]
            rfl
        obtain ⟨s1, hl, hmid1, hoq, hm, hsh⟩ := bfs_scan (N c) _ hmid
        simp only [List.length_cons] at hf1 hf2 hm
        obtain ⟨g', hrun, hsh'⟩ := ih f2 s1 hmid1.base (by omega) (by omega)
        refine ⟨g', ?_, sameShape_trans hsh hsh'⟩
        show (g.deref c).bind _ = _
        rw [deref_of_mem hinv.wf hvc, Run.ok_bind, hlen, hl, Run.ok_bind, hrun]
        have h1 : s1.out = (refBfsScan (N c) (out, rest)).1 := by rw [← hoq]
        have h2 : s1.queue = (refBfsScan (N c) (out, rest)).2 := by rw [← hoq]
        rw [h1, h2]
        rfl

/-- On a well-formed graph and an existing start label, `breadthFirstTraversal`
returns the labels the FIFO reference emits, for every allowance of dequeue
steps of the reference that is at least the number of vertices. -/
theorem bfs_run {g : Graph} (h : g.WF) {start : String} (hs : start ∈ mapKeys g.vertices)
    (f2 : Nat) (hf2 : g.vertices.length ≤ f2) :
    ∃ g', breadthFirstTraversal g start =
        .ok (g', refBfs g.neighbours f2 [start] [start]) ∧ SameShape g g' := by
  have hinv := travInv_unvisitAll h
  have hs0 : start ∈ mapKeys g.unvisitAllVertices.vertices := by
    rw [mapKeys_unvisitAll]
    exact hs
  have hne : start ≠ "" := by
    obtain ⟨v, hv⟩ := exists_entry_of_mem hs
    exact h.key_ne _ hv
  have hun := unvisited_le_length g.unvisitAllVertices
  have hlen := length_unvisitAll g
  obtain ⟨v0, hv0⟩ := exists_entry_of_mem hs0
  have hvis0 : v0.visited = false := by
    by_contra hc
    have := (hinv.vis_iff _ hv0).1 (by simpa using hc)
    simp at this
  have hlabel : v0.getLabel = start := hinv.wf.label_eq _ hv0
  set g1 : Graph := { g.unvisitAllVertices with
    vertices := mapVals (upd start Vertex.visit) g.unvisitAllVertices.vertices } with hg1
  have hvisit : g.unvisitAllVertices.visitAt start = g1 := by
    simp only [visitAt, update_eq hinv.wf, hg1]
  have hinv1 : TravInv g1 [start] := by
    have := travInv_visit hinv start
    simpa using this
  have hun1 : unvisited g1 < unvisited g.unvisitAllVertices := unvisited_visit_lt hv0 hvis0
  have hbinv : BfsInv g.neighbours ⟨g1, [start], [start]⟩ := by
    refine ⟨hinv1, ?_, fun k hk => hk, ?_, List.nodup_singleton _, ?_⟩
    · rw [← neighbours_unvisitAll g]
      exact neighbours_mapVals _ (keeps_upd_visit start)
    · intro k hk
      rw [List.mem_singleton] at hk
      show k ∈ mapKeys (mapVals _ _)
      rw [mapKeys_mapVals, hk]
      exact hs0
    · intro e he hk
      rw [List.mem_singleton] at hk
      obtain ⟨e0, h0, rfl⟩ := mem_mapVals.1 he
      simp only at hk
      have h0' : (start, e0.2) ∈ g.unvisitAllVertices.vertices := by
        rw [← hk]
        exact h0
      have hev : e0.2 = v0 := entry_unique hinv.wf h0' hv0
      simp only [upd, hk, if_true, Vertex.visit, hev]
      exact hinv.cur_zero _ hv0 hvis0
  have hmeasure : unvisited g1 + 1 ≤ g.vertices.length := by omega
  obtain ⟨g', hrun, hsh⟩ := bfs_loop_sim g.neighbours (g.unvisitAllVertices.vertices.length + 1)
    f2 ⟨g1, [start], [start]⟩ hbinv
    (by simp only [List.length_singleton]; omega) (by simp only [List.length_singleton]; omega)
  refine ⟨g', ?_, ?_⟩
  · unfold breadthFirstTraversal
    simp only [findVertex_of_mem hne hs0, deref_of_mem hinv.wf hv0, Run.ok_bind, hvisit,
      hlabel, hrun]
  · refine sameShape_trans ?_ hsh
    exact sameShape_trans (sameShape_mapVals g keeps_unvisit)
      (sameShape_mapVals g.unvisitAllVertices (keeps_upd_visit start))

end Graph

/-! ## What the FIFO reference emits -/

namespace Graph

/-- Every reachable label at distance at most that of the label being
processed has been emitted already. -/
theorem scan_low_mem {N : String → List String} {K : List String} {d : String → Nat}
    {s : String} (hd : DistFn N s d) {P : List String} {c : String} {out q : List String}
    (h : ScanInv N K d s P c out q) :
    ∀ (n : Nat) (y : String), d y = n → Relation.ReflTransGen (fun a b => b ∈ N a) s y →
      d y ≤ d c → y ∈ out := by
  intro n
  induction n with
  | zero =>
    intro y hy hr hle
    by_cases hys : y = s
    · exact hys ▸ h.start_mem
    · obtain ⟨x, _, _, hdx⟩ := hd.pred y hr hys
      omega
  | succ n ih =>
    intro y hy hr hle
    by_cases hys : y = s
    · exact hys ▸ h.start_mem
    · obtain ⟨x, hxr, hxy, hdx⟩ := hd.pred y hr hys
      have hxout : x ∈ out := ih x (by omega) hxr (by omega)
      have hsorted := h.sorted
      rw [h.split] at hxout hsorted
      rcases List.mem_append.1 hxout with hxP | hxcq
      · exact h.closedP x hxP y hxy
      · exfalso
        have hcx : d c ≤ d x := by
          rcases List.mem_cons.1 hxcq with rfl | hxq
          · exact le_refl _
          · exact List.rel_of_pairwise_cons (List.Pairwise.sublist
              (List.sublist_append_right P (c :: q)) hsorted) hxq
        omega

theorem scan_step {N : String → List String} {K : List String} {d : String → Nat}
    {s : String} (hd : DistFn N s d) {P : List String} {c : String} {out q : List String}
    (h : ScanInv N K d s P c out q) {u : String} (hu : u ∈ N c) (huK : u ∈ K) :
    ScanInv N K d s P c (refBfsStep (out, q) u).1 (refBfsStep (out, q) u).2 ∧
      u ∈ (refBfsStep (out, q) u).1 ∧ out ⊆ (refBfsStep (out, q) u).1 ∧
      K.countP (fun k => decide (k ∉ (refBfsStep (out, q) u).1)) +
          (refBfsStep (out, q) u).2.length ≤
        K.countP (fun k => decide (k ∉ out)) + q.length := by
  unfold refBfsStep
  by_cases huo : u ∈ out
  · simp only [if_pos huo]
    exact ⟨h, huo, fun x hx => hx, le_refl _⟩
  · simp only [if_neg huo]
    have hc_out : c ∈ out := by
      rw [h.split]
      simp
    have hcr := h.reach c hc_out
    have hur : Relation.ReflTransGen (fun a b => b ∈ N a) s u :=
      Relation.ReflTransGen.tail hcr hu
    have hdu : d u ≤ d c + 1 := hd.edge c u hcr hu
    have hdu' : d c < d u := by
      by_contra hle
      exact huo (scan_low_mem hd h (d u) u rfl hur (not_lt.1 hle))
    refine ⟨⟨?_, ?_, ?_, ?_, ?_, ?_, ?_, ?_⟩, by simp, List.subset_append_left _ _, ?_⟩
    · rw [h.split]
      simp
    · intro x hx y hy
      exact List.mem_append_left _ (h.closedP x hx y hy)
    · rw [List.pairwise_append]
      refine ⟨h.sorted, List.pairwise_singleton _ _, ?_⟩
      intro a ha b hb
      rw [List.mem_singleton] at hb
      have := h.bound a ha
      rw [hb]
      omega
    · intro x hx
      rcases List.mem_append.1 hx with hx | hx
      · exact h.bound x hx
      · rw [List.mem_singleton] at hx
        rw [hx]
        exact hdu
    · exact List.mem_append_left _ h.start_mem
    · intro x hx
      rcases List.mem_append.1 hx with hx | hx
      · exact h.reach x hx
      · rw [List.mem_singleton] at hx
        rw [hx]
        exact hur
    · rw [List.nodup_append]
      refine ⟨h.nodup, List.nodup_singleton u, ?_⟩
      intro x hx hx'
      rw [List.mem_singleton] at hx'
      exact huo (hx' ▸ hx)
    · intro x hx
      rcases List.mem_append.1 hx with hx | hx
      · exact h.inK x hx
      · rw [List.mem_singleton] at hx
        rw [hx]
        exact huK
    · have := rem_lt K huK huo
      simp only [List.length_append, List.length_singleton]
      omega

theorem scan_all {N : String → List String} {K : List String} {d : String → Nat}
    {s : String} (hd : DistFn N s d) (hN : ∀ k, ∀ y ∈ N k, y ∈ K) {P : List String}
    {c : String} :
    ∀ (us : List String) (out q : List String), ScanInv N K d s P c out q →
      (∀ u ∈ us, u ∈ N c) →
      ScanInv N K d s P c (refBfsScan us (out, q)).1 (refBfsScan us (out, q)).2 ∧
        (∀ u ∈ us, u ∈ (refBfsScan us (out, q)).1) ∧ out ⊆ (refBfsScan us (out, q)).1 ∧
        K.countP (fun k => decide (k ∉ (refBfsScan us (out, q)).1)) +
            (refBfsScan us (out, q)).2.length ≤
          K.countP (fun k => decide (k ∉ out)) + q.length := by
  intro us
  induction us with
  | nil =>
    intro out q h _
    exact ⟨h, fun u hu => by simp at hu, fun x hx => hx, le_refl _⟩
  | cons u us ih =>
    intro out q h hus
    have hu := hus u (List.mem_cons_self _ _)
    obtain ⟨h1, hu1, hsub1, hm1⟩ := scan_step hd h hu (hN c u hu)
    obtain ⟨h2, hus2, hsub2, hm2⟩ := ih _ _ h1 (fun w hw => hus w (List.mem_cons_of_mem _ hw))
    rw [refBfsScan_cons]
    refine ⟨h2, ?_, List.Subset.trans hsub1 hsub2, le_trans hm2 hm1⟩
    intro w hw
    rcases List.mem_cons.1 hw with rfl | hw
    · exact hsub2 hu1
    · exact hus2 w hw

/-- With enough dequeue steps allowed, the FIFO reference ends with a list that
has no repetition, contains the start, only reachable labels, every neighbour
of each of its labels, and is ordered by distance. -/
theorem refBfs_spec {N : String → List String} {K : List String} {d : String → Nat}
    {s : String} (hd : DistFn N s d) (hN : ∀ k, ∀ y ∈ N k, y ∈ K) :
    ∀ (f : Nat) (out q : List String), BfsOrd N K d s out q →
      K.countP (fun k => decide (k ∉ out)) + q.length ≤ f →
      (refBfs N f out q).Nodup ∧ s ∈ refBfs N f out q ∧
        (∀ x ∈ refBfs N f out q, Relation.ReflTransGen (fun a b => b ∈ N a) s x) ∧
        (∀ x ∈ refBfs N f out q, ∀ y ∈ N x, y ∈ refBfs N f out q) ∧
        (refBfs N f out q).Pairwise (fun a b => d a ≤ d b) := by
  intro f
  induction f with
  | zero =>
    intro out q h hf
    cases q with
    | nil =>
      obtain ⟨P, hP, hcl⟩ := h.split
      rw [List.append_nil] at hP
      exact ⟨h.nodup, h.start_mem, h.reach, fun x hx => hcl x (hP ▸ hx), h.sorted⟩
    | cons c rest => simp at hf
  | succ f ih =>
    intro out q h hf
    cases q with
    | nil =>
      obtain ⟨P, hP, hcl⟩ := h.split
      rw [List.append_nil] at hP
      exact ⟨h.nodup, h.start_mem, h.reach, fun x hx => hcl x (hP ▸ hx), h.sorted⟩
    | cons c rest =>
      obtain ⟨P, hP, hcl⟩ := h.split
      have hscan : ScanInv N K d s P c out rest :=
        ⟨hP, hcl, h.sorted, h.bound c rfl, h.start_mem, h.reach, h.nodup, h.inK⟩
      obtain ⟨h1, hall, hsub, hm⟩ := scan_all hd hN (N c) out rest hscan (fun u hu => hu)
      show (refBfs N f (refBfsScan (N c) (out, rest)).1 (refBfsScan (N c) (out, rest)).2).Nodup ∧ _
      apply ih
      · refine ⟨⟨P ++ [c], ?_, ?_⟩, h1.sorted, ?_, h1.start_mem, h1.reach, h1.nodup, h1.inK⟩
        · rw [h1.split]
          simp
        · intro x hx y hy
          rcases List.mem_append.1 hx with hx | hx
          · exact h1.closedP x hx y hy
          · rw [List.mem_singleton] at hx
            rw [hx] at hy
            exact hall y hy
        · intro c' hc' x hx
          have hc'mem : c' ∈ (refBfsScan (N c) (out, rest)).2 := List.mem_of_mem_head? hc'
          have hsorted := h1.sorted
          rw [h1.split] at hsorted
          have hcc' : d c ≤ d c' :=
            List.rel_of_pairwise_cons (List.Pairwise.sublist
              (List.sublist_append_right P _) hsorted) hc'mem
          have := h1.bound x hx
          omega
      · simp only [List.length_cons] at hf
        omega

end Graph

/-! ## Hop distance -/

namespace Graph

theorem mem_walkEnds_succ (N : String → List String) (s y : String) (k : Nat) :
    y ∈ walkEnds N s (k + 1) ↔ ∃ x, x ∈ walkEnds N s k ∧ y ∈ N x := by
  show y ∈ (walkEnds N s k).flatMap N ↔ _
  rw [List.mem_flatMap]

theorem reach_of_walk (N : String → List String) (s : String) :
    ∀ (k : Nat) (x : String), x ∈ walkEnds N s k →
      Relation.ReflTransGen (fun a b => b ∈ N a) s x := by
  intro k
  induction k with
  | zero =>
    intro x hx
    have : x = s := by simpa [walkEnds] using hx
    rw [this]
  | succ k ih =>
    intro x hx
    obtain ⟨w, hw, hwx⟩ := (mem_walkEnds_succ N s x k).1 hx
    exact Relation.ReflTransGen.tail (ih w hw) hwx

theorem walk_of_reach (N : String → List String) (s x : String)
    (h : Relation.ReflTransGen (fun a b => b ∈ N a) s x) : ∃ k, x ∈ walkEnds N s k := by
  induction h with
  | refl => exact ⟨0, by simp [walkEnds]⟩
  | tail _ hbc ih =>
    obtain ⟨k, hk⟩ := ih
    exact ⟨k + 1, (mem_walkEnds_succ N s _ k).2 ⟨_, hk, hbc⟩⟩

/-- A distance function exists, and it agrees with the least length of a walk. -/
theorem exists_distFn (N : String → List String) (s : String) :
    ∃ d : String → Nat, DistFn N s d ∧
      ∀ x k, (x ∈ walkEnds N s k ∧ ∀ j, j < k → x ∉ walkEnds N s j) → d x = k := by
  classical
  let d : String → Nat := fun x =>
    if h : ∃ k, x ∈ walkEnds N s k then Nat.find h else 0
  have hd_spec : ∀ x (h : ∃ k, x ∈ walkEnds N s k), d x = Nat.find h := by
    intro x h
    simp only [d, dif_pos h]
  have hd_mem : ∀ x, (∃ k, x ∈ walkEnds N s k) → x ∈ walkEnds N s (d x) := by
    intro x h
    rw [hd_spec x h]
    exact Nat.find_spec h
  have hd_le : ∀ x k, x ∈ walkEnds N s k → d x ≤ k := by
    intro x k hk
    rw [hd_spec x ⟨k, hk⟩]
    exact Nat.find_min' _ hk
  refine ⟨d, ⟨?_, ?_, ?_⟩, ?_⟩
  · have := hd_le s 0 (by simp [walkEnds])
    omega
  · intro x y hx hxy
    have hmem := hd_mem x (walk_of_reach N s x hx)
    exact hd_le y (d x + 1) ((mem_walkEnds_succ N s y (d x)).2 ⟨x, hmem, hxy⟩)
  · intro y hy hys
    have hmem := hd_mem y (walk_of_reach N s y hy)
    cases hdy : d y with
    | zero =>
      rw [hdy] at hmem
      exact absurd (by simpa [walkEnds] using hmem) hys
    | succ j =>
      rw [hdy] at hmem
      obtain ⟨x, hx, hxy⟩ := (mem_walkEnds_succ N s y j).1 hmem
      have hxr := reach_of_walk N s j x hx
      have h1 : d x ≤ j := hd_le x j hx
      have hmx := hd_mem x ⟨j, hx⟩
      have h2 : d y ≤ d x + 1 := hd_le y (d x + 1) ((mem_walkEnds_succ N s y (d x)).2 ⟨x, hmx, hxy⟩)
      exact ⟨x, hxr, hxy, by omega⟩
  · intro x k hk
    have h1 : d x ≤ k := hd_le x k hk.1
    have hmem := hd_mem x ⟨k, hk.1⟩
    by_contra hne
    exact hk.2 (d x) (lt_of_le_of_ne h1 hne) hmem

theorem before_of_pairwise {R : String → String → Prop} :
    ∀ (l : List String) (a b : String), l.Pairwise R → a ∈ l → b ∈ l → a ≠ b → ¬ R b a →
      Before l a b := by
  intro l
  induction l with
  | nil => intro a b _ ha; simp at ha
  | cons x l ih =>
    intro a b hp ha hb hab hR
    rw [List.pairwise_cons] at hp
    rcases List.mem_cons.1 ha with rfl | ha'
    · rcases List.mem_cons.1 hb with rfl | hb'
      · exact absurd rfl hab
      · obtain ⟨l2, l3, hl⟩ := List.append_of_mem hb'
        exact ⟨[], l2, l3, by simp [hl]⟩
    · rcases List.mem_cons.1 hb with rfl | hb'
      · exact absurd (hp.1 a ha') hR
      · obtain ⟨l1, l2, l3, hl⟩ := ih a b hp.2 ha' hb' hab hR
        exact ⟨x :: l1, l2, l3, by simp [hl]⟩

/-- The outcome of `breadthFirstTraversal` on a well-formed graph from an
existing start label. -/
theorem bfs_out_spec {g : Graph} (h : g.WF) {start : String}
    (hs : start ∈ mapKeys g.vertices) :
    ∃ (g' : Graph) (out : List String) (d : String → Nat),
      breadthFirstTraversal g start = .ok (g', out) ∧ SameShape g g' ∧
      out.Nodup ∧ (∀ x, x ∈ out ↔ g.Reachable start x) ∧
      out.Pairwise (fun a b => d a ≤ d b) ∧ (∀ x k, g.HopDist start x k → d x = k) := by
  obtain ⟨g', hrun, hsh⟩ := bfs_run h hs g.vertices.length (le_refl _)
  obtain ⟨d, hd, hdist⟩ := exists_distFn g.neighbours start
  have hN := neighbours_mem_labels h
  have hinit : BfsOrd g.neighbours (mapKeys g.vertices) d start [start] [start] := by
    refine ⟨⟨[], rfl, fun x hx => by simp at hx⟩, List.pairwise_singleton _ _, ?_,
      List.mem_singleton_self _, ?_, List.nodup_singleton _, ?_⟩
    · intro c hc x hx
      rw [List.mem_singleton] at hx
      simp only [List.head?_cons, Option.some.injEq] at hc
      rw [hx, ← hc]
      omega
    · intro x hx
      rw [List.mem_singleton] at hx
      rw [hx]
    · intro x hx
      rw [List.mem_singleton] at hx
      rw [hx]
      exact hs
  have hmeasure : (mapKeys g.vertices).countP (fun k => decide (k ∉ [start])) +
      [start].length ≤ g.vertices.length := by
    have h1 := @rem_lt (mapKeys g.vertices) [] start hs (by simp)
    have h2 : (mapKeys g.vertices).countP (fun k => decide (k ∉ ([] : List String))) ≤
        (mapKeys g.vertices).length := List.countP_le_length _
    have h3 : (mapKeys g.vertices).length = g.vertices.length := by simp [mapKeys]
    simp only [List.nil_append] at h1
    simp only [List.length_singleton]
    omega
  obtain ⟨hnd, hstart, hreach, hclosed, hsorted⟩ :=
    refBfs_spec hd hN g.vertices.length [start] [start] hinit hmeasure
  refine ⟨g', _, d, hrun, hsh, hnd, ?_, hsorted, hdist⟩
  intro x
  constructor
  · exact hreach x
  · intro hx
    induction hx with
    | refl => exact hstart
    | tail _ hbc ih => exact hclosed _ ih _ hbc

end Graph

/-! ## The edges of a built graph are the `add` calls -/

namespace Graph

theorem mapFind_mapInsert_of_not_mem {α : Type} {m : List (String × α)} {key : String}
    (val : α) (h : key ∉ mapKeys m) (x : String) :
    mapFind (mapInsert m key val) x = if x = key then some val else mapFind m x := by
  induction m with
  | nil => simp [mapInsert, mapFind]
  | cons e m ih =>
    obtain ⟨k, v⟩ := e
    simp only [mapKeys, List.map_cons, List.mem_cons, not_or] at h
    have ih' := ih h.2
    unfold mapInsert
    rw [if_neg h.1]
    by_cases hlt : strLt key k = true
    · rw [if_pos hlt]
      simp only [mapFind]
    · rw [if_neg hlt]
      simp only [mapFind]
      rw [ih']
      by_cases hxk : x = k
      · have hxkey : x ≠ key := fun hc => h.1 (hc ▸ hxk)
        rw [if_pos hxk, if_neg hxkey, if_pos hxk]
      · rw [if_neg hxk, if_neg hxk]

theorem mapFind_updateEntries (f : Vertex → Vertex) (p : String) (m : List (String × Vertex))
    (x : String) :
    mapFind (updateEntries f p m) x = if x = p then (mapFind m p).map f else mapFind m x := by
  induction m with
  | nil => simp [updateEntries, mapFind]
  | cons e m ih =>
    obtain ⟨k, v⟩ := e
    unfold updateEntries
    by_cases hpk : p = k
    · subst hpk
      rw [if_pos rfl]
      by_cases hx : x = p
      · simp [mapFind, hx]
      · simp [mapFind, hx]
    · rw [if_neg hpk]
      by_cases hx : x = k
      · subst hx
        have : x ≠ p := fun h => hpk h.symm
        simp [mapFind, this]
      · simp only [mapFind, hx, if_false, hpk]
        exact ih

theorem neighbours_findOrCreateVertex (g : Graph) (l : String) (hl : l ≠ "") :
    (g.findOrCreateVertex l).1.neighbours = g.neighbours := by
  unfold findOrCreateVertex
  cases hf : g.findVertex l with
  | some p => rfl
  | none =>
    have hnot : l ∉ mapKeys g.vertices := by
      rcases (findVertex_eq_none_iff g l).1 hf with h1 | h1
      · exact absurd h1 hl
      · exact h1
    funext x
    simp only [neighbours, mapFind_mapInsert_of_not_mem _ hnot]
    by_cases hx : x = l
    · subst hx
      rw [if_pos rfl, (mapFind_eq_none_iff g.vertices x).2 hnot]
      rfl
    · rw [if_neg hx]

theorem mem_keys_connect (v : Vertex) (t : String) (w : Int) (u : String) :
    u ∈ mapKeys (v.connect t w).1.adjacencyList ↔ u ∈ mapKeys v.adjacencyList ∨ u = t := by
  unfold Vertex.connect
  split_ifs with hc
  · have ht : t ∈ mapKeys v.adjacencyList := by
      by_contra hn
      exact hc ((mapCount_eq_zero_iff _ _).2 hn)
    constructor
    · exact Or.inl
    · rintro (h | h)
      · exact h
      · exact h ▸ ht
  · simp only [Vertex.resetNeighbor, mem_mapKeys_mapInsert]
    tauto

/-- After `add(s, t, w)` with non-empty labels the out-neighbours are the old
ones plus `t` for `s`. -/
theorem mem_neighbours_add {g : Graph} (h : g.WF) {s t : String} (hs : s ≠ "") (ht : t ≠ "")
    (w : Int) (v u : String) :
    u ∈ (g.add s t w).1.neighbours v ↔ u ∈ g.neighbours v ∨ (v = s ∧ u = t) := by
  obtain ⟨h1, hr1, hm1, hsub1, _⟩ := findOrCreateVertex_spec h hs
  obtain ⟨h2, hr2, hm2, hsub2, _⟩ := findOrCreateVertex_spec h1 (l := t) ht
  have hn1 := neighbours_findOrCreateVertex g s hs
  have hn2 := neighbours_findOrCreateVertex (g.findOrCreateVertex s).1 t ht
  have hs2 : s ∈ mapKeys ((g.findOrCreateVertex s).1.findOrCreateVertex t).1.vertices :=
    hsub2 s hm1
  obtain ⟨vs, hvs⟩ := (mapFind_isSome_iff _ _).2 hs2
  have hold : g.neighbours = ((g.findOrCreateVertex s).1.findOrCreateVertex t).1.neighbours := by
    rw [hn2, hn1]
  simp only [add, hr1]
  rw [hold]
  simp only [neighbours, update, mapFind_updateEntries]
  by_cases hv : v = s
  · subst hv
    simp only [if_true, hvs, Option.map_some', true_and]
    exact mem_keys_connect vs t w u
  · simp [hv]

theorem mem_neighbours_foldl (calls : List (String × String × Int))
    (hne : NonEmptyLabels calls) :
    ∀ (g : Graph), g.WF → ∀ (v u : String),
      u ∈ (calls.foldl (fun g c => (g.add c.1 c.2.1 c.2.2).1) g).neighbours v ↔
        u ∈ g.neighbours v ∨ ∃ w, (v, u, w) ∈ calls := by
  induction calls with
  | nil =>
    intro g _ v u
    simp
  | cons c cs ih =>
    intro g hg v u
    have hc := hne c (List.mem_cons_self _ _)
    have hcs : NonEmptyLabels cs := fun c' hc' => hne c' (List.mem_cons_of_mem _ hc')
    simp only [List.foldl_cons]
    rw [ih hcs _ (wf_add hg hc.1 hc.2 _), mem_neighbours_add hg hc.1 hc.2]
    obtain ⟨s, t, w⟩ := c
    simp only [List.mem_cons, Prod.mk.injEq]
    constructor
    · rintro ((h | ⟨h1, h2⟩) | ⟨w', hw'⟩)
      · exact Or.inl h
      · exact Or.inr ⟨w, Or.inl ⟨h1, h2, rfl⟩⟩
      · exact Or.inr ⟨w', Or.inr hw'⟩
    · rintro (h | ⟨w', (⟨h1, h2, _⟩ | hw')⟩)
      · exact Or.inl (Or.inl h)
      · exact Or.inl (Or.inr ⟨h1, h2⟩)
      · exact Or.inr ⟨w', hw'⟩

/-- In a graph built by `add` calls with non-empty labels, `u` is an
out-neighbour of `v` exactly when some call was `add(v, u, _)`. -/
theorem mem_neighbours_build (calls : List (String × String × Int))
    (hne : NonEmptyLabels calls) (v u : String) :
    u ∈ (build calls).neighbours v ↔ ∃ w, (v, u, w) ∈ calls := by
  unfold build
  rw [mem_neighbours_foldl calls hne _ wf_empty]
  simp [neighbours, Graph.empty, mapFind]

end Graph

/-! ## `connect`, `getEdgeWeight` and the neighbour iterator of one vertex -/

namespace Vertex

theorem length_mapInsert_of_not_mem {α : Type} {m : List (String × α)} {key : String}
    (val : α) (h : key ∉ mapKeys m) : (mapInsert m key val).length = m.length + 1 := by
  induction m with
  | nil => rfl
  | cons e m ih =>
    obtain ⟨k, v⟩ := e
    simp only [mapKeys, List.map_cons, List.mem_cons, not_or] at h
    unfold mapInsert
    rw [if_neg h.1]
    split_ifs
    · rfl
    · simp only [List.length_cons, ih h.2]

theorem connect_of_mem (v : Vertex) (t : String) (w : Int) (h : t ∈ mapKeys v.adjacencyList) :
    v.connect t w = (v, false) := by
  unfold connect
  rw [if_pos]
  intro hc
  exact (mapCount_eq_zero_iff _ _).1 hc h

theorem connect_of_not_mem (v : Vertex) (t : String) (w : Int)
    (h : t ∉ mapKeys v.adjacencyList) :
    v.connect t w =
      ({ v with adjacencyList := mapInsert v.adjacencyList t ⟨t, w⟩, currentNeighbor := 0 },
        true) := by
  unfold connect
  rw [if_neg]
  · rfl
  · intro hc
    exact hc ((mapCount_eq_zero_iff _ _).2 h)

theorem mem_keys_after_connect (v : Vertex) (t : String) (w : Int) :
    t ∈ mapKeys (v.connect t w).1.adjacencyList :=
  (Graph.mem_keys_connect v t w t).2 (Or.inr rfl)

theorem getEdgeWeight_connect_new (v : Vertex) (t : String) (w : Int)
    (h : t ∉ mapKeys v.adjacencyList) (u : String) :
    (v.connect t w).1.getEdgeWeight u = if u = t then Run.ok w else v.getEdgeWeight u := by
  rw [connect_of_not_mem v t w h]
  unfold getEdgeWeight
  simp only [Graph.mapFind_mapInsert_of_not_mem _ h]
  split_ifs <;> rfl

theorem sorted_connect (v : Vertex) (t : String) (w : Int)
    (h : (mapKeys v.adjacencyList).Pairwise (· < ·)) :
    (mapKeys (v.connect t w).1.adjacencyList).Pairwise (· < ·) := by
  unfold connect
  split_ifs
  · exact h
  · exact sorted_mapInsert t _ h

theorem sorted_built (label : String) (cs : List (String × Int)) :
    (mapKeys (built label cs).adjacencyList).Pairwise (· < ·) := by
  unfold built
  suffices H : ∀ (v : Vertex), (mapKeys v.adjacencyList).Pairwise (· < ·) →
      (mapKeys (cs.foldl (fun v c => (v.connect c.1 c.2).1) v).adjacencyList).Pairwise (· < ·) from
    H _ (by simp [Vertex.new, mapKeys])
  induction cs with
  | nil => exact fun v hv => hv
  | cons c cs ih => exact fun v hv => ih _ (sorted_connect v c.1 c.2 hv)

theorem mem_keys_built (label : String) (cs : List (String × Int)) (u : String) :
    u ∈ mapKeys (built label cs).adjacencyList ↔ ∃ w, (u, w) ∈ cs := by
  unfold built
  suffices H : ∀ (v : Vertex),
      u ∈ mapKeys (cs.foldl (fun v c => (v.connect c.1 c.2).1) v).adjacencyList ↔
        u ∈ mapKeys v.adjacencyList ∨ ∃ w, (u, w) ∈ cs by
    rw [H]
    simp [Vertex.new, mapKeys]
  induction cs with
  | nil => intro v; simp
  | cons c cs ih =>
    intro v
    obtain ⟨t, w⟩ := c
    simp only [List.foldl_cons, ih, Graph.mem_keys_connect, List.mem_cons, Prod.mk.injEq]
    constructor
    · rintro ((h | h) | ⟨w', hw'⟩)
      · exact Or.inl h
      · exact Or.inr ⟨w, Or.inl ⟨h, rfl⟩⟩
      · exact Or.inr ⟨w', Or.inr hw'⟩
    · rintro (h | ⟨w', (⟨h, _⟩ | hw')⟩)
      · exact Or.inl (Or.inl h)
      · exact Or.inl (Or.inr h)
      · exact Or.inr ⟨w', hw'⟩

/-- From iterator position `i` the next `r` calls, `i + r` being the number of
neighbours, hand out the remaining keys and leave the iterator at `end()`. -/
theorem nextN_rest : ∀ (r : Nat) (v : Vertex), v.currentNeighbor + r = v.adjacencyList.length →
    (nextN r v).1 = (mapKeys v.adjacencyList).drop v.currentNeighbor ∧
      (nextN r v).2 = { v with currentNeighbor := v.adjacencyList.length } := by
  intro r
  induction r with
  | zero =>
    intro v h
    have hc : v.currentNeighbor = v.adjacencyList.length := by omega
    refine ⟨?_, ?_⟩
    · show [] = _
      rw [List.drop_eq_nil_of_le]
      simp [mapKeys, hc]
    · show v = _
      rw [← hc]
  | succ r ih =>
    intro v h
    have hlt : v.currentNeighbor < (mapKeys v.adjacencyList).length := by
      simp only [mapKeys, List.length_map]
      omega
    have hd := List.drop_eq_getElem_cons hlt
    obtain ⟨hnext, _, _, _⟩ := Graph.getNextNeighbor_of_drop hd
    have hstep := ih { v with currentNeighbor := v.currentNeighbor + 1 } (by simp only; omega)
    show (v.getNextNeighbor).1 :: (nextN r (v.getNextNeighbor).2).1 = _ ∧
      (nextN r (v.getNextNeighbor).2).2 = _
    rw [hnext]
    simp only at hstep ⊢
    rw [hstep.1, hstep.2, hd]
    exact ⟨rfl, rfl⟩

/-- With the iterator at `end()` every call hands back the empty string and
changes nothing. -/
theorem nextN_exhausted : ∀ (m : Nat) (v : Vertex),
    v.currentNeighbor = v.adjacencyList.length →
    (nextN m v).1 = List.replicate m "" ∧ (nextN m v).2 = v := by
  intro m
  induction m with
  | zero => intro v _; exact ⟨rfl, rfl⟩
  | succ m ih =>
    intro v h
    have hnext : v.getNextNeighbor = ("", v) := by
      unfold getNextNeighbor
      rw [if_neg]
      rintro ⟨_, h2⟩
      exact h2 h
    show (v.getNextNeighbor).1 :: (nextN m (v.getNextNeighbor).2).1 = _ ∧
      (nextN m (v.getNextNeighbor).2).2 = _
    rw [hnext]
    simp only [(ih v h).1, (ih v h).2, List.replicate_succ, and_self]

theorem nextN_add : ∀ (a b : Nat) (v : Vertex),
    (nextN (a + b) v).1 = (nextN a v).1 ++ (nextN b (nextN a v).2).1 := by
  intro a
  induction a with
  | zero => intro b v; simp [nextN]
  | succ a ih =>
    intro b v
    have : a + 1 + b = (a + b) + 1 := by omega
    rw [this]
    show (v.getNextNeighbor).1 :: (nextN (a + b) (v.getNextNeighbor).2).1 = _
    rw [ih]
    rfl

end Vertex

/-! ## The two counters of the graph -/

namespace Graph

theorem numberOfEdges_findOrCreateVertex (g : Graph) (l : String) :
    (g.findOrCreateVertex l).1.numberOfEdges = g.numberOfEdges := by
  unfold findOrCreateVertex
  cases g.findVertex l <;> rfl

theorem numberOfEdges_add (g : Graph) (s t : String) (w : Int) :
    (g.add s t w).1.numberOfEdges = g.numberOfEdges + 1 := by
  unfold add
  simp only
  cases (g.findOrCreateVertex s).2 <;>
    simp [update, numberOfEdges_findOrCreateVertex]

theorem numberOfEdges_foldl (calls : List (String × String × Int)) :
    ∀ (g : Graph), (calls.foldl (fun g c => (g.add c.1 c.2.1 c.2.2).1) g).numberOfEdges =
      g.numberOfEdges + calls.length := by
  induction calls with
  | nil => intro g; simp
  | cons c cs ih =>
    intro g
    simp only [List.foldl_cons, ih, numberOfEdges_add, List.length_cons]
    push_cast
    ring

theorem length_updateEntries (f : Vertex → Vertex) (p : String) (m : List (String × Vertex)) :
    (updateEntries f p m).length = m.length := by
  have := congrArg List.length (mapKeys_updateEntries f p m)
  simpa [mapKeys] using this

/-- For a non-empty label `findOrCreateVertex` keeps the vertex counter equal to
the number of map entries, and the keys afterwards are the old ones and the
label. -/
theorem findOrCreateVertex_count {g : Graph} {l : String} (hl : l ≠ "")
    (hc : g.numberOfVertices = g.vertices.length) :
    (g.findOrCreateVertex l).1.numberOfVertices = (g.findOrCreateVertex l).1.vertices.length ∧
      ∀ x, x ∈ mapKeys (g.findOrCreateVertex l).1.vertices ↔ x = l ∨ x ∈ mapKeys g.vertices := by
  unfold findOrCreateVertex
  cases hf : g.findVertex l with
  | some p =>
    obtain ⟨_, hmem, _⟩ := (findVertex_eq_some_iff g l p).1 hf
    refine ⟨hc, fun x => ?_⟩
    constructor
    · exact Or.inr
    · rintro (h | h)
      · exact h ▸ hmem
      · exact h
  | none =>
    have hnot : l ∉ mapKeys g.vertices := by
      rcases (findVertex_eq_none_iff g l).1 hf with h1 | h1
      · exact absurd h1 hl
      · exact h1
    refine ⟨?_, fun x => mem_mapKeys_mapInsert _ _ _ _⟩
    simp only [Vertex.length_mapInsert_of_not_mem _ hnot, hc]
    push_cast
    ring

theorem add_count {g : Graph} (h : g.WF) {s t : String} (hs : s ≠ "") (ht : t ≠ "") (w : Int)
    (hc : g.numberOfVertices = g.vertices.length) :
    (g.add s t w).1.numberOfVertices = (g.add s t w).1.vertices.length ∧
      ∀ x, x ∈ mapKeys (g.add s t w).1.vertices ↔ x ∈ mapKeys g.vertices ∨ x = s ∨ x = t := by
  obtain ⟨_, hr1, _, _, _⟩ := findOrCreateVertex_spec h hs
  obtain ⟨hc1, hk1⟩ := findOrCreateVertex_count (g := g) hs hc
  obtain ⟨hc2, hk2⟩ := findOrCreateVertex_count (g := (g.findOrCreateVertex s).1) ht hc1
  simp only [add, hr1, update, length_updateEntries, mapKeys_updateEntries]
  refine ⟨hc2, fun x => ?_⟩
  rw [hk2, hk1]
  tauto

theorem build_count (calls : List (String × String × Int)) (hne : NonEmptyLabels calls) :
    (build calls).numberOfVertices = (build calls).vertices.length ∧
      ∀ x, x ∈ mapKeys (build calls).vertices ↔ x ∈ callLabels calls := by
  unfold build
  suffices H : ∀ (g : Graph), g.WF → g.numberOfVertices = g.vertices.length →
      (calls.foldl (fun g c => (g.add c.1 c.2.1 c.2.2).1) g).numberOfVertices =
        (calls.foldl (fun g c => (g.add c.1 c.2.1 c.2.2).1) g).vertices.length ∧
      ∀ x, x ∈ mapKeys (calls.foldl (fun g c => (g.add c.1 c.2.1 c.2.2).1) g).vertices ↔
        x ∈ mapKeys g.vertices ∨ x ∈ callLabels calls by
    obtain ⟨h1, h2⟩ := H Graph.empty wf_empty rfl
    refine ⟨h1, fun x => ?_⟩
    rw [h2]
    simp [Graph.empty, mapKeys]
  induction calls with
  | nil =>
    intro g _ hc
    exact ⟨hc, fun x => by simp [callLabels]⟩
  | cons c cs ih =>
    intro g hg hc
    have hcne := hne c (List.mem_cons_self _ _)
    have hcs : NonEmptyLabels cs := fun c' hc' => hne c' (List.mem_cons_of_mem _ hc')
    obtain ⟨ha1, ha2⟩ := add_count hg hcne.1 hcne.2 c.2.2 hc
    obtain ⟨h1, h2⟩ := ih hcs _ (wf_add hg hcne.1 hcne.2 c.2.2) ha1
    simp only [List.foldl_cons]
    refine ⟨h1, fun x => ?_⟩
    rw [h2, ha2]
    simp only [callLabels, List.flatMap_cons, List.mem_append, List.mem_cons, List.mem_singleton,
      List.not_mem_nil, or_false]
    tauto

end Graph

/-! ## Runs change visited flags and iterators only -/

namespace Graph

theorem forLoop_ok_rel {σ : Type} {body : σ → Run σ} (R : σ → σ → Prop)
    (hrefl : ∀ s, R s s) (htrans : ∀ a b c, R a b → R b c → R a c)
    (hbody : ∀ s s', body s = .ok s' → R s s') :
    ∀ (n : Nat) (s s' : σ), forLoop body n s = .ok s' → R s s' := by
  intro n
  induction n with
  | zero =>
    intro s s' h
    simp only [forLoop, Run.ok.injEq] at h
    exact h ▸ hrefl s
  | succ n ih =>
    intro s s' h
    simp only [forLoop] at h
    cases hb : body s with
    | fail f => rw [hb] at h; cases h
    | ok s1 =>
      rw [hb, Run.ok_bind] at h
      exact htrans _ _ _ (hbody s s1 hb) (ih s1 s' h)

theorem unvisitAll_update (g : Graph) (p : String) (f : Vertex → Vertex)
    (hf : ∀ v, (f v).unvisit.resetNeighbor = v.unvisit.resetNeighbor) :
    (g.update p f).unvisitAllVertices = g.unvisitAllVertices := by
  unfold unvisitAllVertices update
  simp only
  congr 1
  generalize g.vertices = m
  induction m with
  | nil => rfl
  | cons e m ih =>
    obtain ⟨k, v⟩ := e
    unfold updateEntries
    split_ifs
    · simp [hf v]
    · simp only [List.map_cons, ih]

theorem unvisitAll_visitAt (g : Graph) (p : String) :
    (g.visitAt p).unvisitAllVertices = g.unvisitAllVertices :=
  unvisitAll_update g p _ (fun _ => rfl)

theorem unvisitAll_next {g : Graph} {p : String} {r : String × Graph}
    (h : g.getNextNeighborAt p = .ok r) :
    r.2.unvisitAllVertices = g.unvisitAllVertices := by
  unfold getNextNeighborAt at h
  cases hd : g.deref p with
  | fail f => rw [hd] at h; cases h
  | ok v =>
    rw [hd, Run.ok_bind] at h
    cases h
    apply unvisitAll_update
    intro w
    obtain ⟨c, hc⟩ := getNextNeighbor_snd w
    rw [hc]
    rfl

theorem unvisitAll_idem (g : Graph) :
    g.unvisitAllVertices.unvisitAllVertices = g.unvisitAllVertices := by
  unfold unvisitAllVertices
  simp [Function.comp_def, Vertex.unvisit, Vertex.resetNeighbor]

theorem dfs_helper_flags : ∀ (fuel : Nat) (g : Graph) (out : List String) (p : Option String)
    (r : Trav), depthFirstTraversalHelper fuel g out p = .ok r →
    r.1.unvisitAllVertices = g.unvisitAllVertices := by
  intro fuel
  induction fuel with
  | zero =>
    intro g out p r h
    cases p with
    | none =>
      simp only [depthFirstTraversalHelper, Run.ok.injEq] at h
      rw [← h]
    | some q => simp [depthFirstTraversalHelper] at h
  | succ fuel ih =>
    intro g out p r h
    cases p with
    | none =>
      simp only [depthFirstTraversalHelper, Run.ok.injEq] at h
      rw [← h]
    | some q =>
      simp only [depthFirstTraversalHelper] at h
      cases hd : g.deref q with
      | fail f => rw [hd] at h; cases h
      | ok v =>
        rw [hd, Run.ok_bind] at h
        have hloop := forLoop_ok_rel
          (fun (a b : Trav) => b.1.unvisitAllVertices = a.1.unvisitAllVertices)
          (fun _ => rfl) (fun _ _ _ h1 h2 => h2.trans h1) ?_ _ _ _ h
        · simp only at hloop
          rw [hloop, unvisitAll_visitAt]
        · intro s s' hs
          unfold dfsBody at hs
          cases hn : s.1.getNextNeighborAt q with
          | fail f => rw [hn] at hs; cases hs
          | ok r1 =>
            rw [hn, Run.ok_bind] at hs
            have h1 := unvisitAll_next hn
            simp only at hs
            cases hfv : r1.2.findVertex r1.1 with
            | none => rw [hfv] at hs; cases hs
            | some q' =>
              rw [hfv] at hs
              simp only at hs
              cases hd' : r1.2.deref q' with
              | fail f => rw [hd'] at hs; cases hs
              | ok nv =>
                rw [hd', Run.ok_bind] at hs
                split_ifs at hs
                · rw [ih _ _ _ _ hs, h1]
                · cases hs
                  exact h1

theorem dfs_flags {g g' : Graph} {s : String} {out : List String}
    (h : g.depthFirstTraversal s = .ok (g', out)) :
    g'.unvisitAllVertices = g.unvisitAllVertices := by
  unfold depthFirstTraversal at h
  rw [dfs_helper_flags _ _ _ _ _ h, unvisitAll_idem]

theorem bfsBody_flags {c : String} {s s' : BfsState} (h : bfsBody c s = .ok s') :
    s'.graph.unvisitAllVertices = s.graph.unvisitAllVertices := by
  unfold bfsBody at h
  cases hn : s.graph.getNextNeighborAt c with
  | fail f => rw [hn] at h; cases h
  | ok r1 =>
    rw [hn, Run.ok_bind] at h
    have h1 := unvisitAll_next hn
    simp only at h
    cases hfv : r1.2.findVertex r1.1 with
    | none => rw [hfv] at h; cases h
    | some q =>
      rw [hfv] at h
      simp only at h
      cases hd : r1.2.deref q with
      | fail f => rw [hd] at h; cases h
      | ok nv =>
        rw [hd, Run.ok_bind] at h
        split_ifs at h
        · cases h
          show (r1.2.visitAt q).unvisitAllVertices = _
          rw [unvisitAll_visitAt, h1]
        · cases h
          exact h1

theorem bfsLoop_flags : ∀ (fuel : Nat) (s s' : BfsState), bfsLoop fuel s = .ok s' →
    s'.graph.unvisitAllVertices = s.graph.unvisitAllVertices := by
  intro fuel
  induction fuel with
  | zero =>
    intro s s' h
    obtain ⟨g, out, queue⟩ := s
    cases queue with
    | nil =>
      simp only [bfsLoop, Run.ok.injEq] at h
      rw [← h]
    | cons c rest => simp [bfsLoop] at h
  | succ fuel ih =>
    intro s s' h
    obtain ⟨g, out, queue⟩ := s
    cases queue with
    | nil =>
      simp only [bfsLoop, Run.ok.injEq] at h
      rw [← h]
    | cons c rest =>
      simp only [bfsLoop] at h
      cases hd : g.deref c with
      | fail f => rw [hd] at h; cases h
      | ok cv =>
        rw [hd, Run.ok_bind] at h
        cases hl : forLoop (bfsBody c) cv.getNumberOfNeighbors ⟨g, out, rest⟩ with
        | fail f => rw [hl] at h; cases h
        | ok s1 =>
          rw [hl, Run.ok_bind] at h
          have h1 := forLoop_ok_rel
            (fun (a b : BfsState) => b.graph.unvisitAllVertices = a.graph.unvisitAllVertices)
            (fun _ => rfl) (fun _ _ _ h1 h2 => h2.trans h1) (fun _ _ => bfsBody_flags) _ _ _ hl
          rw [ih _ _ h, h1]

theorem bfs_flags {g g' : Graph} {s : String} {out : List String}
    (h : g.breadthFirstTraversal s = .ok (g', out)) :
    g'.unvisitAllVertices = g.unvisitAllVertices := by
  unfold breadthFirstTraversal at h
  simp only at h
  cases hf : g.unvisitAllVertices.findVertex s with
  | none =>
    rw [hf] at h
    cases h
    exact unvisitAll_idem g
  | some p =>
    rw [hf] at h
    simp only at h
    cases hd : g.unvisitAllVertices.deref p with
    | fail f => rw [hd] at h; cases h
    | ok sv =>
      rw [hd, Run.ok_bind] at h
      cases hl : bfsLoop (g.unvisitAllVertices.vertices.length + 1)
          ⟨g.unvisitAllVertices.visitAt p, [sv.getLabel], [p]⟩ with
      | fail f => rw [hl] at h; cases h
      | ok s1 =>
        rw [hl, Run.ok_bind] at h
        cases h
        rw [bfsLoop_flags _ _ _ hl]
        show (g.unvisitAllVertices.visitAt p).unvisitAllVertices = _
        rw [unvisitAll_visitAt, unvisitAll_idem]

/-! ### The shortest-path run, step by step -/

theorem pqTop_eq_none_iff (pq : List PAIR) : pqTop pq = none ↔ pq = [] := by
  cases pq with
  | nil => simp [pqTop, pqTopIndex]
  | cons x rest =>
    simp only [reduceCtorEq, iff_false]
    unfold pqTop pqTopIndex
    cases hr : pqTopIndex rest with
    | none => simp
    | some i =>
      simp only
      cases hg : rest.get? i with
      | none => simp
      | some y =>
        simp only
        split_ifs
        · simp only [Option.some_bind, List.get?_cons_succ, hg]
          simp
        · simp

theorem dijkstraLoop_of_empty (fuel : Nat) (s : DijkstraState) (h : s.pq = []) :
    dijkstraLoop fuel s = .ok s := by
  have := (pqTop_eq_none_iff s.pq).2 h
  rw [dijkstraLoop, this]

theorem dijkstraStep_of_empty (s : DijkstraState) (h : s.pq = []) : dijkstraStep s = .ok s := by
  have := (pqTop_eq_none_iff s.pq).2 h
  simp [dijkstraStep, this]

/-- With a non-empty queue, the loop is one step followed by the loop with one
iteration less allowed. -/
theorem dijkstraLoop_succ (fuel : Nat) (s : DijkstraState) (h : s.pq ≠ []) :
    dijkstraLoop (fuel + 1) s = (dijkstraStep s).bind (dijkstraLoop fuel) := by
  cases ht : pqTop s.pq with
  | none => exact absurd ((pqTop_eq_none_iff s.pq).1 ht) h
  | some top =>
    rw [dijkstraLoop]
    simp only [dijkstraStep, ht]
    split_ifs
    · cases s.graph.findVertex top.1 with
      | none => rfl
      | some p =>
        simp only
        cases s.graph.deref p with
        | fail f => rfl
        | ok pv => simp only [Run.ok_bind]
    · rfl

theorem dijkstraLoop_zero (s : DijkstraState) (h : s.pq ≠ []) :
    dijkstraLoop 0 s = .fail .outOfFuel := by
  cases ht : pqTop s.pq with
  | none => exact absurd ((pqTop_eq_none_iff s.pq).1 ht) h
  | some top => rw [dijkstraLoop, ht]

/-- The whole function is the start, the loop and the final erasure. -/
theorem dijkstra_eq (fuel : Nat) (g : Graph) (start : String) (w : List (String × Int))
    (p : List (String × String)) :
    dijkstraCostToAllVertices fuel g start w p =
      (dijkstraStart g start w p).bind fun s =>
        (dijkstraLoop fuel s).bind (dijkstraFinish start) := by
  unfold dijkstraCostToAllVertices dijkstraStart
  simp only
  cases g.unvisitAllVertices.findVertex start with
  | none => rfl
  | some sp =>
    simp only
    cases g.unvisitAllVertices.deref sp with
    | fail f => rfl
    | ok sv =>
      simp only [Run.ok_bind]
      cases forLoop (dijkstraInitBody start sp) sv.getNumberOfNeighbors
        ⟨g.unvisitAllVertices, mapClear w, mapClear p, [], []⟩ <;> rfl

end Graph
/-! ### The shortest-path run changes flags and iterators only -/

namespace Graph

theorem dijkstraInitBody_flags {l sp : String} {s s' : DijkstraState}
    (h : dijkstraInitBody l sp s = .ok s') :
    s'.graph.unvisitAllVertices = s.graph.unvisitAllVertices := by
  unfold dijkstraInitBody at h
  cases hn : s.graph.getNextNeighborAt sp with
  | fail f => rw [hn] at h; cases h
  | ok r1 =>
    rw [hn, Run.ok_bind] at h
    have h1 := unvisitAll_next hn
    simp only at h
    cases hd : r1.2.deref sp with
    | fail f => rw [hd] at h; cases h
    | ok sv =>
      rw [hd, Run.ok_bind] at h
      cases hw : sv.getEdgeWeight r1.1 with
      | fail f => rw [hw] at h; cases h
      | ok w =>
        rw [hw, Run.ok_bind] at h
        cases h
        exact h1

theorem dijkstraBody_flags {v p : String} {s s' : DijkstraState}
    (h : dijkstraBody v p s = .ok s') :
    s'.graph.unvisitAllVertices = s.graph.unvisitAllVertices ∧ s'.vertexSet = s.vertexSet := by
  unfold dijkstraBody at h
  cases hn : s.graph.getNextNeighborAt p with
  | fail f => rw [hn] at h; cases h
  | ok r1 =>
    rw [hn, Run.ok_bind] at h
    have h1 := unvisitAll_next hn
    simp only at h
    cases hd : r1.2.deref p with
    | fail f => rw [hd] at h; cases h
    | ok pv =>
      rw [hd, Run.ok_bind] at h
      cases hw : pv.getEdgeWeight r1.1 with
      | fail f => rw [hw] at h; cases h
      | ok c =>
        rw [hw, Run.ok_bind] at h
        split_ifs at h
        · cases h
          exact ⟨h1, rfl⟩
        · cases hu : mapAt s.weight r1.1 with
          | fail f => rw [hu] at h; cases h
          | ok wu =>
            rw [hu, Run.ok_bind] at h
            cases hv : mapAt s.weight v with
            | fail f => rw [hv] at h; cases h
            | ok wv =>
              rw [hv, Run.ok_bind] at h
              split_ifs at h
              · cases h
                exact ⟨h1, rfl⟩
              · cases h
                exact ⟨h1, rfl⟩

/-- A step of the loop changes neither the shape of the graph nor `vertexSet`. -/
theorem dijkstraStep_flags {s s' : DijkstraState} (h : dijkstraStep s = .ok s') :
    s'.graph.unvisitAllVertices = s.graph.unvisitAllVertices ∧ s'.vertexSet = s.vertexSet := by
  unfold dijkstraStep at h
  cases ht : pqTop s.pq with
  | none =>
    rw [ht] at h
    cases h
    exact ⟨rfl, rfl⟩
  | some top =>
    rw [ht] at h
    simp only at h
    split_ifs at h
    · cases hf : s.graph.findVertex top.1 with
      | none => rw [hf] at h; cases h
      | some p =>
        rw [hf] at h
        simp only at h
        cases hd : s.graph.deref p with
        | fail f => rw [hd] at h; cases h
        | ok pv =>
          rw [hd, Run.ok_bind] at h
          have := @forLoop_ok_rel DijkstraState (dijkstraBody top.1 p)
            (fun (a b : DijkstraState) =>
              b.graph.unvisitAllVertices = a.graph.unvisitAllVertices ∧
                b.vertexSet = a.vertexSet)
            (fun _ => ⟨rfl, rfl⟩)
            (fun _ _ _ h1 h2 => ⟨h2.1.trans h1.1, h2.2.trans h1.2⟩)
            (fun _ _ => dijkstraBody_flags) _ _ _ h
          exact this
    · cases h
      exact ⟨rfl, rfl⟩

theorem dijkstraLoop_flags : ∀ (fuel : Nat) (s s' : DijkstraState),
    dijkstraLoop fuel s = .ok s' →
    s'.graph.unvisitAllVertices = s.graph.unvisitAllVertices ∧ s'.vertexSet = s.vertexSet := by
  intro fuel
  induction fuel with
  | zero =>
    intro s s' h
    by_cases he : s.pq = []
    · rw [dijkstraLoop_of_empty 0 s he] at h
      cases h
      exact ⟨rfl, rfl⟩
    · rw [dijkstraLoop_zero s he] at h
      cases h
  | succ fuel ih =>
    intro s s' h
    by_cases he : s.pq = []
    · rw [dijkstraLoop_of_empty _ s he] at h
      cases h
      exact ⟨rfl, rfl⟩
    · rw [dijkstraLoop_succ fuel s he] at h
      cases hs : dijkstraStep s with
      | fail f => rw [hs] at h; cases h
      | ok s1 =>
        rw [hs, Run.ok_bind] at h
        have h1 := dijkstraStep_flags hs
        have h2 := ih s1 s' h
        exact ⟨h2.1.trans h1.1, h2.2.trans h1.2⟩

theorem dijkstraStart_flags {g : Graph} {l : String} {w : List (String × Int)}
    {p : List (String × String)} {s : DijkstraState} (h : dijkstraStart g l w p = .ok s) :
    s.graph.unvisitAllVertices = g.unvisitAllVertices := by
  unfold dijkstraStart at h
  simp only at h
  cases hf : g.unvisitAllVertices.findVertex l with
  | none => rw [hf] at h; cases h
  | some sp =>
    rw [hf] at h
    simp only at h
    cases hd : g.unvisitAllVertices.deref sp with
    | fail f => rw [hd] at h; cases h
    | ok sv =>
      rw [hd, Run.ok_bind] at h
      cases hl : forLoop (dijkstraInitBody l sp) sv.getNumberOfNeighbors
          ⟨g.unvisitAllVertices, mapClear w, mapClear p, [], []⟩ with
      | fail f => rw [hl] at h; cases h
      | ok s1 =>
        rw [hl, Run.ok_bind] at h
        cases h
        have h1 := @forLoop_ok_rel DijkstraState (dijkstraInitBody l sp)
          (fun (a b : DijkstraState) =>
            b.graph.unvisitAllVertices = a.graph.unvisitAllVertices)
          (fun _ => rfl) (fun _ _ _ h1 h2 => h2.trans h1)
          (fun _ _ => dijkstraInitBody_flags) _ _ _ hl
        simp only at h1 ⊢
        rw [h1, unvisitAll_idem]

theorem dijkstra_flags {fuel : Nat} {g g' : Graph} {l : String} {w w' : List (String × Int)}
    {p p' : List (String × String)}
    (h : dijkstraCostToAllVertices fuel g l w p = .ok (g', w', p')) :
    g'.unvisitAllVertices = g.unvisitAllVertices := by
  rw [dijkstra_eq] at h
  cases hs : dijkstraStart g l w p with
  | fail f => rw [hs] at h; cases h
  | ok s =>
    rw [hs, Run.ok_bind] at h
    cases hl : dijkstraLoop fuel s with
    | fail f => rw [hl] at h; cases h
    | ok s2 =>
      rw [hl, Run.ok_bind] at h
      simp only [dijkstraFinish, Run.ok.injEq, Prod.mk.injEq] at h
      rw [← h.1, (dijkstraLoop_flags _ _ _ hl).1, dijkstraStart_flags hs]

theorem dfs_of_unvisitAll_eq {g g1 : Graph} (h : g1.unvisitAllVertices = g.unvisitAllVertices)
    (s : String) : g1.depthFirstTraversal s = g.depthFirstTraversal s := by
  unfold depthFirstTraversal
  simp only [h]

theorem bfs_of_unvisitAll_eq {g g1 : Graph} (h : g1.unvisitAllVertices = g.unvisitAllVertices)
    (s : String) : g1.breadthFirstTraversal s = g.breadthFirstTraversal s := by
  unfold breadthFirstTraversal
  simp only [h]

end Graph

/-! ### The cost map under assignment -/

namespace Graph

theorem mem_mapAssign {α : Type} {m : List (String × α)} {key : String} {val : α}
    {e : String × α} (h : e ∈ mapAssign m key val) : e = (key, val) ∨ e ∈ m := by
  induction m with
  | nil => simpa [mapAssign] using h
  | cons x m ih =>
    obtain ⟨k, v⟩ := x
    unfold mapAssign at h
    split_ifs at h with h1 h2
    · rcases List.mem_cons.1 h with h3 | h3
      · exact Or.inl (h1 ▸ h3)
      · exact Or.inr (List.mem_cons_of_mem _ h3)
    · rcases List.mem_cons.1 h with h3 | h3
      · exact Or.inl h3
      · exact Or.inr h3
    · rcases List.mem_cons.1 h with h3 | h3
      · exact Or.inr (h3 ▸ List.mem_cons_self _ _)
      · rcases ih h3 with h4 | h4
        · exact Or.inl h4
        · exact Or.inr (List.mem_cons_of_mem _ h4)

theorem mem_mapKeys_mapAssign {α : Type} (m : List (String × α)) (key : String) (val : α)
    (x : String) : x ∈ mapKeys (mapAssign m key val) ↔ x = key ∨ x ∈ mapKeys m := by
  induction m with
  | nil => simp [mapAssign, mapKeys]
  | cons e m ih =>
    obtain ⟨k, v⟩ := e
    unfold mapAssign
    split_ifs with h1 h2
    · subst h1
      simp only [mapKeys, List.map_cons, List.mem_cons]
      tauto
    · simp [mapKeys]
    · simp only [mapKeys, List.map_cons, List.mem_cons] at ih ⊢
      rw [ih]
      tauto

theorem wsum_cons (e : String × Int) (m : List (String × Int)) :
    wsum (e :: m) = e.2.toNat + wsum m := by
  simp [wsum]

theorem wsum_mapInsert_zero (m : List (String × Int)) (key : String) :
    wsum (mapInsert m key 0) = wsum m := by
  induction m with
  | nil => simp [mapInsert, wsum]
  | cons e m ih =>
    obtain ⟨k, v⟩ := e
    unfold mapInsert
    split_ifs
    · rfl
    · simp [wsum_cons]
    · simp only [wsum_cons, ih]

theorem sorted_mapAssign {α : Type} {m : List (String × α)} (key : String) (val : α)
    (hs : (mapKeys m).Pairwise (· < ·)) : (mapKeys (mapAssign m key val)).Pairwise (· < ·) := by
  induction m with
  | nil => simp [mapAssign, mapKeys]
  | cons e m ih =>
    obtain ⟨k, v⟩ := e
    have hs' := hs
    simp only [mapKeys, List.map_cons, List.pairwise_cons] at hs'
    unfold mapAssign
    split_ifs with h1 h2
    · exact hs
    · rw [strLt_iff] at h2
      simp only [mapKeys, List.map_cons, List.pairwise_cons]
      refine ⟨?_, hs'⟩
      intro x hx
      rcases List.mem_cons.1 hx with rfl | hx
      · exact h2
      · exact lt_trans h2 (hs'.1 x hx)
    · have hlt : k < key := by
        rw [strLt_iff] at h2
        exact lt_of_le_of_ne (not_lt.1 h2) (Ne.symm h1)
      simp only [mapKeys, List.map_cons, List.pairwise_cons]
      refine ⟨?_, ih hs'.2⟩
      intro x hx
      rcases (mem_mapKeys_mapAssign m key val x).1 hx with rfl | hx
      · exact hlt
      · exact hs'.1 x hx

theorem wsum_mapAssign_old {m : List (String × Int)} {key : String} {y : Int} (x : Int)
    (hs : (mapKeys m).Pairwise (· < ·)) (h : mapFind m key = some y) :
    wsum (mapAssign m key x) + y.toNat = wsum m + x.toNat := by
  induction m with
  | nil => simp [mapFind] at h
  | cons e m ih =>
    obtain ⟨k, v⟩ := e
    simp only [mapKeys, List.map_cons, List.pairwise_cons] at hs
    unfold mapAssign
    by_cases hk : key = k
    · simp only [mapFind, hk, if_true, Option.some.injEq] at h
      rw [if_pos hk]
      simp only [wsum_cons, h]
      omega
    · simp only [mapFind, hk, if_false] at h
      have hkey : key ∈ mapKeys m := (mapFind_isSome_iff m key).1 ⟨y, h⟩
      have hlt : ¬ strLt key k = true := by
        rw [strLt_iff]
        exact not_lt.2 (le_of_lt (hs.1 key hkey))
      rw [if_neg hk, if_neg hlt]
      simp only [wsum_cons]
      have := ih hs.2 h
      omega

/-- `m[key]` read as a value: the map afterwards has the old entries and at most
a new entry `(key, 0)`. -/
theorem mapIndex_spec (m : List (String × Int)) (key : String) :
    wsum (mapIndex m key).1 = wsum m ∧
      (∀ x, x ∈ mapKeys (mapIndex m key).1 ↔ x = key ∨ x ∈ mapKeys m) ∧
      (∀ e ∈ (mapIndex m key).1, e = (key, 0) ∨ e ∈ m) ∧
      ((mapKeys m).Pairwise (· < ·) → (mapKeys (mapIndex m key).1).Pairwise (· < ·)) ∧
      ((∀ e ∈ m, 0 ≤ e.2) → 0 ≤ (mapIndex m key).2) := by
  unfold mapIndex
  cases hf : mapFind m key with
  | some v =>
    have hmem : key ∈ mapKeys m := (mapFind_isSome_iff m key).1 ⟨v, hf⟩
    refine ⟨rfl, fun x => ?_, fun e he => Or.inr he, fun h => h, fun h => ?_⟩
    · constructor
      · exact Or.inr
      · rintro (h | h)
        · exact h ▸ hmem
        · exact h
    · exact h (key, v) (mapFind_some_mem hf)
  | none =>
    refine ⟨wsum_mapInsert_zero m key, fun x => mem_mapKeys_mapInsert _ _ _ _,
      fun e he => mem_mapInsert he, fun h => sorted_mapInsert _ _ h, fun _ => le_refl _⟩

theorem mapIndex_of_find {m : List (String × Int)} {key : String} {v : Int}
    (h : mapFind m key = some v) : mapIndex m key = (m, v) := by
  unfold mapIndex
  rw [h]

theorem missing_le_of_keys (T : List String) {m m' : List (String × Int)}
    (h : ∀ x, x ∈ mapKeys m → x ∈ mapKeys m') : missing T m' ≤ missing T m := by
  unfold missing
  apply List.countP_mono_left
  intro x _ hx
  simp only [decide_eq_true_eq] at hx ⊢
  exact fun hc => hx (h x hc)

theorem missing_lt_of_new (T : List String) {m m' : List (String × Int)}
    (h : ∀ x, x ∈ mapKeys m → x ∈ mapKeys m') {u : String} (huT : u ∈ T)
    (hu : u ∉ mapKeys m) (hu' : u ∈ mapKeys m') : missing T m' < missing T m := by
  unfold missing
  apply countP_lt_of_imp (a := u) _ (List.mem_dedup.2 huT)
  · simpa using hu
  · simpa using hu'
  · intro x _ hx
    simp only [decide_eq_true_eq] at hx ⊢
    exact fun hc => hx (h x hc)

theorem missing_eq_of_keys (T : List String) {m m' : List (String × Int)}
    (h : ∀ x, x ∈ mapKeys m' ↔ x ∈ mapKeys m) : missing T m' = missing T m :=
  le_antisymm (missing_le_of_keys T (fun x hx => (h x).2 hx))
    (missing_le_of_keys T (fun x hx => (h x).1 hx))

end Graph

/-! ### Every step of the shortest-path loop makes progress

This section and the two after it are about the run with the queue of `pqTop`
and addition without overflow. -/

namespace Graph

theorem targets_unvisitAll (g : Graph) : targets g.unvisitAllVertices = targets g := by
  unfold targets unvisitAllVertices
  simp only
  generalize g.vertices = m
  induction m with
  | nil => rfl
  | cons e m ih =>
    simp only [List.map_cons, List.flatMap_cons, ih]
    rfl

theorem edgesNonneg_unvisitAll (g : Graph) : EdgesNonneg g.unvisitAllVertices ↔ EdgesNonneg g := by
  unfold EdgesNonneg unvisitAllVertices
  simp only [List.mem_map]
  constructor
  · intro h e he a ha
    exact h _ ⟨e, he, rfl⟩ a ha
  · rintro h _ ⟨e, he, rfl⟩ a ha
    exact h e he a ha

theorem targets_of_flags {g g' : Graph} (h : g'.unvisitAllVertices = g.unvisitAllVertices) :
    targets g' = targets g := by
  rw [← targets_unvisitAll g', h, targets_unvisitAll]

theorem edgesNonneg_of_flags {g g' : Graph} (h : g'.unvisitAllVertices = g.unvisitAllVertices)
    (hg : EdgesNonneg g) : EdgesNonneg g' := by
  rw [← edgesNonneg_unvisitAll, h, edgesNonneg_unvisitAll]
  exact hg

/-- A weight that `getEdgeWeight` hands back for a vertex of the graph is not
negative, and the label asked for is a target label. -/
theorem edge_lookup {g : Graph} (hg : EdgesNonneg g) {p u : String} {pv : Vertex} {c : Int}
    (hd : g.deref p = .ok pv) (hw : pv.getEdgeWeight u = .ok c) :
    0 ≤ c ∧ u ∈ targets g := by
  unfold deref at hd
  cases hf : mapFind g.vertices p with
  | none => rw [hf] at hd; cases hd
  | some v =>
    rw [hf] at hd
    cases hd
    have hmem := mapFind_some_mem hf
    unfold Vertex.getEdgeWeight at hw
    cases hfe : mapFind pv.adjacencyList u with
    | none => rw [hfe] at hw; cases hw
    | some e =>
      rw [hfe] at hw
      cases hw
      have hme := mapFind_some_mem hfe
      refine ⟨hg _ hmem _ hme, ?_⟩
      unfold targets
      rw [List.mem_flatMap]
      exact ⟨_, hmem, List.mem_map_of_mem Prod.fst hme⟩

theorem relax_inv {T : List String} {s : DijkstraState} (h : DInv T s) (u v : String) {c : Int}
    (hc : 0 ≤ c) :
    DInv T (dijkstraRelax s u v c) ∧
      (∀ x, x ∈ mapKeys s.weight → x ∈ mapKeys (dijkstraRelax s u v c).weight) ∧
      u ∈ mapKeys (dijkstraRelax s u v c).weight := by
  obtain ⟨_, hk1, hm1, hs1, hv1⟩ := mapIndex_spec s.weight v
  have hx : 0 ≤ (mapIndex s.weight v).2 + c := add_nonneg (hv1 h.nonneg) hc
  obtain ⟨_, hk3, hm3, hs3, _⟩ :=
    mapIndex_spec (mapAssign (mapIndex s.weight v).1 u ((mapIndex s.weight v).2 + c)) u
  refine ⟨⟨h.edges, h.tgts, ?_, ?_⟩, ?_, ?_⟩
  · intro e he
    rcases hm3 e he with rfl | he
    · exact le_refl _
    · rcases mem_mapAssign he with rfl | he
      · exact hx
      · rcases hm1 e he with rfl | he
        · exact le_refl _
        · exact h.nonneg e he
  · exact hs3 (sorted_mapAssign _ _ (hs1 h.sorted))
  · intro x hx'
    exact (hk3 x).2 (Or.inr ((mem_mapKeys_mapAssign _ _ _ _).2 (Or.inr ((hk1 x).2 (Or.inr hx')))))
  · exact (hk3 u).2 (Or.inl rfl)

theorem relax_first {T : List String} {s : DijkstraState} (h : DInv T s) {u : String}
    (v : String) {c : Int} (hc : 0 ≤ c) (huT : u ∈ T) (hu : u ∉ mapKeys s.weight) :
    DInv T (dijkstraRelax s u v c) ∧ Progress T s (dijkstraRelax s u v c) := by
  obtain ⟨hinv, hsub, hmem⟩ := relax_inv h u v hc
  exact ⟨hinv, Or.inl (missing_lt_of_new T hsub huT hu hmem)⟩

theorem relax_better {T : List String} {s : DijkstraState} (h : DInv T s) {u v : String}
    {c wu wv : Int} (hc : 0 ≤ c) (hu : mapFind s.weight u = some wu)
    (hv : mapFind s.weight v = some wv) (hlt : wu > wv + c) :
    DInv T (dijkstraRelax s u v c) ∧ Progress T s (dijkstraRelax s u v c) := by
  obtain ⟨hinv, _, _⟩ := relax_inv h u v hc
  refine ⟨hinv, Or.inr (Or.inl ?_)⟩
  have hwv : 0 ≤ wv := h.nonneg _ (mapFind_some_mem hv)
  have hukey : u ∈ mapKeys s.weight := (mapFind_isSome_iff _ _).1 ⟨wu, hu⟩
  obtain ⟨hsum3, hk3, _, _, _⟩ := mapIndex_spec (mapAssign s.weight u (wv + c)) u
  have hw : (dijkstraRelax s u v c).weight = (mapIndex (mapAssign s.weight u (wv + c)) u).1 := by
    unfold dijkstraRelax
    simp only [mapIndex_of_find hv]
  rw [hw]
  constructor
  · apply missing_eq_of_keys
    intro x
    rw [hk3, mem_mapKeys_mapAssign]
    constructor
    · rintro (h1 | h1 | h1)
      · exact h1 ▸ hukey
      · exact h1 ▸ hukey
      · exact h1
    · exact fun h1 => Or.inr (Or.inr h1)
  · rw [hsum3]
    have := wsum_mapAssign_old (wv + c) h.sorted hu
    have h1 : (wv + c).toNat < wu.toNat := by omega
    omega

theorem progress_refl (T : List String) (s : DijkstraState) : Progress T s s :=
  Or.inr (Or.inr ⟨rfl, rfl, rfl⟩)

theorem progress_trans {T : List String} {a b c : DijkstraState} (h1 : Progress T a b)
    (h2 : Progress T b c) : Progress T a c := by
  unfold Progress at *
  rcases h1 with h1 | ⟨h1, h1'⟩ | ⟨h1, h1', h1''⟩ <;>
    rcases h2 with h2 | ⟨h2, h2'⟩ | ⟨h2, h2', h2''⟩
  · exact Or.inl (by omega)
  · exact Or.inl (by omega)
  · exact Or.inl (by omega)
  · exact Or.inl (by omega)
  · exact Or.inr (Or.inl ⟨by omega, by omega⟩)
  · exact Or.inr (Or.inl ⟨by omega, by omega⟩)
  · exact Or.inl (by omega)
  · exact Or.inr (Or.inl ⟨by omega, by omega⟩)
  · exact Or.inr (Or.inr ⟨by omega, by omega, h2''.trans h1''⟩)

/-- The body of the inner loop keeps the invariant and makes progress. -/
theorem dijkstraBody_progress {T : List String} {v p : String} {s s' : DijkstraState}
    (hinv : DInv T s) (h : dijkstraBody v p s = .ok s') : DInv T s' ∧ Progress T s s' := by
  unfold dijkstraBody at h
  cases hn : s.graph.getNextNeighborAt p with
  | fail f => rw [hn] at h; cases h
  | ok r1 =>
    rw [hn, Run.ok_bind] at h
    have hfl := unvisitAll_next hn
    simp only at h
    cases hd : r1.2.deref p with
    | fail f => rw [hd] at h; cases h
    | ok pv =>
      rw [hd, Run.ok_bind] at h
      cases hw : pv.getEdgeWeight r1.1 with
      | fail f => rw [hw] at h; cases h
      | ok c =>
        rw [hw, Run.ok_bind] at h
        have hedges : EdgesNonneg r1.2 := edgesNonneg_of_flags hfl hinv.edges
        have htg : targets r1.2 = T := (targets_of_flags hfl).trans hinv.tgts
        obtain ⟨hc, huT⟩ := edge_lookup hedges hd hw
        rw [htg] at huT
        have hinv1 : DInv T { s with graph := r1.2 } :=
          ⟨hedges, htg, hinv.nonneg, hinv.sorted⟩
        have hsame : Progress T s { s with graph := r1.2 } := Or.inr (Or.inr ⟨rfl, rfl, rfl⟩)
        by_cases hcount : mapCount s.weight r1.1 = 0
        · rw [if_pos hcount] at h
          cases h
          have hu : r1.1 ∉ mapKeys s.weight := (mapCount_eq_zero_iff _ _).1 hcount
          obtain ⟨h1, h2⟩ := relax_first hinv1 v hc huT hu
          exact ⟨h1, progress_trans hsame h2⟩
        · rw [if_neg hcount] at h
          cases hu : mapAt s.weight r1.1 with
          | fail f => rw [hu] at h; cases h
          | ok wu =>
            rw [hu, Run.ok_bind] at h
            cases hv : mapAt s.weight v with
            | fail f => rw [hv] at h; cases h
            | ok wv =>
              rw [hv, Run.ok_bind] at h
              have hfu : mapFind s.weight r1.1 = some wu := by
                unfold mapAt at hu
                cases hf : mapFind s.weight r1.1 with
                | none => rw [hf] at hu; cases hu
                | some x => rw [hf] at hu; cases hu; rfl
              have hfv : mapFind s.weight v = some wv := by
                unfold mapAt at hv
                cases hf : mapFind s.weight v with
                | none => rw [hf] at hv; cases hv
                | some x => rw [hf] at hv; cases hv; rfl
              by_cases hgt : wu > wv + c
              · rw [if_pos hgt] at h
                cases h
                obtain ⟨h1, h2⟩ := relax_better hinv1 hc hfu hfv hgt
                exact ⟨h1, progress_trans hsame h2⟩
              · rw [if_neg hgt] at h
                cases h
                exact ⟨hinv1, hsame⟩

end Graph

/-! ### The shortest-path loop ends -/

namespace Graph

theorem pqTopIndex_lt : ∀ (pq : List PAIR) (i : Nat), pqTopIndex pq = some i → i < pq.length := by
  intro pq
  induction pq with
  | nil => intro i h; simp [pqTopIndex] at h
  | cons x rest ih =>
    intro i h
    unfold pqTopIndex at h
    cases hr : pqTopIndex rest with
    | none =>
      rw [hr] at h
      simp only [Option.some.injEq] at h
      simp [← h]
    | some j =>
      rw [hr] at h
      simp only at h
      have hj := ih j hr
      cases hg : rest.get? j with
      | none =>
        rw [hg] at h
        simp only [Option.some.injEq] at h
        simp [← h]
      | some y =>
        rw [hg] at h
        simp only at h
        split_ifs at h
        · simp only [Option.some.injEq] at h
          simp only [List.length_cons, ← h]
          omega
        · simp only [Option.some.injEq] at h
          simp [← h]

theorem length_pqPop {pq : List PAIR} (h : pq ≠ []) : (pqPop pq).length + 1 = pq.length := by
  unfold pqPop
  cases hi : pqTopIndex pq with
  | none =>
    exfalso
    apply h
    rw [← pqTop_eq_none_iff]
    simp [pqTop, hi]
  | some i =>
    have hlt := pqTopIndex_lt pq i hi
    simp only [List.length_eraseIdx, hlt, if_true]
    omega

theorem forLoop_fail_kind {σ : Type} {body : σ → Run σ} (P : Fault → Prop)
    (hbody : ∀ s f, body s = .fail f → P f) :
    ∀ (n : Nat) (s : σ) (f : Fault), forLoop body n s = .fail f → P f := by
  intro n
  induction n with
  | zero => intro s f h; simp [forLoop] at h
  | succ n ih =>
    intro s f h
    simp only [forLoop] at h
    cases hb : body s with
    | fail f' =>
      rw [hb, Run.fail_bind] at h
      cases h
      exact hbody s f hb
    | ok s1 =>
      rw [hb, Run.ok_bind] at h
      exact ih s1 f h

theorem deref_fail_kind {g : Graph} {p : String} {f : Fault} (h : g.deref p = .fail f) :
    f ≠ Fault.outOfFuel := by
  unfold deref at h
  cases hf : mapFind g.vertices p with
  | none => rw [hf] at h; cases h; decide
  | some v => rw [hf] at h; cases h

theorem next_fail_kind {g : Graph} {p : String} {f : Fault}
    (h : g.getNextNeighborAt p = .fail f) : f ≠ Fault.outOfFuel := by
  unfold getNextNeighborAt at h
  cases hd : g.deref p with
  | fail f' =>
    rw [hd, Run.fail_bind] at h
    cases h
    exact deref_fail_kind hd
  | ok v => rw [hd, Run.ok_bind] at h; cases h

theorem getEdgeWeight_fail_kind {v : Vertex} {u : String} {f : Fault}
    (h : v.getEdgeWeight u = .fail f) : f ≠ Fault.outOfFuel := by
  unfold Vertex.getEdgeWeight at h
  cases hf : mapFind v.adjacencyList u with
  | none => rw [hf] at h; cases h; decide
  | some e => rw [hf] at h; cases h

theorem mapAt_fail_kind {m : List (String × Int)} {u : String} {f : Fault}
    (h : mapAt m u = .fail f) : f ≠ Fault.outOfFuel := by
  unfold mapAt at h
  cases hf : mapFind m u with
  | none => rw [hf] at h; cases h; decide
  | some e => rw [hf] at h; cases h

theorem dijkstraBody_fail_kind {v p : String} {s : DijkstraState} {f : Fault}
    (h : dijkstraBody v p s = .fail f) : f ≠ Fault.outOfFuel := by
  unfold dijkstraBody at h
  cases hn : s.graph.getNextNeighborAt p with
  | fail f' => rw [hn, Run.fail_bind] at h; cases h; exact next_fail_kind hn
  | ok r1 =>
    rw [hn, Run.ok_bind] at h
    simp only at h
    cases hd : r1.2.deref p with
    | fail f' => rw [hd, Run.fail_bind] at h; cases h; exact deref_fail_kind hd
    | ok pv =>
      rw [hd, Run.ok_bind] at h
      cases hw : pv.getEdgeWeight r1.1 with
      | fail f' => rw [hw, Run.fail_bind] at h; cases h; exact getEdgeWeight_fail_kind hw
      | ok c =>
        rw [hw, Run.ok_bind] at h
        split_ifs at h
        cases hu : mapAt s.weight r1.1 with
        | fail f' => rw [hu, Run.fail_bind] at h; cases h; exact mapAt_fail_kind hu
        | ok wu =>
          rw [hu, Run.ok_bind] at h
          cases hv : mapAt s.weight v with
          | fail f' => rw [hv, Run.fail_bind] at h; cases h; exact mapAt_fail_kind hv
          | ok wv =>
            rw [hv, Run.ok_bind] at h
            split_ifs at h

theorem dijkstraInitBody_fail_kind {l sp : String} {s : DijkstraState} {f : Fault}
    (h : dijkstraInitBody l sp s = .fail f) : f ≠ Fault.outOfFuel := by
  unfold dijkstraInitBody at h
  cases hn : s.graph.getNextNeighborAt sp with
  | fail f' => rw [hn, Run.fail_bind] at h; cases h; exact next_fail_kind hn
  | ok r1 =>
    rw [hn, Run.ok_bind] at h
    simp only at h
    cases hd : r1.2.deref sp with
    | fail f' => rw [hd, Run.fail_bind] at h; cases h; exact deref_fail_kind hd
    | ok pv =>
      rw [hd, Run.ok_bind] at h
      cases hw : pv.getEdgeWeight r1.1 with
      | fail f' => rw [hw, Run.fail_bind] at h; cases h; exact getEdgeWeight_fail_kind hw
      | ok c => rw [hw, Run.ok_bind] at h; cases h

theorem dijkstraStep_fail_kind {s : DijkstraState} {f : Fault}
    (h : dijkstraStep s = .fail f) : f ≠ Fault.outOfFuel := by
  unfold dijkstraStep at h
  cases ht : pqTop s.pq with
  | none => rw [ht] at h; cases h
  | some top =>
    rw [ht] at h
    simp only at h
    split_ifs at h
    cases hf : s.graph.findVertex top.1 with
    | none => rw [hf] at h; cases h; decide
    | some p =>
      rw [hf] at h
      simp only at h
      cases hd : s.graph.deref p with
      | fail f' => rw [hd, Run.fail_bind] at h; cases h; exact deref_fail_kind hd
      | ok pv =>
        rw [hd, Run.ok_bind] at h
        exact @forLoop_fail_kind DijkstraState (dijkstraBody top.1 p) (fun f => f ≠ Fault.outOfFuel)
          (fun _ _ => dijkstraBody_fail_kind) _ _ _ h

/-- A step on a non-empty queue keeps the invariant and lowers the triple
(labels without a cost, sum of the costs, queue length) in lexicographic order. -/
theorem dijkstraStep_progress {T : List String} {s s' : DijkstraState} (hinv : DInv T s)
    (hne : s.pq ≠ []) (h : dijkstraStep s = .ok s') :
    DInv T s' ∧
      (missing T s'.weight < missing T s.weight ∨
        (missing T s'.weight = missing T s.weight ∧ wsum s'.weight < wsum s.weight) ∨
        (missing T s'.weight = missing T s.weight ∧ wsum s'.weight = wsum s.weight ∧
          s'.pq.length < s.pq.length)) := by
  have hpop := length_pqPop hne
  have hinv1 : DInv T { s with pq := pqPop s.pq } :=
    ⟨hinv.edges, hinv.tgts, hinv.nonneg, hinv.sorted⟩
  unfold dijkstraStep at h
  cases ht : pqTop s.pq with
  | none => exact absurd ((pqTop_eq_none_iff s.pq).1 ht) hne
  | some top =>
    rw [ht] at h
    simp only at h
    split_ifs at h
    · cases hf : s.graph.findVertex top.1 with
      | none => rw [hf] at h; cases h
      | some p =>
        rw [hf] at h
        simp only at h
        cases hd : s.graph.deref p with
        | fail f => rw [hd] at h; cases h
        | ok pv =>
          rw [hd, Run.ok_bind] at h
          have hloop := @forLoop_ok_rel DijkstraState (dijkstraBody top.1 p)
            (fun a b => DInv T a → DInv T b ∧ Progress T a b)
            (fun a ha => ⟨ha, progress_refl T a⟩)
            (fun a b c h1 h2 ha =>
              ⟨(h2 (h1 ha).1).1, progress_trans (h1 ha).2 (h2 (h1 ha).1).2⟩)
            (fun a b hab ha => dijkstraBody_progress ha hab) _ _ _ h hinv1
          refine ⟨hloop.1, ?_⟩
          rcases hloop.2 with h1 | ⟨h1, h2⟩ | ⟨h1, h2, h3⟩
          · exact Or.inl h1
          · exact Or.inr (Or.inl ⟨h1, h2⟩)
          · refine Or.inr (Or.inr ⟨h1, h2, ?_⟩)
            rw [h3]
            simp only
            omega
    · cases h
      refine ⟨hinv1, Or.inr (Or.inr ⟨rfl, rfl, ?_⟩)⟩
      simp only
      omega

/-- From every state that satisfies the invariant the loop ends: some fault other
than running out of iterations, or a result, is reached with every large
enough number of iterations allowed. -/
theorem dijkstraLoop_ends (T : List String) :
    ∀ (a b c : Nat) (s : DijkstraState), DInv T s → missing T s.weight = a →
      wsum s.weight = b → s.pq.length = c →
      ∃ (N : Nat) (r : Run DijkstraState), r ≠ .fail .outOfFuel ∧
        ∀ fuel, N ≤ fuel → dijkstraLoop fuel s = r := by
  intro a
  induction a using Nat.strong_induction_on with
  | _ a iha =>
    intro b
    induction b using Nat.strong_induction_on with
    | _ b ihb =>
      intro c
      induction c using Nat.strong_induction_on with
      | _ c ihc =>
        intro s hinv ha hb hc
        by_cases hne : s.pq = []
        · exact ⟨0, .ok s, by simp, fun fuel _ => dijkstraLoop_of_empty fuel s hne⟩
        · cases hstep : dijkstraStep s with
          | fail f =>
            refine ⟨1, .fail f, ?_, ?_⟩
            · intro hc'
              cases hc'
              exact dijkstraStep_fail_kind hstep rfl
            · intro fuel hfuel
              obtain ⟨k, rfl⟩ : ∃ k, fuel = k + 1 := ⟨fuel - 1, by omega⟩
              rw [dijkstraLoop_succ k s hne, hstep, Run.fail_bind]
          | ok s' =>
            obtain ⟨hinv', hprog⟩ := dijkstraStep_progress hinv hne hstep
            have key : ∃ (N : Nat) (r : Run DijkstraState), r ≠ .fail .outOfFuel ∧
                ∀ fuel, N ≤ fuel → dijkstraLoop fuel s' = r := by
              rcases hprog with h1 | ⟨h1, h2⟩ | ⟨h1, h2, h3⟩
              · exact iha _ (by omega) _ _ s' hinv' rfl rfl rfl
              · exact ihb _ (by omega) _ s' hinv' (by omega) rfl rfl
              · exact ihc _ (by omega) s' hinv' (by omega) (by omega) rfl
            obtain ⟨N, r, hr, hall⟩ := key
            refine ⟨N + 1, r, hr, ?_⟩
            intro fuel hfuel
            obtain ⟨k, rfl⟩ : ∃ k, fuel = k + 1 := ⟨fuel - 1, by omega⟩
            rw [dijkstraLoop_succ k s hne, hstep, Run.ok_bind]
            exact hall k (by omega)

end Graph

/-! ### The state with which the shortest-path loop is entered -/

namespace Graph

theorem edgesNonneg_findOrCreateVertex {g : Graph} (h : EdgesNonneg g) (l : String) :
    EdgesNonneg (g.findOrCreateVertex l).1 := by
  unfold findOrCreateVertex
  cases g.findVertex l with
  | some p => exact h
  | none =>
    intro e he a ha
    rcases mem_mapInsert he with rfl | he
    · simp [Vertex.new] at ha
    · exact h e he a ha

theorem edgesNonneg_add {g : Graph} (h : EdgesNonneg g) (s t : String) {w : Int} (hw : 0 ≤ w) :
    EdgesNonneg (g.add s t w).1 := by
  have h2 : EdgesNonneg ((g.findOrCreateVertex s).1.findOrCreateVertex t).1 :=
    edgesNonneg_findOrCreateVertex (edgesNonneg_findOrCreateVertex h s) t
  unfold add
  simp only
  cases (g.findOrCreateVertex s).2 with
  | stray v => exact h2
  | owned p =>
    intro e he a ha
    rcases mem_updateEntries he with he | ⟨v, hv, rfl⟩
    · exact h2 e he a ha
    · simp only at ha
      unfold Vertex.connect at ha
      split_ifs at ha
      · exact h2 _ hv a ha
      · simp only [Vertex.resetNeighbor] at ha
        rcases mem_mapInsert ha with rfl | ha
        · exact hw
        · exact h2 _ hv a ha

theorem edgesNonneg_build (calls : List (String × String × Int))
    (hw : ∀ c ∈ calls, 0 ≤ c.2.2) : EdgesNonneg (build calls) := by
  unfold build
  suffices H : ∀ (g : Graph), EdgesNonneg g →
      EdgesNonneg (calls.foldl (fun g c => (g.add c.1 c.2.1 c.2.2).1) g) from
    H _ (by intro e he; simp [Graph.empty] at he)
  induction calls with
  | nil => exact fun g hg => hg
  | cons c cs ih =>
    intro g hg
    exact ih (fun c' hc' => hw c' (List.mem_cons_of_mem _ hc')) _
      (edgesNonneg_add hg c.1 c.2.1 (hw c (List.mem_cons_self _ _)))

theorem dijkstraInitBody_inv {T : List String} {l sp : String} {s s' : DijkstraState}
    (hinv : DInv T s) (h : dijkstraInitBody l sp s = .ok s') : DInv T s' := by
  unfold dijkstraInitBody at h
  cases hn : s.graph.getNextNeighborAt sp with
  | fail f => rw [hn] at h; cases h
  | ok r1 =>
    rw [hn, Run.ok_bind] at h
    have hfl := unvisitAll_next hn
    simp only at h
    cases hd : r1.2.deref sp with
    | fail f => rw [hd] at h; cases h
    | ok sv =>
      rw [hd, Run.ok_bind] at h
      cases hw : sv.getEdgeWeight r1.1 with
      | fail f => rw [hw] at h; cases h
      | ok c =>
        rw [hw, Run.ok_bind] at h
        cases h
        have hedges : EdgesNonneg r1.2 := edgesNonneg_of_flags hfl hinv.edges
        have htg : targets r1.2 = T := (targets_of_flags hfl).trans hinv.tgts
        obtain ⟨hc, _⟩ := edge_lookup hedges hd hw
        obtain ⟨_, _, hm3, hs3, _⟩ := mapIndex_spec (mapAssign s.weight r1.1 c) r1.1
        refine ⟨hedges, htg, ?_, hs3 (sorted_mapAssign _ _ hinv.sorted)⟩
        intro e he
        rcases hm3 e he with rfl | he
        · exact le_refl _
        · rcases mem_mapAssign he with rfl | he
          · exact hc
          · exact hinv.nonneg e he

/-- The state handed to the loop satisfies the invariant. -/
theorem dijkstraStart_inv {g : Graph} (hg : EdgesNonneg g) {l : String}
    {w : List (String × Int)} {p : List (String × String)} {s : DijkstraState}
    (h : dijkstraStart g l w p = .ok s) : DInv (targets g) s := by
  unfold dijkstraStart at h
  simp only at h
  cases hf : g.unvisitAllVertices.findVertex l with
  | none => rw [hf] at h; cases h
  | some sp =>
    rw [hf] at h
    simp only at h
    cases hd : g.unvisitAllVertices.deref sp with
    | fail f => rw [hd] at h; cases h
    | ok sv =>
      rw [hd, Run.ok_bind] at h
      cases hl : forLoop (dijkstraInitBody l sp) sv.getNumberOfNeighbors
          ⟨g.unvisitAllVertices, mapClear w, mapClear p, [], []⟩ with
      | fail f => rw [hl] at h; cases h
      | ok s1 =>
        rw [hl, Run.ok_bind] at h
        cases h
        have h0 : DInv (targets g) ⟨g.unvisitAllVertices, mapClear w, mapClear p, [], []⟩ :=
          ⟨(edgesNonneg_unvisitAll g).2 hg, targets_unvisitAll g,
            by intro e he; simp [mapClear] at he, by simp [mapClear, mapKeys]⟩
        have h1 := @forLoop_ok_rel DijkstraState (dijkstraInitBody l sp)
          (fun a b => DInv (targets g) a → DInv (targets g) b)
          (fun _ ha => ha) (fun _ _ _ h1 h2 ha => h2 (h1 ha))
          (fun _ _ hab ha => dijkstraInitBody_inv ha hab) _ _ _ hl h0
        exact ⟨h1.edges, h1.tgts, h1.nonneg, h1.sorted⟩

theorem dijkstraStart_fail_kind {g : Graph} {l : String} {w : List (String × Int)}
    {p : List (String × String)} {f : Fault} (h : dijkstraStart g l w p = .fail f) :
    f ≠ Fault.outOfFuel := by
  unfold dijkstraStart at h
  simp only at h
  cases hf : g.unvisitAllVertices.findVertex l with
  | none => rw [hf] at h; cases h; decide
  | some sp =>
    rw [hf] at h
    simp only at h
    cases hd : g.unvisitAllVertices.deref sp with
    | fail f' => rw [hd, Run.fail_bind] at h; cases h; exact deref_fail_kind hd
    | ok sv =>
      rw [hd, Run.ok_bind] at h
      cases hl : forLoop (dijkstraInitBody l sp) sv.getNumberOfNeighbors
          ⟨g.unvisitAllVertices, mapClear w, mapClear p, [], []⟩ with
      | fail f' =>
        rw [hl, Run.fail_bind] at h
        cases h
        exact @forLoop_fail_kind DijkstraState (dijkstraInitBody l sp)
          (fun f => f ≠ Fault.outOfFuel) (fun _ _ => dijkstraInitBody_fail_kind) _ _ _ hl
      | ok s1 => rw [hl, Run.ok_bind] at h; cases h

/-- On a graph without negative edge weights the run with the queue of `pqTop`
and addition without overflow ends, for any start label and any contents of the
output maps; it may end in one of the faults. -/
theorem dijkstra_ends {g : Graph} (hg : EdgesNonneg g) (l : String) (w : List (String × Int))
    (p : List (String × String)) :
    ∃ (N : Nat) (r : Run (Graph × List (String × Int) × List (String × String))),
      r ≠ .fail .outOfFuel ∧ ∀ fuel, N ≤ fuel → dijkstraCostToAllVertices fuel g l w p = r := by
  cases hs : dijkstraStart g l w p with
  | fail f =>
    refine ⟨0, .fail f, ?_, ?_⟩
    · intro hc
      cases hc
      exact dijkstraStart_fail_kind hs rfl
    · intro fuel _
      rw [dijkstra_eq, hs, Run.fail_bind]
  | ok s =>
    obtain ⟨N, r, hr, hall⟩ :=
      dijkstraLoop_ends (targets g) _ _ _ s (dijkstraStart_inv hg hs) rfl rfl rfl
    refine ⟨N, r.bind (dijkstraFinish l), ?_, ?_⟩
    · cases r with
      | ok s2 => simp [dijkstraFinish]
      | fail f =>
        intro hc
        rw [Run.fail_bind] at hc
        cases hc
        exact hr rfl
    · intro fuel hfuel
      rw [dijkstra_eq, hs, Run.ok_bind, hall fuel hfuel]

theorem mapFind_mapAssign_self {α : Type} (m : List (String × α)) (key : String) (val : α) :
    mapFind (mapAssign m key val) key = some val := by
  induction m with
  | nil => simp [mapAssign, mapFind]
  | cons e m ih =>
    obtain ⟨k, v⟩ := e
    unfold mapAssign
    split_ifs with h1 h2
    · simp [mapFind, h1]
    · simp [mapFind]
    · simp only [mapFind, h1, if_false]
      exact ih

theorem mapFind_mapIndex_self (m : List (String × Int)) (key : String) :
    mapFind (mapIndex m key).1 key = some (mapIndex m key).2 := by
  unfold mapIndex
  cases hf : mapFind m key with
  | some v => exact hf
  | none =>
    have hnot : key ∉ mapKeys m := (mapFind_eq_none_iff m key).1 hf
    simp only [mapFind_mapInsert_of_not_mem _ hnot, if_true]

theorem relax_push (s : DijkstraState) (u v : String) (c : Int) :
    (dijkstraRelax s u v c).pq =
        s.pq ++ [(u, (mapIndex s.weight v).2 + c)] ∧
      mapFind (dijkstraRelax s u v c).weight u = some ((mapIndex s.weight v).2 + c) := by
  have h1 := mapFind_mapAssign_self (mapIndex s.weight v).1 u ((mapIndex s.weight v).2 + c)
  have h2 := mapIndex_of_find h1
  unfold dijkstraRelax
  simp only [h2, pqPush]
  exact ⟨trivial, h1⟩

/-- The inner loop body pushes at most one queue entry, and only for a label that
gets its first cost or a strictly smaller cost than it had. -/
theorem dijkstraBody_push {v p : String} {s s' : DijkstraState}
    (h : dijkstraBody v p s = .ok s') :
    s'.pq = s.pq ∨ ∃ u x, s'.pq = s.pq ++ [(u, x)] ∧ mapFind s'.weight u = some x ∧
      (mapFind s.weight u = none ∨ ∃ old, mapFind s.weight u = some old ∧ x < old) := by
  unfold dijkstraBody at h
  cases hn : s.graph.getNextNeighborAt p with
  | fail f => rw [hn] at h; cases h
  | ok r1 =>
    rw [hn, Run.ok_bind] at h
    simp only at h
    cases hd : r1.2.deref p with
    | fail f => rw [hd] at h; cases h
    | ok pv =>
      rw [hd, Run.ok_bind] at h
      cases hw : pv.getEdgeWeight r1.1 with
      | fail f => rw [hw] at h; cases h
      | ok c =>
        rw [hw, Run.ok_bind] at h
        by_cases hcount : mapCount s.weight r1.1 = 0
        · rw [if_pos hcount] at h
          cases h
          obtain ⟨h1, h2⟩ := relax_push { s with graph := r1.2 } r1.1 v c
          refine Or.inr ⟨r1.1, _, h1, h2, Or.inl ?_⟩
          exact (mapFind_eq_none_iff _ _).2 ((mapCount_eq_zero_iff _ _).1 hcount)
        · rw [if_neg hcount] at h
          cases hu : mapAt s.weight r1.1 with
          | fail f => rw [hu] at h; cases h
          | ok wu =>
            rw [hu, Run.ok_bind] at h
            cases hv : mapAt s.weight v with
            | fail f => rw [hv] at h; cases h
            | ok wv =>
              rw [hv, Run.ok_bind] at h
              have hfu : mapFind s.weight r1.1 = some wu := by
                unfold mapAt at hu
                cases hf : mapFind s.weight r1.1 with
                | none => rw [hf] at hu; cases hu
                | some x => rw [hf] at hu; cases hu; rfl
              have hfv : mapFind s.weight v = some wv := by
                unfold mapAt at hv
                cases hf : mapFind s.weight v with
                | none => rw [hf] at hv; cases hv
                | some x => rw [hf] at hv; cases hv; rfl
              by_cases hgt : wu > wv + c
              · rw [if_pos hgt] at h
                cases h
                obtain ⟨h1, h2⟩ := relax_push { s with graph := r1.2 } r1.1 v c
                have hidx : (mapIndex s.weight v).2 = wv := by rw [mapIndex_of_find hfv]
                simp only [hidx] at h1 h2
                exact Or.inr ⟨r1.1, _, h1, h2, Or.inr ⟨wu, hfu, hgt⟩⟩
              · rw [if_neg hgt] at h
                cases h
                exact Or.inl rfl

end Graph

/-! ### The runs write nothing but flags and iterators -/

namespace Graph

theorem skeleton_unvisitAll (g : Graph) : skeleton g.unvisitAllVertices = skeleton g := by
  simp [skeleton, unvisitAllVertices, Vertex.unvisit, Vertex.resetNeighbor, Function.comp_def]

theorem skeleton_of_flags {g g' : Graph} (h : g'.unvisitAllVertices = g.unvisitAllVertices) :
    skeleton g' = skeleton g := by
  rw [← skeleton_unvisitAll g', h, skeleton_unvisitAll]

theorem unvisitAll_of_skeleton_aux (g : Graph) :
    g.unvisitAllVertices =
      ⟨(skeleton g).1.map (fun e => (e.1, ⟨e.2.1, e.2.2, false, 0⟩)), (skeleton g).2.1,
        (skeleton g).2.2⟩ := by
  simp [skeleton, unvisitAllVertices, Vertex.unvisit, Vertex.resetNeighbor, Function.comp_def]

theorem unvisitAll_of_skeleton {g g' : Graph} (h : skeleton g' = skeleton g) :
    g'.unvisitAllVertices = g.unvisitAllVertices := by
  rw [unvisitAll_of_skeleton_aux g', unvisitAll_of_skeleton_aux g, h]

theorem mapFind_map_snd {α β : Type} (f : α → β) (m : List (String × α)) (key : String) :
    mapFind (m.map (fun e => (e.1, f e.2))) key = (mapFind m key).map f := by
  induction m with
  | nil => rfl
  | cons e m ih =>
    obtain ⟨k, v⟩ := e
    by_cases h : key = k
    · simp [mapFind, h]
    · simp only [List.map_cons, mapFind, h, if_false]
      exact ih

theorem dijkstraSteps_flags : ∀ (n : Nat) (s s' : DijkstraState),
    dijkstraSteps n s = .ok s' →
    s'.graph.unvisitAllVertices = s.graph.unvisitAllVertices := by
  intro n
  induction n with
  | zero =>
    intro s s' h
    cases h
    rfl
  | succ n ih =>
    intro s s' h
    unfold dijkstraSteps at h
    cases hs : dijkstraStep s with
    | fail f => rw [hs] at h; cases h
    | ok s1 =>
      rw [hs, Run.ok_bind] at h
      rw [ih s1 s' h, (dijkstraStep_flags hs).1]

/-- What equal skeletons mean for the observers of the graph. -/
theorem skeleton_observers {g g' : Graph} (h : skeleton g' = skeleton g) :
    g'.labels = g.labels ∧ g'.getNumVertices = g.getNumVertices ∧
      g'.getNumEdges = g.getNumEdges ∧
      (∀ p, (mapFind g'.vertices p).map (fun v => v.adjacencyList) =
        (mapFind g.vertices p).map (fun v => v.adjacencyList)) ∧
      g'.unvisitAllVertices = g.unvisitAllVertices := by
  have h1 : (skeleton g').1 = (skeleton g).1 := by rw [h]
  have h2 : (skeleton g').2.1 = (skeleton g).2.1 := by rw [h]
  have h3 : (skeleton g').2.2 = (skeleton g).2.2 := by rw [h]
  refine ⟨?_, h2, h3, ?_, unvisitAll_of_skeleton h⟩
  · have := congrArg (List.map Prod.fst) h1
    simpa [skeleton, labels, mapKeys, Function.comp_def] using this
  · intro p
    have := congrArg (fun m => (mapFind m p).map (fun x => x.2)) h1
    simp only [skeleton] at this
    rw [mapFind_map_snd (fun v : Vertex => (v.vertexLabel, v.adjacencyList)),
      mapFind_map_snd (fun v : Vertex => (v.vertexLabel, v.adjacencyList))] at this
    simpa [Option.map_map, Function.comp_def] using this

end Graph

/-! ### The shortest-path run over any queue and addition -/

namespace Graph

theorem dijkstraInitBodyOn_flags {I : Impl} {l sp : String} {s s' : DijkstraState}
    (h : dijkstraInitBodyOn I l sp s = .ok s') :
    s'.graph.unvisitAllVertices = s.graph.unvisitAllVertices := by
  unfold dijkstraInitBodyOn at h
  cases hn : s.graph.getNextNeighborAt sp with
  | fail f => rw [hn] at h; cases h
  | ok r1 =>
    rw [hn, Run.ok_bind] at h
    have h1 := unvisitAll_next hn
    simp only at h
    cases hd : r1.2.deref sp with
    | fail f => rw [hd] at h; cases h
    | ok sv =>
      rw [hd, Run.ok_bind] at h
      cases hw : sv.getEdgeWeight r1.1 with
      | fail f => rw [hw] at h; cases h
      | ok w =>
        rw [hw, Run.ok_bind] at h
        cases h
        exact h1

theorem dijkstraBodyOn_flags {I : Impl} {v p : String} {s s' : DijkstraState}
    (h : dijkstraBodyOn I v p s = .ok s') :
    s'.graph.unvisitAllVertices = s.graph.unvisitAllVertices ∧ s'.vertexSet = s.vertexSet := by
  unfold dijkstraBodyOn at h
  cases hn : s.graph.getNextNeighborAt p with
  | fail f => rw [hn] at h; cases h
  | ok r1 =>
    rw [hn, Run.ok_bind] at h
    have h1 := unvisitAll_next hn
    simp only at h
    cases hd : r1.2.deref p with
    | fail f => rw [hd] at h; cases h
    | ok pv =>
      rw [hd, Run.ok_bind] at h
      cases hw : pv.getEdgeWeight r1.1 with
      | fail f => rw [hw] at h; cases h
      | ok c =>
        rw [hw, Run.ok_bind] at h
        split_ifs at h
        · cases h
          exact ⟨h1, rfl⟩
        · cases hu : mapAt s.weight r1.1 with
          | fail f => rw [hu] at h; cases h
          | ok wu =>
            rw [hu, Run.ok_bind] at h
            cases hv : mapAt s.weight v with
            | fail f => rw [hv] at h; cases h
            | ok wv =>
              rw [hv, Run.ok_bind] at h
              split_ifs at h
              · cases h
                exact ⟨h1, rfl⟩
              · cases h
                exact ⟨h1, rfl⟩

/-- A step of the loop changes neither the shape of the graph nor `vertexSet`,
whatever the queue hands back. -/
theorem dijkstraStepOn_flags {I : Impl} {s s' : DijkstraState}
    (h : dijkstraStepOn I s = .ok s') :
    s'.graph.unvisitAllVertices = s.graph.unvisitAllVertices ∧ s'.vertexSet = s.vertexSet := by
  unfold dijkstraStepOn at h
  cases ht : I.top s.pq with
  | none =>
    rw [ht] at h
    cases h
    exact ⟨rfl, rfl⟩
  | some top =>
    rw [ht] at h
    simp only at h
    split_ifs at h
    · cases hf : s.graph.findVertex top.1 with
      | none => rw [hf] at h; cases h
      | some p =>
        rw [hf] at h
        simp only at h
        cases hd : s.graph.deref p with
        | fail f => rw [hd] at h; cases h
        | ok pv =>
          rw [hd, Run.ok_bind] at h
          have := @forLoop_ok_rel DijkstraState (dijkstraBodyOn I top.1 p)
            (fun (a b : DijkstraState) =>
              b.graph.unvisitAllVertices = a.graph.unvisitAllVertices ∧
                b.vertexSet = a.vertexSet)
            (fun _ => ⟨rfl, rfl⟩)
            (fun _ _ _ h1 h2 => ⟨h2.1.trans h1.1, h2.2.trans h1.2⟩)
            (fun _ _ => dijkstraBodyOn_flags) _ _ _ h
          exact this
    · cases h
      exact ⟨rfl, rfl⟩

theorem dijkstraStepsOn_flags (I : Impl) : ∀ (n : Nat) (s s' : DijkstraState),
    dijkstraStepsOn I n s = .ok s' →
    s'.graph.unvisitAllVertices = s.graph.unvisitAllVertices := by
  intro n
  induction n with
  | zero =>
    intro s s' h
    cases h
    rfl
  | succ n ih =>
    intro s s' h
    unfold dijkstraStepsOn at h
    cases hs : dijkstraStepOn I s with
    | fail f => rw [hs] at h; cases h
    | ok s1 =>
      rw [hs, Run.ok_bind] at h
      rw [ih s1 s' h, (dijkstraStepOn_flags hs).1]

/-- With an entry on top, the loop is one step followed by the loop with one
iteration less allowed. -/
theorem dijkstraLoopOn_succ (I : Impl) (fuel : Nat) (s : DijkstraState) {top : PAIR}
    (ht : I.top s.pq = some top) :
    dijkstraLoopOn I (fuel + 1) s = (dijkstraStepOn I s).bind (dijkstraLoopOn I fuel) := by
  rw [dijkstraLoopOn]
  simp only [dijkstraStepOn, ht]
  split_ifs
  · cases s.graph.findVertex top.1 with
    | none => rfl
    | some p =>
      simp only
      cases s.graph.deref p with
      | fail f => rfl
      | ok pv => simp only [Run.ok_bind]
  · rfl

theorem dijkstraLoopOn_flags (I : Impl) : ∀ (fuel : Nat) (s s' : DijkstraState),
    dijkstraLoopOn I fuel s = .ok s' →
    s'.graph.unvisitAllVertices = s.graph.unvisitAllVertices ∧ s'.vertexSet = s.vertexSet := by
  intro fuel
  induction fuel with
  | zero =>
    intro s s' h
    rw [dijkstraLoopOn] at h
    cases ht : I.top s.pq with
    | none =>
      rw [ht] at h
      cases h
      exact ⟨rfl, rfl⟩
    | some top => rw [ht] at h; cases h
  | succ fuel ih =>
    intro s s' h
    cases ht : I.top s.pq with
    | none =>
      rw [dijkstraLoopOn, ht] at h
      cases h
      exact ⟨rfl, rfl⟩
    | some top =>
      rw [dijkstraLoopOn_succ I fuel s ht] at h
      cases hs : dijkstraStepOn I s with
      | fail f => rw [hs] at h; cases h
      | ok s1 =>
        rw [hs, Run.ok_bind] at h
        have h1 := dijkstraStepOn_flags hs
        have h2 := ih s1 s' h
        exact ⟨h2.1.trans h1.1, h2.2.trans h1.2⟩

theorem dijkstraStartOn_flags {I : Impl} {g : Graph} {l : String} {w : List (String × Int)}
    {p : List (String × String)} {s : DijkstraState}
    (h : dijkstraStartOn I g l w p = .ok s) :
    s.graph.unvisitAllVertices = g.unvisitAllVertices := by
  unfold dijkstraStartOn at h
  simp only at h
  cases hf : g.unvisitAllVertices.findVertex l with
  | none => rw [hf] at h; cases h
  | some sp =>
    rw [hf] at h
    simp only at h
    cases hd : g.unvisitAllVertices.deref sp with
    | fail f => rw [hd] at h; cases h
    | ok sv =>
      rw [hd, Run.ok_bind] at h
      cases hl : forLoop (dijkstraInitBodyOn I l sp) sv.getNumberOfNeighbors
          ⟨g.unvisitAllVertices, mapClear w, mapClear p, [], []⟩ with
      | fail f => rw [hl] at h; cases h
      | ok s1 =>
        rw [hl, Run.ok_bind] at h
        cases h
        have h1 := @forLoop_ok_rel DijkstraState (dijkstraInitBodyOn I l sp)
          (fun (a b : DijkstraState) =>
            b.graph.unvisitAllVertices = a.graph.unvisitAllVertices)
          (fun _ => rfl) (fun _ _ _ h1 h2 => h2.trans h1)
          (fun _ _ => dijkstraInitBodyOn_flags) _ _ _ hl
        simp only at h1 ⊢
        rw [h1, unvisitAll_idem]

/-- The whole function is the start, the loop and the final erasure. -/
theorem dijkstraOn_eq (I : Impl) (fuel : Nat) (g : Graph) (start : String)
    (w : List (String × Int)) (p : List (String × String)) :
    dijkstraCostToAllVerticesOn I fuel g start w p =
      (dijkstraStartOn I g start w p).bind fun s =>
        (dijkstraLoopOn I fuel s).bind (dijkstraFinish start) := by
  unfold dijkstraCostToAllVerticesOn dijkstraStartOn
  simp only
  cases g.unvisitAllVertices.findVertex start with
  | none => rfl
  | some sp =>
    simp only
    cases g.unvisitAllVertices.deref sp with
    | fail f => rfl
    | ok sv =>
      simp only [Run.ok_bind]
      cases forLoop (dijkstraInitBodyOn I start sp) sv.getNumberOfNeighbors
        ⟨g.unvisitAllVertices, mapClear w, mapClear p, [], []⟩ <;> rfl

/-- A run that returns, over any queue and addition, hands back a graph that
differs from the one it was given in visited flags and iterators only. -/
theorem dijkstraOn_flags {I : Impl} {fuel : Nat} {g g' : Graph} {l : String}
    {w w' : List (String × Int)} {p p' : List (String × String)}
    (h : dijkstraCostToAllVerticesOn I fuel g l w p = .ok (g', w', p')) :
    g'.unvisitAllVertices = g.unvisitAllVertices := by
  rw [dijkstraOn_eq] at h
  cases hs : dijkstraStartOn I g l w p with
  | fail f => rw [hs] at h; cases h
  | ok s =>
    rw [hs, Run.ok_bind] at h
    cases hl : dijkstraLoopOn I fuel s with
    | fail f => rw [hl] at h; cases h
    | ok s2 =>
      rw [hl, Run.ok_bind] at h
      simp only [dijkstraFinish, Run.ok.injEq, Prod.mk.injEq] at h
      rw [← h.1, (dijkstraLoopOn_flags I _ _ _ hl).1, dijkstraStartOn_flags hs]

/-- The incoming contents of the output maps play no role. -/
theorem dijkstraOn_maps (I : Impl) (fuel : Nat) (g : Graph) (start : String)
    (w : List (String × Int)) (p : List (String × String)) :
    dijkstraCostToAllVerticesOn I fuel g start w p =
      dijkstraCostToAllVerticesOn I fuel g start [] [] := rfl

/-- A loop that ends within the allowance ends in the same way with every
greater allowance. -/
theorem dijkstraLoopOn_more (I : Impl) : ∀ (n : Nat) (s : DijkstraState)
    (r : Run DijkstraState), dijkstraLoopOn I n s = r → r ≠ .fail .outOfFuel →
    ∀ k, dijkstraLoopOn I (n + k) s = r := by
  intro n
  induction n with
  | zero =>
    intro s r h hr k
    cases ht : I.top s.pq with
    | none =>
      rw [dijkstraLoopOn, ht] at h
      rw [dijkstraLoopOn, ht]
      exact h
    | some top =>
      rw [dijkstraLoopOn, ht] at h
      exact absurd h.symm hr
  | succ n ih =>
    intro s r h hr k
    cases ht : I.top s.pq with
    | none =>
      rw [dijkstraLoopOn, ht] at h
      rw [dijkstraLoopOn, ht]
      exact h
    | some top =>
      have hk : n + 1 + k = (n + k) + 1 := by omega
      rw [hk, dijkstraLoopOn_succ I (n + k) s ht]
      rw [dijkstraLoopOn_succ I n s ht] at h
      cases hs : dijkstraStepOn I s with
      | fail f =>
        rw [hs] at h
        exact h
      | ok s1 =>
        rw [hs, Run.ok_bind] at h
        rw [Run.ok_bind]
        exact ih s1 r h hr k

/-- A run that ends within the allowance ends in the same way with every
greater allowance. -/
theorem dijkstraOn_more (I : Impl) (n : Nat) (g : Graph) (start : String)
    (w : List (String × Int)) (p : List (String × String))
    (r : Run (Graph × List (String × Int) × List (String × String)))
    (h : dijkstraCostToAllVerticesOn I n g start w p = r) (hr : r ≠ .fail .outOfFuel)
    (k : Nat) : dijkstraCostToAllVerticesOn I (n + k) g start w p = r := by
  rw [dijkstraOn_eq] at h ⊢
  cases hs : dijkstraStartOn I g start w p with
  | fail f =>
    rw [hs] at h
    exact h
  | ok s =>
    rw [hs, Run.ok_bind] at h
    rw [Run.ok_bind]
    cases hl : dijkstraLoopOn I n s with
    | ok s2 =>
      rw [dijkstraLoopOn_more I n s _ hl (by simp) k]
      rw [hl] at h
      exact h
    | fail f =>
      rw [hl, Run.fail_bind] at h
      have hf : f ≠ Fault.outOfFuel := by
        intro hc
        rw [hc] at h
        exact hr h.symm
      rw [dijkstraLoopOn_more I n s _ hl (by simpa using hf) k, Run.fail_bind]
      exact h

/-- A run that ends in a fault other than the exhausted allowance returns for
no allowance and no contents of the output maps. -/
theorem dijkstraOn_never_returns (I : Impl) (n : Nat) (g : Graph) (start : String)
    (f : Fault) (h : dijkstraCostToAllVerticesOn I n g start [] [] = .fail f)
    (hf : f ≠ Fault.outOfFuel) (fuel : Nat) (w : List (String × Int))
    (p : List (String × String)) (r : Graph × List (String × Int) × List (String × String)) :
    dijkstraCostToAllVerticesOn I fuel g start w p ≠ .ok r := by
  intro hrun
  rw [dijkstraOn_maps] at hrun
  rcases Nat.le_total fuel n with hle | hle
  · have h1 := dijkstraOn_more I fuel g start [] [] _ hrun (by simp) (n - fuel)
    have hn : fuel + (n - fuel) = n := by omega
    rw [hn, h] at h1
    cases h1
  · have h1 := dijkstraOn_more I n g start [] [] _ h (by simpa using hf) (fuel - n)
    have hn : n + (fuel - n) = fuel := by omega
    rw [hn, hrun] at h1
    cases h1

/-! ### The queue of `pqTop` is one of the choices -/

theorem dijkstraInitBodyOn_firstPushed :
    dijkstraInitBodyOn firstPushed = dijkstraInitBody := rfl

theorem dijkstraBodyOn_firstPushed : dijkstraBodyOn firstPushed = dijkstraBody := rfl

theorem dijkstraLoopOn_firstPushed : ∀ (fuel : Nat) (s : DijkstraState),
    dijkstraLoopOn firstPushed fuel s = dijkstraLoop fuel s := by
  intro fuel
  induction fuel with
  | zero =>
    intro s
    rw [dijkstraLoopOn, dijkstraLoop]
    rfl
  | succ fuel ih =>
    intro s
    rw [dijkstraLoopOn, dijkstraLoop]
    have hfun : dijkstraLoopOn firstPushed fuel = dijkstraLoop fuel := funext ih
    simp only [hfun, dijkstraBodyOn_firstPushed]
    rfl

/-- The run with `pqPush`, `pqTop`, `pqPop` and `+` is the run over the
choice `firstPushed`. -/
theorem dijkstraOn_firstPushed (fuel : Nat) (g : Graph) (start : String)
    (w : List (String × Int)) (p : List (String × String)) :
    dijkstraCostToAllVerticesOn firstPushed fuel g start w p =
      dijkstraCostToAllVertices fuel g start w p := by
  unfold dijkstraCostToAllVerticesOn dijkstraCostToAllVertices
  simp only [dijkstraInitBodyOn_firstPushed, dijkstraLoopOn_firstPushed]

/-- Whatever runs came before, the graph differs from the original one in
visited flags and iterators only. -/
theorem after_flags {g g1 : Graph} (h : After g g1) :
    g1.unvisitAllVertices = g.unvisitAllVertices := by
  induction h with
  | same => rfl
  | dfs _ hrun ih => rw [dfs_flags hrun, ih]
  | bfs _ hrun ih => rw [bfs_flags hrun, ih]
  | dijkstra _ hrun ih => rw [dijkstraOn_flags hrun, ih]

end Graph

/-! ## Depth-first traversal: the claims -/

namespace Graph

/-- C3: on a graph built by `add` calls with non-empty labels and for a start
label that is a vertex, `depthFirstTraversal` completes, calls `visit` exactly
once for every vertex reachable from the start (the start included) and never
for a vertex that is not reachable; from a start without outgoing edges it
visits only the start.  Reachability is along the edges of the graph, which
are exactly the pairs `(a, b)` of the calls `add(a, b, _)`. -/
theorem depthFirstTraversal_visits_reachable_once (calls : List (String × String × Int))
    (hne : NonEmptyLabels calls) (start : String) (hs : start ∈ (build calls).labels) :
    ∃ g' out, (build calls).depthFirstTraversal start = Run.ok (g', out) ∧
      (∀ v, (build calls).Reachable start v → out.count v = 1) ∧
      (∀ v, ¬ (build calls).Reachable start v → out.count v = 0) ∧
      ((build calls).neighbours start = [] → out = [start]) ∧
      (∀ a b, (build calls).HasEdge a b ↔ ∃ w, (a, b, w) ∈ calls) := by
  have hwf := wf_build calls hne
  have hpos : 0 < (build calls).vertices.length := by
    have : 0 < (mapKeys (build calls).vertices).length := List.length_pos_of_mem hs
    simpa [mapKeys] using this
  obtain ⟨n, hn⟩ : ∃ n, (build calls).vertices.length = n + 1 := ⟨_, (Nat.sub_add_cancel hpos).symm⟩
  have hrun := dfs_run hwf hs (n + 1) (le_of_eq hn)
  obtain ⟨hnd, hmem⟩ := refDfs_reach (build calls).neighbours (mapKeys (build calls).vertices)
    (neighbours_mem_labels hwf) (n + 1) (by simp [mapKeys, hn]) start hs
  refine ⟨_, _, hrun, ?_, ?_, ?_, fun a b => mem_neighbours_build calls hne a b⟩
  · intro v hv
    exact List.count_eq_one_of_mem hnd ((hmem v).2 hv)
  · intro v hv
    exact List.count_eq_zero_of_not_mem (fun hc => hv ((hmem v).1 hc))
  · intro hnil
    show refVisitAll _ ((build calls).neighbours start) ([] ++ [start]) = [start]
    rw [hnil]
    rfl

/-- C3, on the three-vertex scenario of the specification, started at `"A"`. -/
theorem depthFirstTraversal_visits_reachable_once_witness :
    NonEmptyLabels [("A", "B", 1), ("A", "C", 4), ("B", "C", 1)] ∧
    "A" ∈ (build [("A", "B", 1), ("A", "C", 4), ("B", "C", 1)]).labels ∧
    ∃ g' out, (build [("A", "B", 1), ("A", "C", 4), ("B", "C", 1)]).depthFirstTraversal "A" =
        Run.ok (g', out) ∧
      (∀ v, (build [("A", "B", 1), ("A", "C", 4), ("B", "C", 1)]).Reachable "A" v →
        out.count v = 1) ∧
      (∀ v, ¬ (build [("A", "B", 1), ("A", "C", 4), ("B", "C", 1)]).Reachable "A" v →
        out.count v = 0) ∧
      ((build [("A", "B", 1), ("A", "C", 4), ("B", "C", 1)]).neighbours "A" = [] →
        out = ["A"]) ∧
      (∀ a b, (build [("A", "B", 1), ("A", "C", 4), ("B", "C", 1)]).HasEdge a b ↔
        ∃ w, (a, b, w) ∈ [("A", "B", (1 : Int)), ("A", "C", 4), ("B", "C", 1)]) :=
  ⟨by decide, by decide,
    depthFirstTraversal_visits_reachable_once [("A", "B", 1), ("A", "C", 4), ("B", "C", 1)]
      (by decide) "A" (by decide)⟩

/-- C5: on a graph built by `add` calls with non-empty labels and for a start
label that is a vertex, the sequence of labels passed to `visit` by
`depthFirstTraversal` is the one the recursive pre-order reference `refDfs`
emits when it walks the out-neighbours of each vertex in the order of
`neighbours`; that order is strictly ascending in the lexicographic order of
the labels, and the labels listed for `v` are exactly the targets of the calls
`add(v, _, _)`.  The depth allowance of the reference may be any number that is
at least the number of vertices. -/
theorem depthFirstTraversal_eq_reference (calls : List (String × String × Int))
    (hne : NonEmptyLabels calls) (start : String) (hs : start ∈ (build calls).labels)
    (depth : Nat) (hd : (build calls).vertices.length ≤ depth) :
    (∃ g', (build calls).depthFirstTraversal start =
        Run.ok (g', refDfs (build calls).neighbours depth [] start)) ∧
      (∀ v, ((build calls).neighbours v).Pairwise (· < ·)) ∧
      (∀ v u, u ∈ (build calls).neighbours v ↔ ∃ w, (v, u, w) ∈ calls) :=
  ⟨⟨_, dfs_run (wf_build calls hne) hs depth hd⟩, neighbours_sorted (wf_build calls hne),
    fun v u => mem_neighbours_build calls hne v u⟩

/-- C5, on the three-vertex scenario of the specification, started at `"A"`. -/
theorem depthFirstTraversal_eq_reference_witness :
    NonEmptyLabels [("A", "C", 4), ("A", "B", 1), ("B", "C", 1)] ∧
    "A" ∈ (build [("A", "C", 4), ("A", "B", 1), ("B", "C", 1)]).labels ∧
    (build [("A", "C", 4), ("A", "B", 1), ("B", "C", 1)]).vertices.length ≤ 3 ∧
    ((∃ g', (build [("A", "C", 4), ("A", "B", 1), ("B", "C", 1)]).depthFirstTraversal "A" =
        Run.ok (g', refDfs (build [("A", "C", 4), ("A", "B", 1), ("B", "C", 1)]).neighbours
          3 [] "A")) ∧
      (∀ v, ((build [("A", "C", 4), ("A", "B", 1), ("B", "C", 1)]).neighbours v).Pairwise
        (· < ·)) ∧
      (∀ v u, u ∈ (build [("A", "C", 4), ("A", "B", 1), ("B", "C", 1)]).neighbours v ↔
        ∃ w, (v, u, w) ∈ [("A", "C", (4 : Int)), ("A", "B", 1), ("B", "C", 1)])) :=
  ⟨by decide, by decide, by decide,
    depthFirstTraversal_eq_reference [("A", "C", 4), ("A", "B", 1), ("B", "C", 1)]
      (by decide) "A" (by decide) 3 (by decide)⟩

end Graph

/-! ## Unknown start label, return value of `add`, stale queue entries -/

namespace Graph

theorem findVertex_unvisitAll (g : Graph) (l : String) :
    g.unvisitAllVertices.findVertex l = g.findVertex l := by
  cases hf : g.findVertex l with
  | none =>
    rw [findVertex_eq_none_iff, mapKeys_unvisitAll]
    exact (findVertex_eq_none_iff g l).1 hf
  | some p =>
    rw [findVertex_eq_some_iff, mapKeys_unvisitAll]
    exact (findVertex_eq_some_iff g l p).1 hf

/-- C8: for every graph (the empty one included) and every start label that is
the empty string or not a vertex of the graph, `depthFirstTraversal` and
`breadthFirstTraversal` both complete without a fault and call `visit` zero
times. -/
theorem traversal_unknown_start (g : Graph) (start : String)
    (hs : start = "" ∨ start ∉ g.labels) :
    g.depthFirstTraversal start = Run.ok (g.unvisitAllVertices, []) ∧
      g.breadthFirstTraversal start = Run.ok (g.unvisitAllVertices, []) := by
  have hf : g.unvisitAllVertices.findVertex start = none := by
    rw [findVertex_unvisitAll]
    exact (findVertex_eq_none_iff g start).2 hs
  constructor
  · unfold depthFirstTraversal
    simp only [hf]
    rfl
  · unfold breadthFirstTraversal
    simp only [hf]

/-- C8, on the empty graph with start label `"O"`, as in `ryanTest1`. -/
theorem traversal_unknown_start_witness :
    ("O" = "" ∨ "O" ∉ Graph.empty.labels) ∧
    (Graph.empty.depthFirstTraversal "O" = Run.ok (Graph.empty.unvisitAllVertices, []) ∧
      Graph.empty.breadthFirstTraversal "O" = Run.ok (Graph.empty.unvisitAllVertices, [])) :=
  ⟨by decide, traversal_unknown_start Graph.empty "O" (by decide)⟩

/-- C9 (code defect): `dijkstraCostToAllVertices` has no check of the start
pointer.  On the graph with the single edge `F -> B` and the start label `"O"`,
which is not a vertex, `findVertex` gives `nullptr` and the first loop calls
`startVertex->getNumberOfNeighbors()` on it; the run is a null dereference, for
every loop allowance and whatever the output maps held. -/
theorem dijkstra_unknown_start_faults (fuel : Nat) (weight : List (String × Int))
    (previous : List (String × String)) :
    "O" ∉ (build [("F", "B", 2)]).labels ∧
      dijkstraCostToAllVertices fuel (build [("F", "B", 2)]) "O" weight previous =
        Run.fail Fault.nullDeref :=
  ⟨by decide, rfl⟩

/-- C10, as the code has it: `Graph::add` returns `true` on every call, whether
the connection was newly created or the source already had an edge to the
target. -/
theorem add_returns_true (g : Graph) (start endLabel : String) (edgeWeight : Int) :
    (g.add start endLabel edgeWeight).2 = true := rfl

/-- C10 fails as stated: after `add("A", "B", 1)` the vertex `A` has an edge to
`B`, and a second `add("A", "B", 1)` still returns `true`, so the result is not
equivalent to "the source had no edge to the target before the call". -/
theorem add_result_not_newly_created :
    ¬ (((Graph.empty.add "A" "B" 1).1.add "A" "B" 1).2 = true ↔
        ¬ (Graph.empty.add "A" "B" 1).1.HasEdge "A" "B") := by
  have h1 : ((Graph.empty.add "A" "B" 1).1.add "A" "B" 1).2 = true := rfl
  have h2 : (Graph.empty.add "A" "B" 1).1.HasEdge "A" "B" := by
    show "B" ∈ (Graph.empty.add "A" "B" 1).1.neighbours "A"
    decide
  intro h
  exact (h.1 h1) h2

/-- C1 (code defect): on the graph `A -> B` (1), `A -> C` (8), `B -> C` (3),
`C -> D` (1), all labels non-empty and all weights non-negative, with start
`"A"` (a vertex, from which `D` is reachable), `dijkstraCostToAllVertices` does
not deliver the minimum costs.  `C` is pushed twice, with costs 8 and 4; nothing
records that `C` has been processed, so the stale entry `(C, 8)` is processed
again, the iterator of `C` is already at `end()`, `getNextNeighbor` hands back
`""` and `getEdgeWeight("")` dereferences `end()`.  This holds for every loop
allowance of at least four iterations and whatever the output maps held. -/
theorem dijkstra_min_cost_faults :
    NonEmptyLabels [("A", "B", 1), ("A", "C", 8), ("B", "C", 3), ("C", "D", 1)] ∧
    (∀ c ∈ [("A", "B", (1 : Int)), ("A", "C", 8), ("B", "C", 3), ("C", "D", 1)], 0 ≤ c.2.2) ∧
    "A" ∈ (build [("A", "B", 1), ("A", "C", 8), ("B", "C", 3), ("C", "D", 1)]).labels ∧
    (build [("A", "B", 1), ("A", "C", 8), ("B", "C", 3), ("C", "D", 1)]).HasEdge "A" "C" ∧
    (build [("A", "B", 1), ("A", "C", 8), ("B", "C", 3), ("C", "D", 1)]).HasEdge "C" "D" ∧
    ∀ (k : Nat) (weight : List (String × Int)) (previous : List (String × String)),
      dijkstraCostToAllVertices (k + 4)
        (build [("A", "B", 1), ("A", "C", 8), ("B", "C", 3), ("C", "D", 1)]) "A"
        weight previous = Run.fail Fault.endDeref :=
  ⟨by decide, by decide, by decide, by show "C" ∈ _; decide, by show "D" ∈ _; decide,
    by intro k weight previous; rfl⟩

/-- C2 (code defect, the same one as for C1): on the graph `S -> A` (10),
`S -> B` (1), `B -> A` (2), `A -> T` (1) with start `"S"`, the run of
`dijkstraCostToAllVertices` ends in the dereference of `end()` when the stale
entry `(A, 10)` is processed, so no predecessor map is delivered from which a
path to the reachable vertex `T` could be read. -/
theorem dijkstra_previous_chain_faults :
    NonEmptyLabels [("S", "A", 10), ("S", "B", 1), ("B", "A", 2), ("A", "T", 1)] ∧
    (∀ c ∈ [("S", "A", (10 : Int)), ("S", "B", 1), ("B", "A", 2), ("A", "T", 1)], 0 ≤ c.2.2) ∧
    "S" ∈ (build [("S", "A", 10), ("S", "B", 1), ("B", "A", 2), ("A", "T", 1)]).labels ∧
    (build [("S", "A", 10), ("S", "B", 1), ("B", "A", 2), ("A", "T", 1)]).HasEdge "S" "A" ∧
    (build [("S", "A", 10), ("S", "B", 1), ("B", "A", 2), ("A", "T", 1)]).HasEdge "A" "T" ∧
    ∀ (k : Nat) (weight : List (String × Int)) (previous : List (String × String)),
      dijkstraCostToAllVertices (k + 4)
        (build [("S", "A", 10), ("S", "B", 1), ("B", "A", 2), ("A", "T", 1)]) "S"
        weight previous = Run.fail Fault.endDeref :=
  ⟨by decide, by decide, by decide, by show "A" ∈ _; decide, by show "T" ∈ _; decide,
    by intro k weight previous; rfl⟩

/-- C7 (code defect, the same one as for C1): on the cyclic graph `A -> B` (5),
`A -> C` (1), `C -> B` (1), `B -> A` (1) with start `"A"`, the run of
`dijkstraCostToAllVertices` ends in the dereference of `end()` when the stale
entry `(B, 5)` is processed (the iterator of `B` is exhausted and
`getNextNeighbor` hands back `""`), so the output maps are not left with the
reachable vertices other than the start as their key sets. -/
theorem dijkstra_key_sets_faults :
    NonEmptyLabels [("A", "B", 5), ("A", "C", 1), ("C", "B", 1), ("B", "A", 1)] ∧
    (∀ c ∈ [("A", "B", (5 : Int)), ("A", "C", 1), ("C", "B", 1), ("B", "A", 1)], 0 ≤ c.2.2) ∧
    "A" ∈ (build [("A", "B", 5), ("A", "C", 1), ("C", "B", 1), ("B", "A", 1)]).labels ∧
    ∀ (k : Nat) (weight : List (String × Int)) (previous : List (String × String)),
      dijkstraCostToAllVertices (k + 4)
        (build [("A", "B", 5), ("A", "C", 1), ("C", "B", 1), ("B", "A", 1)]) "A"
        weight previous = Run.fail Fault.endDeref :=
  ⟨by decide, by decide, by decide, by intro k weight previous; rfl⟩

end Graph

/-! ## Breadth-first traversal: the claims -/

namespace Graph

/-- C4: on a graph built by `add` calls with non-empty labels and for a start
label that is a vertex, `breadthFirstTraversal` completes, calls `visit`
exactly once for every vertex reachable from the start (the start included)
and never for a vertex that is not reachable.  Reachability is along the edges
of the graph, which are exactly the pairs `(a, b)` of the calls `add(a, b, _)`. -/
theorem breadthFirstTraversal_visits_reachable_once (calls : List (String × String × Int))
    (hne : NonEmptyLabels calls) (start : String) (hs : start ∈ (build calls).labels) :
    ∃ g' out, (build calls).breadthFirstTraversal start = Run.ok (g', out) ∧
      (∀ v, (build calls).Reachable start v → out.count v = 1) ∧
      (∀ v, ¬ (build calls).Reachable start v → out.count v = 0) ∧
      (∀ a b, (build calls).HasEdge a b ↔ ∃ w, (a, b, w) ∈ calls) := by
  obtain ⟨g', out, _, hrun, _, hnd, hmem, _, _⟩ := bfs_out_spec (wf_build calls hne) hs
  refine ⟨g', out, hrun, ?_, ?_, fun a b => mem_neighbours_build calls hne a b⟩
  · intro v hv
    exact List.count_eq_one_of_mem hnd ((hmem v).2 hv)
  · intro v hv
    exact List.count_eq_zero_of_not_mem (fun hc => hv ((hmem v).1 hc))

/-- C4, on a graph with a cycle and an unreachable vertex, started at `"B"`. -/
theorem breadthFirstTraversal_visits_reachable_once_witness :
    NonEmptyLabels [("A", "B", 1), ("B", "C", 1), ("C", "B", 2), ("B", "D", 0)] ∧
    "B" ∈ (build [("A", "B", 1), ("B", "C", 1), ("C", "B", 2), ("B", "D", 0)]).labels ∧
    ∃ g' out,
      (build [("A", "B", 1), ("B", "C", 1), ("C", "B", 2), ("B", "D", 0)]).breadthFirstTraversal
          "B" = Run.ok (g', out) ∧
      (∀ v, (build [("A", "B", 1), ("B", "C", 1), ("C", "B", 2), ("B", "D", 0)]).Reachable "B" v →
        out.count v = 1) ∧
      (∀ v, ¬ (build [("A", "B", 1), ("B", "C", 1), ("C", "B", 2), ("B", "D", 0)]).Reachable
          "B" v → out.count v = 0) ∧
      (∀ a b, (build [("A", "B", 1), ("B", "C", 1), ("C", "B", 2), ("B", "D", 0)]).HasEdge a b ↔
        ∃ w, (a, b, w) ∈ [("A", "B", (1 : Int)), ("B", "C", 1), ("C", "B", 2), ("B", "D", 0)]) :=
  ⟨by decide, by decide,
    breadthFirstTraversal_visits_reachable_once
      [("A", "B", 1), ("B", "C", 1), ("C", "B", 2), ("B", "D", 0)] (by decide) "B" (by decide)⟩

/-- C6: on a graph built by `add` calls with non-empty labels and for a start
label that is a vertex, in the sequence of labels passed to `visit` by
`breadthFirstTraversal` every vertex at hop distance `k` from the start occurs
before every vertex at hop distance `k + 1`, and the sequence is non-decreasing
in hop distance.  Hop distance is the least number of edges of a walk from the
start, over the out-neighbour lists, which hold exactly the targets of the
`add` calls. -/
theorem breadthFirstTraversal_level_order (calls : List (String × String × Int))
    (hne : NonEmptyLabels calls) (start : String) (hs : start ∈ (build calls).labels) :
    ∃ g' out, (build calls).breadthFirstTraversal start = Run.ok (g', out) ∧
      (∀ a b k, (build calls).HopDist start a k → (build calls).HopDist start b (k + 1) →
        Before out a b) ∧
      out.Pairwise (fun a b => ∀ ka kb, (build calls).HopDist start a ka →
        (build calls).HopDist start b kb → ka ≤ kb) ∧
      (∀ v u, u ∈ (build calls).neighbours v ↔ ∃ w, (v, u, w) ∈ calls) := by
  obtain ⟨g', out, d, hrun, _, _, hmem, hsorted, hdist⟩ := bfs_out_spec (wf_build calls hne) hs
  refine ⟨g', out, hrun, ?_, ?_, fun v u => mem_neighbours_build calls hne v u⟩
  · intro a b k ha hb
    have hda := hdist a k ha
    have hdb := hdist b (k + 1) hb
    have hain : a ∈ out := (hmem a).2 (reach_of_walk _ _ k a ha.1)
    have hbin : b ∈ out := (hmem b).2 (reach_of_walk _ _ (k + 1) b hb.1)
    have hab : a ≠ b := by
      rintro rfl
      omega
    exact before_of_pairwise out a b hsorted hain hbin hab (by omega)
  · refine hsorted.imp ?_
    intro a b hab ka kb hka hkb
    rw [← hdist a ka hka, ← hdist b kb hkb]
    exact hab

/-- C6, on a graph in which `D` is two hops from `A` although an edge leads to
it from the first neighbour, started at `"A"`. -/
theorem breadthFirstTraversal_level_order_witness :
    NonEmptyLabels [("A", "B", 1), ("A", "H", 3), ("B", "D", 1), ("H", "C", 1), ("D", "E", 1)] ∧
    "A" ∈ (build [("A", "B", 1), ("A", "H", 3), ("B", "D", 1), ("H", "C", 1),
      ("D", "E", 1)]).labels ∧
    ∃ g' out,
      (build [("A", "B", 1), ("A", "H", 3), ("B", "D", 1), ("H", "C", 1),
        ("D", "E", 1)]).breadthFirstTraversal "A" = Run.ok (g', out) ∧
      (∀ a b k,
        (build [("A", "B", 1), ("A", "H", 3), ("B", "D", 1), ("H", "C", 1),
          ("D", "E", 1)]).HopDist "A" a k →
        (build [("A", "B", 1), ("A", "H", 3), ("B", "D", 1), ("H", "C", 1),
          ("D", "E", 1)]).HopDist "A" b (k + 1) → Before out a b) ∧
      out.Pairwise (fun a b => ∀ ka kb,
        (build [("A", "B", 1), ("A", "H", 3), ("B", "D", 1), ("H", "C", 1),
          ("D", "E", 1)]).HopDist "A" a ka →
        (build [("A", "B", 1), ("A", "H", 3), ("B", "D", 1), ("H", "C", 1),
          ("D", "E", 1)]).HopDist "A" b kb → ka ≤ kb) ∧
      (∀ v u,
        u ∈ (build [("A", "B", 1), ("A", "H", 3), ("B", "D", 1), ("H", "C", 1),
          ("D", "E", 1)]).neighbours v ↔
        ∃ w, (v, u, w) ∈ [("A", "B", (1 : Int)), ("A", "H", 3), ("B", "D", 1), ("H", "C", 1),
          ("D", "E", 1)]) :=
  ⟨by decide, by decide,
    breadthFirstTraversal_level_order
      [("A", "B", 1), ("A", "H", 3), ("B", "D", 1), ("H", "C", 1), ("D", "E", 1)]
      (by decide) "A" (by decide)⟩

end Graph

/-! ## One vertex: `connect`, `getEdgeWeight`, `getNextNeighbor` -/

namespace Vertex

/-- C13: for a vertex that already has an edge to `t`, `connect(t, w)` returns
`false` and leaves the vertex as it was: adjacency list (targets and stored
weights, so the weight found for `t` is the old one) and iterator.  Hence a
second `connect` to the same target, after a first one on any vertex, returns
`false` and leaves the vertex equal to the one after the first call, and
`getEdgeWeight(t)` still gives the weight of the first call. -/
theorem connect_existing_noop (v : Vertex) (t : String) (w : Int)
    (h : t ∈ mapKeys v.adjacencyList) :
    v.connect t w = (v, false) ∧
      (v.connect t w).1.adjacencyList = v.adjacencyList ∧
      (v.connect t w).1.currentNeighbor = v.currentNeighbor ∧
      (v.connect t w).1.getEdgeWeight t = v.getEdgeWeight t ∧
      (∀ (u : Vertex) (w1 w2 : Int),
        (u.connect t w1).1.connect t w2 = ((u.connect t w1).1, false)) ∧
      (∀ (u : Vertex) (w1 w2 : Int), t ∉ mapKeys u.adjacencyList →
        ((u.connect t w1).1.connect t w2).1.getEdgeWeight t = Run.ok w1) := by
  have h1 := connect_of_mem v t w h
  refine ⟨h1, by rw [h1], by rw [h1], by rw [h1], ?_, ?_⟩
  · intro u w1 w2
    exact connect_of_mem _ t w2 (mem_keys_after_connect u t w1)
  · intro u w1 w2 hu
    rw [connect_of_mem _ t w2 (mem_keys_after_connect u t w1), getEdgeWeight_connect_new u t w1 hu]
    simp

/-- C13, on the vertex `A` with edges to `B` (weight 1) and `C` (weight 4) and
a second `connect("B", 9)`. -/
theorem connect_existing_noop_witness :
    "B" ∈ mapKeys (built "A" [("B", 1), ("C", 4)]).adjacencyList ∧
    ((built "A" [("B", 1), ("C", 4)]).connect "B" 9 = (built "A" [("B", 1), ("C", 4)], false) ∧
      ((built "A" [("B", 1), ("C", 4)]).connect "B" 9).1.adjacencyList =
        (built "A" [("B", 1), ("C", 4)]).adjacencyList ∧
      ((built "A" [("B", 1), ("C", 4)]).connect "B" 9).1.currentNeighbor =
        (built "A" [("B", 1), ("C", 4)]).currentNeighbor ∧
      ((built "A" [("B", 1), ("C", 4)]).connect "B" 9).1.getEdgeWeight "B" =
        (built "A" [("B", 1), ("C", 4)]).getEdgeWeight "B" ∧
      (∀ (u : Vertex) (w1 w2 : Int),
        (u.connect "B" w1).1.connect "B" w2 = ((u.connect "B" w1).1, false)) ∧
      (∀ (u : Vertex) (w1 w2 : Int), "B" ∉ mapKeys u.adjacencyList →
        ((u.connect "B" w1).1.connect "B" w2).1.getEdgeWeight "B" = Run.ok w1)) :=
  ⟨by decide, connect_existing_noop (built "A" [("B", 1), ("C", 4)]) "B" 9 (by decide)⟩

/-- C14: for a vertex with no edge to `t` and any integer weight `w`,
`connect(t, w)` returns `true`; afterwards `getEdgeWeight(t)` is `w`,
`getNumberOfNeighbors()` is one more than before, and `getEdgeWeight(u)` is
what it was for every target `u` that already had an edge. -/
theorem connect_new_edge (v : Vertex) (t : String) (w : Int)
    (h : t ∉ mapKeys v.adjacencyList) :
    (v.connect t w).2 = true ∧
      (v.connect t w).1.getEdgeWeight t = Run.ok w ∧
      (v.connect t w).1.getNumberOfNeighbors = v.getNumberOfNeighbors + 1 ∧
      (∀ u, u ∈ mapKeys v.adjacencyList →
        (v.connect t w).1.getEdgeWeight u = v.getEdgeWeight u) := by
  refine ⟨?_, ?_, ?_, ?_⟩
  · rw [connect_of_not_mem v t w h]
  · rw [getEdgeWeight_connect_new v t w h]
    simp
  · rw [connect_of_not_mem v t w h]
    exact length_mapInsert_of_not_mem _ h
  · intro u hu
    have hne : u ≠ t := fun hc => h (hc ▸ hu)
    rw [getEdgeWeight_connect_new v t w h, if_neg hne]

/-- C14, on the vertex `A` with an edge to `C` and a new edge to `B` of
negative weight. -/
theorem connect_new_edge_witness :
    "B" ∉ mapKeys (built "A" [("C", 4)]).adjacencyList ∧
    (((built "A" [("C", 4)]).connect "B" (-3)).2 = true ∧
      ((built "A" [("C", 4)]).connect "B" (-3)).1.getEdgeWeight "B" = Run.ok (-3) ∧
      ((built "A" [("C", 4)]).connect "B" (-3)).1.getNumberOfNeighbors =
        (built "A" [("C", 4)]).getNumberOfNeighbors + 1 ∧
      (∀ u, u ∈ mapKeys (built "A" [("C", 4)]).adjacencyList →
        ((built "A" [("C", 4)]).connect "B" (-3)).1.getEdgeWeight u =
          (built "A" [("C", 4)]).getEdgeWeight u)) :=
  ⟨by decide, connect_new_edge (built "A" [("C", 4)]) "B" (-3) (by decide)⟩

/-- C15: let `v` be a vertex made by `Vertex(label)` and any sequence of
`connect` calls, with `n = getNumberOfNeighbors()` edges.  Its target labels
are in strictly ascending lexicographic order and are exactly the targets of
the `connect` calls.  After `resetNeighbor()`, `n` successive calls of
`getNextNeighbor()` return these labels in that order, each once, and every
further call returns the empty string; a successful `connect` leaves the
iterator at the start as well; and on a freshly constructed vertex
`getNextNeighbor()` returns the empty string. -/
theorem getNextNeighbor_enumerates (label : String) (cs : List (String × Int)) :
    (mapKeys (built label cs).adjacencyList).Pairwise (· < ·) ∧
      (∀ u, u ∈ mapKeys (built label cs).adjacencyList ↔ ∃ w, (u, w) ∈ cs) ∧
      (nextN (built label cs).getNumberOfNeighbors (built label cs).resetNeighbor).1 =
        mapKeys (built label cs).adjacencyList ∧
      (∀ m, (nextN ((built label cs).getNumberOfNeighbors + m)
          (built label cs).resetNeighbor).1 =
        mapKeys (built label cs).adjacencyList ++ List.replicate m "") ∧
      (∀ t w, ((built label cs).connect t w).2 = true →
        ((built label cs).connect t w).1.currentNeighbor = 0) ∧
      ((Vertex.new label).getNextNeighbor).1 = "" := by
  have hrest := nextN_rest (built label cs).getNumberOfNeighbors (built label cs).resetNeighbor
    (by simp [resetNeighbor, getNumberOfNeighbors])
  refine ⟨sorted_built label cs, mem_keys_built label cs, ?_, ?_, ?_, rfl⟩
  · rw [hrest.1]
    rfl
  · intro m
    rw [nextN_add, hrest.1, hrest.2]
    rw [(nextN_exhausted m _ rfl).1]
    rfl
  · intro t w ht
    by_cases hm : t ∈ mapKeys (built label cs).adjacencyList
    · rw [connect_of_mem _ t w hm] at ht
      cases ht
    · rw [connect_of_not_mem _ t w hm]

end Vertex

/-! ## The counters: the claims -/

namespace Graph

/-- C11, as the code has it: after any sequence of `add` calls with non-empty
labels on a new graph, `getNumVertices()` is the number of distinct labels
passed to `add` (as source or target) and is the number of entries of the
vertex map. -/
theorem getNumVertices_nonempty_labels (calls : List (String × String × Int))
    (hne : NonEmptyLabels calls) :
    (build calls).getNumVertices = ((callLabels calls).dedup.length : Int) ∧
      (build calls).getNumVertices = ((build calls).vertices.length : Int) := by
  obtain ⟨hc, hk⟩ := build_count calls hne
  refine ⟨?_, hc⟩
  have hperm : (mapKeys (build calls).vertices).Perm (callLabels calls).dedup := by
    rw [List.perm_ext_iff_of_nodup (wf_build calls hne).nodup (List.nodup_dedup _)]
    intro x
    rw [hk, List.mem_dedup]
  have hlen := hperm.length_eq
  simp only [mapKeys, List.length_map] at hlen
  show (build calls).numberOfVertices = _
  rw [hc, hlen]

/-- C11, amended, on the three `add` calls of the three-vertex scenario. -/
theorem getNumVertices_nonempty_labels_witness :
    NonEmptyLabels [("A", "B", 1), ("A", "C", 4), ("B", "C", 1)] ∧
    ((build [("A", "B", 1), ("A", "C", 4), ("B", "C", 1)]).getNumVertices =
        ((callLabels [("A", "B", 1), ("A", "C", 4), ("B", "C", 1)]).dedup.length : Int) ∧
      (build [("A", "B", 1), ("A", "C", 4), ("B", "C", 1)]).getNumVertices =
        ((build [("A", "B", 1), ("A", "C", 4), ("B", "C", 1)]).vertices.length : Int)) :=
  ⟨by decide, getNumVertices_nonempty_labels [("A", "B", 1), ("A", "C", 4), ("B", "C", 1)]
    (by decide)⟩

/-- C11 fails as stated: after the single call `add("", "B", 1)` made twice, the
labels passed are `""` and `"B"`, the vertex map has two entries, and
`getNumVertices()` is 3, because `findVertex` answers `nullptr` for the empty
label and `findOrCreateVertex` counts a new vertex each time. -/
theorem getNumVertices_empty_label :
    (build [("", "B", 1), ("", "B", 1)]).getNumVertices = 3 ∧
      (callLabels [("", "B", 1), ("", "B", 1)]).dedup.length = 2 ∧
      (build [("", "B", 1), ("", "B", 1)]).vertices.length = 2 := by
  decide

/-- C12: after any sequence of `n` `add` calls on a new graph, with any labels
and weights, `getNumEdges()` is `n`; every single `add` raises the counter by
exactly one, whatever `connect` answered. -/
theorem getNumEdges_counts_calls (calls : List (String × String × Int)) :
    (build calls).getNumEdges = (calls.length : Int) ∧
      ∀ (g : Graph) (s t : String) (w : Int),
        (g.add s t w).1.getNumEdges = g.getNumEdges + 1 := by
  refine ⟨?_, numberOfEdges_add⟩
  show (build calls).numberOfEdges = _
  unfold build
  rw [numberOfEdges_foldl]
  simp [Graph.empty]

end Graph

/-! ## Earlier runs, missing vertices -/

namespace Graph

/-- C18: for every graph `g`, every two states `g1` and `g2` the graph can be
in after any number of earlier runs of `depthFirstTraversal`,
`breadthFirstTraversal` and `dijkstraCostToAllVertices` that returned (with any
start labels, and for the last with any priority queue, any `int` addition and
any contents of the output maps), and every start label: a run of
`depthFirstTraversal` on `g1` gives the same result as on `g2` and as on `g`
itself, and so does a run of `breadthFirstTraversal`: the same sequence of
visited labels (and the same final state).  The flags and iterators left
behind have no effect, because `unvisitAllVertices` maps all these states to
the same state. -/
theorem traversal_independent_of_history (g g1 g2 : Graph) (start : String)
    (h1 : After g g1) (h2 : After g g2) :
    g1.depthFirstTraversal start = g2.depthFirstTraversal start ∧
      g1.breadthFirstTraversal start = g2.breadthFirstTraversal start ∧
      g1.depthFirstTraversal start = g.depthFirstTraversal start ∧
      g1.breadthFirstTraversal start = g.breadthFirstTraversal start ∧
      g1.unvisitAllVertices = g.unvisitAllVertices :=
  ⟨dfs_of_unvisitAll_eq ((after_flags h1).trans (after_flags h2).symm) start,
    bfs_of_unvisitAll_eq ((after_flags h1).trans (after_flags h2).symm) start,
    dfs_of_unvisitAll_eq (after_flags h1) start, bfs_of_unvisitAll_eq (after_flags h1) start,
    after_flags h1⟩

/-- C18, on a graph on which four queue entries of cost 1 tie (`S -> W, X, Y, Z`
of weight 1 each, `X -> T` of weight 5, `Y -> T` of weight 0, `T -> U` of weight
1): the state `g1` is the one after a breadth-first run from `"S"`, the state
`g2` the one after a further run of `dijkstraCostToAllVertices` from `"S"` over
the binary heap, which returns; both differ from the graph as built. -/
theorem traversal_independent_of_history_witness :
    ∃ g1 g2 : Graph,
      After (build [("S", "W", 1), ("S", "X", 1), ("S", "Y", 1), ("S", "Z", 1),
        ("X", "T", 5), ("Y", "T", 0), ("T", "U", 1)]) g1 ∧
      After (build [("S", "W", 1), ("S", "X", 1), ("S", "Y", 1), ("S", "Z", 1),
        ("X", "T", 5), ("Y", "T", 0), ("T", "U", 1)]) g2 ∧
      g1 ≠ build [("S", "W", 1), ("S", "X", 1), ("S", "Y", 1), ("S", "Z", 1),
        ("X", "T", 5), ("Y", "T", 0), ("T", "U", 1)] ∧
      g2 ≠ build [("S", "W", 1), ("S", "X", 1), ("S", "Y", 1), ("S", "Z", 1),
        ("X", "T", 5), ("Y", "T", 0), ("T", "U", 1)] ∧
      g2 ≠ g1 ∧
      (g1.depthFirstTraversal "S" = g2.depthFirstTraversal "S" ∧
        g1.breadthFirstTraversal "S" = g2.breadthFirstTraversal "S" ∧
        g1.depthFirstTraversal "S" =
          (build [("S", "W", 1), ("S", "X", 1), ("S", "Y", 1), ("S", "Z", 1),
            ("X", "T", 5), ("Y", "T", 0), ("T", "U", 1)]).depthFirstTraversal "S" ∧
        g1.breadthFirstTraversal "S" =
          (build [("S", "W", 1), ("S", "X", 1), ("S", "Y", 1), ("S", "Z", 1),
            ("X", "T", 5), ("Y", "T", 0), ("T", "U", 1)]).breadthFirstTraversal "S" ∧
        g1.unvisitAllVertices =
          (build [("S", "W", 1), ("S", "X", 1), ("S", "Y", 1), ("S", "Z", 1),
            ("X", "T", 5), ("Y", "T", 0), ("T", "U", 1)]).unvisitAllVertices) :=
  ⟨_, _, After.bfs (s := "S") After.same (by rfl),
    @After.dijkstra _ binaryHeap _ _ 8 "S" [] _ [] _
      (After.bfs (s := "S") After.same (by rfl)) (by rfl),
    by decide, by decide, by decide,
    traversal_independent_of_history _ _ _ "S" (After.bfs (s := "S") After.same (by rfl))
      (@After.dijkstra _ binaryHeap _ _ 8 "S" [] _ [] _
        (After.bfs (s := "S") After.same (by rfl)) (by rfl))⟩

/-- C20, as the code has it: in a graph built by `add` calls with non-empty
labels, every out-neighbour label of every vertex resolves through
`findVertex` to a vertex of the graph, and for every start label that is a
vertex both `depthFirstTraversal` and `breadthFirstTraversal` complete without
using a missing vertex. -/
theorem traversal_neighbours_resolve (calls : List (String × String × Int))
    (hne : NonEmptyLabels calls) (start : String) (hs : start ∈ (build calls).labels) :
    (∀ v u, u ∈ (build calls).neighbours v →
        (build calls).findVertex u = some u ∧ u ∈ (build calls).labels) ∧
      (∃ g' out, (build calls).depthFirstTraversal start = Run.ok (g', out)) ∧
      (∃ g' out, (build calls).breadthFirstTraversal start = Run.ok (g', out)) := by
  have hwf := wf_build calls hne
  refine ⟨?_, ⟨_, _, dfs_run hwf hs _ (le_refl _)⟩, ?_⟩
  · intro v u hu
    have hmem := neighbours_mem_labels hwf v u hu
    obtain ⟨vu, hvu⟩ := exists_entry_of_mem hmem
    exact ⟨findVertex_of_mem (hwf.key_ne _ hvu) hmem, hmem⟩
  · obtain ⟨g', hrun, _⟩ := bfs_run hwf hs _ (le_refl _)
    exact ⟨g', _, hrun⟩

/-- C20, amended, on the three-vertex scenario started at `"A"`. -/
theorem traversal_neighbours_resolve_witness :
    NonEmptyLabels [("A", "B", 1), ("A", "C", 4), ("B", "C", 1)] ∧
    "A" ∈ (build [("A", "B", 1), ("A", "C", 4), ("B", "C", 1)]).labels ∧
    ((∀ v u, u ∈ (build [("A", "B", 1), ("A", "C", 4), ("B", "C", 1)]).neighbours v →
        (build [("A", "B", 1), ("A", "C", 4), ("B", "C", 1)]).findVertex u = some u ∧
          u ∈ (build [("A", "B", 1), ("A", "C", 4), ("B", "C", 1)]).labels) ∧
      (∃ g' out, (build [("A", "B", 1), ("A", "C", 4), ("B", "C", 1)]).depthFirstTraversal "A" =
        Run.ok (g', out)) ∧
      (∃ g' out, (build [("A", "B", 1), ("A", "C", 4), ("B", "C", 1)]).breadthFirstTraversal "A" =
        Run.ok (g', out))) :=
  ⟨by decide, by decide,
    traversal_neighbours_resolve [("A", "B", 1), ("A", "C", 4), ("B", "C", 1)] (by decide) "A"
      (by decide)⟩

/-- C20 fails as stated: after `add("A", "", 1)` the start label `"A"` is a
vertex and its neighbour iterator hands out the label `""`, for which
`findVertex` answers `nullptr`; both traversals then call `isVisited()` through
that null pointer. -/
theorem traversal_empty_neighbour_faults :
    "A" ∈ (build [("A", "", 1)]).labels ∧
      "" ∈ (build [("A", "", 1)]).neighbours "A" ∧
      (build [("A", "", 1)]).findVertex "" = none ∧
      (build [("A", "", 1)]).depthFirstTraversal "A" = Run.fail Fault.nullDeref ∧
      (build [("A", "", 1)]).breadthFirstTraversal "A" = Run.fail Fault.nullDeref := by
  decide

end Graph

/-! ## The shortest-path loop: stale queue entries -/

namespace Graph

/-- C16 (code defect, the same one as for C1): a popped vertex is never recorded
as finalized, so a stale queue entry is processed like a fresh one.  No step
of the loop changes `vertexSet`, which only ever holds the start label.  On the
graph `A -> B` (1), `A -> C` (8), `B -> C` (3), `C -> D` (1) with start `"A"`:
after the first step the top entry is `(C, 4)` and `D` has no cost yet; the
second step processes `C` and relaxes its edge to `D` (cost 5); after the third
step the top entry is the stale `(C, 8)`, `C` is not in `vertexSet`, and the
fourth step is not skipped but reads the neighbours of `C` again, which ends in
the dereference of `end()`. -/
theorem dijkstra_stale_entry_processed :
    (∀ s s', dijkstraStep s = Run.ok s' → s'.vertexSet = s.vertexSet) ∧
    ∃ s1 s2 s3 : DijkstraState,
      (dijkstraStart (build [("A", "B", 1), ("A", "C", 8), ("B", "C", 3), ("C", "D", 1)])
        "A" [] []).bind (dijkstraSteps 1) = Run.ok s1 ∧
      pqTop s1.pq = some ("C", 4) ∧ mapFind s1.weight "D" = none ∧
      dijkstraStep s1 = Run.ok s2 ∧ mapFind s2.weight "D" = some 5 ∧
      dijkstraStep s2 = Run.ok s3 ∧ pqTop s3.pq = some ("C", 8) ∧
      mapCount s3.vertexSet "C" = 0 ∧
      s3.graph.getNextNeighborAt "C" = Run.ok ("", s3.graph) ∧
      dijkstraStep s3 = Run.fail Fault.endDeref :=
  ⟨fun _ _ h => (dijkstraStep_flags h).2,
    _, _, _, rfl, rfl, rfl, rfl, rfl, rfl, rfl, rfl, rfl, rfl⟩

/-- C17 (code defect, the same one as for C1): on the graph `O -> P` (7),
`O -> Q` (2), `Q -> P` (1), `P -> R` (2), all labels non-empty and all weights
non-negative, with the existing start label `"O"`, the relaxation loop does
reach the unchecked lookup with a label that is no out-neighbour.  After three
steps the top entry is the stale `(P, 7)`; `P` is found by `findVertex`, its
iterator is exhausted, `getNextNeighbor` hands back `""`, which is not a
neighbour of `P`, and `getEdgeWeight("")` dereferences `end()`; so does the
whole run, for every loop allowance of at least four. -/
theorem dijkstra_lookup_of_sentinel :
    NonEmptyLabels [("O", "P", 7), ("O", "Q", 2), ("Q", "P", 1), ("P", "R", 2)] ∧
    (∀ c ∈ [("O", "P", (7 : Int)), ("O", "Q", 2), ("Q", "P", 1), ("P", "R", 2)], 0 ≤ c.2.2) ∧
    "O" ∈ (build [("O", "P", 7), ("O", "Q", 2), ("Q", "P", 1), ("P", "R", 2)]).labels ∧
    (∃ (s3 : DijkstraState) (vP : Vertex),
      (dijkstraStart (build [("O", "P", 7), ("O", "Q", 2), ("Q", "P", 1), ("P", "R", 2)])
        "O" [] []).bind (dijkstraSteps 3) = Run.ok s3 ∧
      pqTop s3.pq = some ("P", 7) ∧ mapCount s3.vertexSet "P" = 0 ∧
      s3.graph.findVertex "P" = some "P" ∧ s3.graph.deref "P" = Run.ok vP ∧
      (vP.getNextNeighbor).1 = "" ∧ "" ∉ mapKeys vP.adjacencyList ∧
      vP.getEdgeWeight "" = Run.fail Fault.endDeref ∧
      dijkstraStep s3 = Run.fail Fault.endDeref) ∧
    ∀ (k : Nat) (weight : List (String × Int)) (previous : List (String × String)),
      dijkstraCostToAllVertices (k + 4)
        (build [("O", "P", 7), ("O", "Q", 2), ("Q", "P", 1), ("P", "R", 2)]) "O"
        weight previous = Run.fail Fault.endDeref :=
  ⟨by decide, by decide, by decide,
    ⟨_, _, rfl, rfl, rfl, rfl, rfl, rfl, by decide, rfl, rfl⟩,
    by intro k weight previous; rfl⟩

end Graph

/-! ## The shortest-path run does not always return: the claim -/

namespace Graph

/-- C19 (code defect, the same one as for C1): on the graph `S -> A` (4),
`S -> B` (1), `B -> A` (1), `A -> C` (0), `C -> A` (0), whose weights are not
negative and which has a cycle of weight zero, with the existing start label
`"S"`, `dijkstraCostToAllVertices` does not run to its end.  The queue holds
`(A, 4)` from the first loop and gets `(A, 2)` when `B` is processed; `A` is
processed at `(A, 2)`, then `C`; after three rounds of the `while` loop the
stale entry `(A, 4)` is the only one left, `A` is not in `vertexSet`, and the
fourth round processes `A` again and dereferences `end()` in
`getEdgeWeight("")`.  So the run is that fault for every allowance of at least
four rounds and returns for no allowance, with the queue of `pqTop` as well as
over the binary heap with wrapping addition; the costs in the queue are
distinct at every pop. -/
theorem dijkstra_fails_to_return :
    (∀ c ∈ [("S", "A", (4 : Int)), ("S", "B", 1), ("B", "A", 1), ("A", "C", 0), ("C", "A", 0)],
        0 ≤ c.2.2) ∧
      "S" ∈ (build [("S", "A", 4), ("S", "B", 1), ("B", "A", 1), ("A", "C", 0),
        ("C", "A", 0)]).labels ∧
      (∃ s3 : DijkstraState,
        (dijkstraStart (build [("S", "A", 4), ("S", "B", 1), ("B", "A", 1), ("A", "C", 0),
          ("C", "A", 0)]) "S" [] []).bind (dijkstraSteps 3) = Run.ok s3 ∧
        s3.pq = [("A", 4)] ∧ mapFind s3.weight "A" = some 2 ∧
        mapCount s3.vertexSet "A" = 0 ∧
        dijkstraStep s3 = Run.fail Fault.endDeref) ∧
      (∀ k weight previous,
        dijkstraCostToAllVertices (k + 4)
          (build [("S", "A", 4), ("S", "B", 1), ("B", "A", 1), ("A", "C", 0), ("C", "A", 0)])
          "S" weight previous = Run.fail Fault.endDeref) ∧
      (∀ k weight previous,
        dijkstraCostToAllVerticesOn binaryHeap (k + 4)
          (build [("S", "A", 4), ("S", "B", 1), ("B", "A", 1), ("A", "C", 0), ("C", "A", 0)])
          "S" weight previous = Run.fail Fault.endDeref) ∧
      (∀ fuel weight previous r,
        dijkstraCostToAllVertices fuel
          (build [("S", "A", 4), ("S", "B", 1), ("B", "A", 1), ("A", "C", 0), ("C", "A", 0)])
          "S" weight previous ≠ Run.ok r) ∧
      (∀ fuel weight previous r,
        dijkstraCostToAllVerticesOn binaryHeap fuel
          (build [("S", "A", 4), ("S", "B", 1), ("B", "A", 1), ("A", "C", 0), ("C", "A", 0)])
          "S" weight previous ≠ Run.ok r) := by
  have hb : dijkstraCostToAllVerticesOn binaryHeap 4
      (build [("S", "A", 4), ("S", "B", 1), ("B", "A", 1), ("A", "C", 0), ("C", "A", 0)])
      "S" [] [] = Run.fail Fault.endDeref := by rfl
  have hf : dijkstraCostToAllVerticesOn firstPushed 4
      (build [("S", "A", 4), ("S", "B", 1), ("B", "A", 1), ("A", "C", 0), ("C", "A", 0)])
      "S" [] [] = Run.fail Fault.endDeref := by rfl
  have hne : Fault.endDeref ≠ Fault.outOfFuel := by decide
  have hne2 : (Run.fail Fault.endDeref :
      Run (Graph × List (String × Int) × List (String × String))) ≠
      Run.fail Fault.outOfFuel := by simp
  refine ⟨by decide, by decide, ⟨_, rfl, rfl, rfl, rfl, rfl⟩, ?_, ?_, ?_, ?_⟩
  · intro k weight previous
    rw [← dijkstraOn_firstPushed, dijkstraOn_maps, Nat.add_comm k 4]
    exact dijkstraOn_more firstPushed 4 _ _ _ _ _ hf hne2 k
  · intro k weight previous
    rw [dijkstraOn_maps, Nat.add_comm k 4]
    exact dijkstraOn_more binaryHeap 4 _ _ _ _ _ hb hne2 k
  · intro fuel weight previous r
    rw [← dijkstraOn_firstPushed]
    exact dijkstraOn_never_returns firstPushed 4 _ _ _ hf hne fuel weight previous r
  · intro fuel weight previous r
    exact dijkstraOn_never_returns binaryHeap 4 _ _ _ hb hne fuel weight previous r

end Graph

/-! ## What the runs leave as it was: the claim -/

namespace Graph

/-- C21: for every graph state and every start label, a call of
`depthFirstTraversal`, of `breadthFirstTraversal` or of
`dijkstraCostToAllVertices` that returns (the last over any priority queue,
any `int` addition and any contents of the output maps) leaves the skeleton of
the graph as it was, and so does every state that the `while` loop of
`dijkstraCostToAllVertices` reaches.  Equal skeletons mean: the same labels,
the same adjacency list (targets and weights) under every label, the same
`getNumVertices()` and `getNumEdges()`, and the same graph once
`unvisitAllVertices` has cleared the flags and rewound the iterators; so only
flags and iterators can differ. -/
theorem traversals_change_only_flags (g : Graph) (start : String) :
    (∀ g' out, g.depthFirstTraversal start = Run.ok (g', out) → skeleton g' = skeleton g) ∧
    (∀ g' out, g.breadthFirstTraversal start = Run.ok (g', out) → skeleton g' = skeleton g) ∧
    (∀ I fuel w p g' w' p',
      dijkstraCostToAllVerticesOn I fuel g start w p = Run.ok (g', w', p') →
      skeleton g' = skeleton g) ∧
    (∀ I w p n s, (dijkstraStartOn I g start w p).bind (dijkstraStepsOn I n) = Run.ok s →
      skeleton s.graph = skeleton g) ∧
    (∀ g', skeleton g' = skeleton g →
      g'.labels = g.labels ∧ g'.getNumVertices = g.getNumVertices ∧
        g'.getNumEdges = g.getNumEdges ∧
        (∀ p, (mapFind g'.vertices p).map (fun v => v.adjacencyList) =
          (mapFind g.vertices p).map (fun v => v.adjacencyList)) ∧
        g'.unvisitAllVertices = g.unvisitAllVertices) := by
  refine ⟨fun _ _ h => skeleton_of_flags (dfs_flags h),
    fun _ _ h => skeleton_of_flags (bfs_flags h),
    fun _ _ _ _ _ _ _ h => skeleton_of_flags (dijkstraOn_flags h), ?_,
    fun _ h => skeleton_observers h⟩
  intro I w p n s h
  cases hs : dijkstraStartOn I g start w p with
  | fail f => rw [hs] at h; cases h
  | ok s0 =>
    rw [hs, Run.ok_bind] at h
    exact skeleton_of_flags
      ((dijkstraStepsOn_flags I n s0 s h).trans (dijkstraStartOn_flags hs))

/-- C21 on a graph on which four queue entries of cost 1 tie (`S -> W, X, Y, Z`
of weight 1 each, `X -> T` of weight 5, `Y -> T` of weight 0, `T -> U` of weight
1), with start `"S"`: each of the three functions returns (the last over the
binary heap, which pops `W, Y, X, Z`), each hands back a graph state that
differs from the one before (in flags and iterators), and the skeleton is as
before. -/
theorem traversals_change_only_flags_witness :
    (∃ g' out, (build [("S", "W", 1), ("S", "X", 1), ("S", "Y", 1), ("S", "Z", 1),
          ("X", "T", 5), ("Y", "T", 0), ("T", "U", 1)]).depthFirstTraversal "S" =
        Run.ok (g', out) ∧
        g' ≠ build [("S", "W", 1), ("S", "X", 1), ("S", "Y", 1), ("S", "Z", 1),
          ("X", "T", 5), ("Y", "T", 0), ("T", "U", 1)] ∧
        skeleton g' = skeleton (build [("S", "W", 1), ("S", "X", 1), ("S", "Y", 1),
          ("S", "Z", 1), ("X", "T", 5), ("Y", "T", 0), ("T", "U", 1)])) ∧
    (∃ g' out, (build [("S", "W", 1), ("S", "X", 1), ("S", "Y", 1), ("S", "Z", 1),
          ("X", "T", 5), ("Y", "T", 0), ("T", "U", 1)]).breadthFirstTraversal "S" =
        Run.ok (g', out) ∧
        g' ≠ build [("S", "W", 1), ("S", "X", 1), ("S", "Y", 1), ("S", "Z", 1),
          ("X", "T", 5), ("Y", "T", 0), ("T", "U", 1)] ∧
        skeleton g' = skeleton (build [("S", "W", 1), ("S", "X", 1), ("S", "Y", 1),
          ("S", "Z", 1), ("X", "T", 5), ("Y", "T", 0), ("T", "U", 1)])) ∧
    (∃ g' w' p', dijkstraCostToAllVerticesOn binaryHeap 8
          (build [("S", "W", 1), ("S", "X", 1), ("S", "Y", 1), ("S", "Z", 1),
            ("X", "T", 5), ("Y", "T", 0), ("T", "U", 1)]) "S" [] [] =
        Run.ok (g', w', p') ∧
        g' ≠ build [("S", "W", 1), ("S", "X", 1), ("S", "Y", 1), ("S", "Z", 1),
          ("X", "T", 5), ("Y", "T", 0), ("T", "U", 1)] ∧
        skeleton g' = skeleton (build [("S", "W", 1), ("S", "X", 1), ("S", "Y", 1),
          ("S", "Z", 1), ("X", "T", 5), ("Y", "T", 0), ("T", "U", 1)])) :=
  ⟨⟨_, _, rfl, by decide,
      (traversals_change_only_flags (build [("S", "W", 1), ("S", "X", 1), ("S", "Y", 1),
        ("S", "Z", 1), ("X", "T", 5), ("Y", "T", 0), ("T", "U", 1)]) "S").1 _ _ rfl⟩,
    ⟨_, _, rfl, by decide,
      (traversals_change_only_flags (build [("S", "W", 1), ("S", "X", 1), ("S", "Y", 1),
        ("S", "Z", 1), ("X", "T", 5), ("Y", "T", 0), ("T", "U", 1)]) "S").2.1 _ _ rfl⟩,
    ⟨_, _, _, rfl, by decide,
      (traversals_change_only_flags (build [("S", "W", 1), ("S", "X", 1), ("S", "Y", 1),
        ("S", "Z", 1), ("X", "T", 5), ("Y", "T", 0), ("T", "U", 1)]) "S").2.2.1
        binaryHeap 8 [] [] _ _ _ rfl⟩⟩

end Graph

end DirectedGraph
